import Mathlib

/-!
# Bencode codec and piece pipeline of the BitTorrent client

A shallow embedding of `src/lib/decode.hpp` (decoder and encoder), of
`parse_torrent` and the hex helpers of `src/lib/utils.hpp`, of the records of
`src/lib/torrent.hpp`, of the peer messages, the handshake and the compact peer
list of `src/lib/peers.hpp`, and of the work queue, the resume scan, the piece
download and the download loop of `src/lib/download.hpp`, followed by theorems
about them.

Conventions of the embedding:

* a `std::string` or `std::vector<uint8_t>` is the list of its bytes, each byte
  a natural number (its value as `unsigned char`); in the code below 48 to 57
  are the digits, 43 is `+`, 45 is `-`, 58 is `:`, 100 is `d`, 101 is `e`,
  105 is `i` and 108 is `l`;
* the iterator pair `(it, end)` of the decoder is the list of the bytes in
  `[it, end)`: `it == end` is the empty list, `*it` its head, `++it` its tail;
* a call returns `Except Fault _`: a C++ exception and an access with
  undefined behaviour are both a `Fault`, told apart by the constructor;
* `int64_t` values are `Int`; conversions to other integer types are written
  with an explicit modulus;
* the recursive decoder carries a recursion bound (fuel); the functions named
  as in the source run it with a bound that is proved never to be used up;
* `nlohmann::json`, `std::stoll`, `std::to_string`, `std::isdigit` and
  `std::map` are library code: they are modelled by what the library documents;
* a socket is the list of the deliveries still to come, `recv` returning at
  most one delivery; a file is the list of its bytes; SHA-1 is a parameter, a
  function from bytes to a digest.
-/

namespace BitTorrent

/-- Contents of a `std::string`: one natural number per byte. -/
abbrev Bytes := List Nat

/-- The bytes of an ASCII literal. -/
def bytes (s : String) : Bytes := s.toList.map Char.toNat

/-- How a call can end other than by returning. -/
inductive Fault where
  /-- `std::runtime_error` thrown by the decoder or the encoder. -/
  | runtime_error
  /-- `std::invalid_argument` thrown by `std::stoll` (no conversion). -/
  | invalid_argument
  /-- `std::out_of_range` thrown by `std::stoll` (value outside `int64_t`). -/
  | out_of_range
  /-- `nlohmann::json::type_error` (for example `get<std::string>()` on a number). -/
  | type_error
  /-- `std::length_error`: a container is asked for more than `max_size()` elements. -/
  | length_error
  /-- Undefined behaviour: an iterator is moved or read beyond `end`. -/
  | past_the_end
  /-- Undefined behaviour of integer `%`: zero divisor, or `INT64_MIN % -1`. -/
  | bad_remainder
  /-- The recursion bound of the embedding is used up (not a behaviour of the program). -/
  | out_of_fuel
  deriving DecidableEq, Repr

/-- The part of `nlohmann::json` the program uses. An object is a
`std::map<std::string, json>`: its entries are kept in ascending key order.
`null` is the value `operator[]` creates for an absent key. -/
inductive Json where
  | null
  | str (s : Bytes)
  | int (n : Int)
  | arr (xs : List Json)
  | obj (kvs : List (Bytes × Json))
  deriving Repr, Inhabited

/-! ## Library functions used by the codec -/

/-- `std::isdigit` on a byte. -/
def isdigit (c : Nat) : Bool := decide (48 ≤ c) && decide (c ≤ 57)

/-- `std::isspace` in the C locale: space, `\t`, `\n`, `\v`, `\f`, `\r`. -/
def isspace (c : Nat) : Bool := decide (c = 32) || (decide (9 ≤ c) && decide (c ≤ 13))

/-- `s.c_str()` read back as a C string: the bytes before the first NUL. -/
def c_str (s : Bytes) : Bytes := s.takeWhile (fun c => c != 0)

/-- Value of a run of decimal digits, most significant first. -/
def digits_value (ds : Bytes) : Nat := ds.foldl (fun acc d => acc * 10 + (d - 48)) 0

/-- `std::stoll(str)` in base 10: skip white space, take an optional sign, then
the longest run of digits; whatever follows the run is ignored. -/
def stoll (str : Bytes) : Except Fault Int :=
  let s := str.dropWhile isspace
  let neg : Bool := match s with
    | 45 :: _ => true
    | _ => false
  let s := match s with
    | 45 :: t => t
    | 43 :: t => t
    | _ => s
  let ds := s.takeWhile isdigit
  if ds.isEmpty then .error .invalid_argument
  else
    let n : Int := if neg then -(digits_value ds : Int) else (digits_value ds : Int)
    if n < -(2 : Int) ^ 63 ∨ (2 : Int) ^ 63 - 1 < n then .error .out_of_range
    else .ok n

/-- Digits of `n`, most significant first, pushed in front of `acc`. -/
def to_string_aux : Nat → Nat → Bytes → Bytes
  | 0, _, acc => acc
  | fuel + 1, n, acc =>
    if n < 10 then (48 + n) :: acc
    else to_string_aux fuel (n / 10) ((48 + n % 10) :: acc)

/-- `std::to_string` of an unsigned value (`str.size()`). -/
def to_string_nat (n : Nat) : Bytes := to_string_aux (n + 1) n []

/-- `std::to_string(int64_t)`. -/
def to_string_int (n : Int) : Bytes :=
  if n < 0 then 45 :: to_string_nat n.natAbs else to_string_nat n.toNat

/-- `operator<` of `std::string`: lexicographic on unsigned bytes. -/
def string_lt : Bytes → Bytes → Bool
  | [], [] => false
  | [], _ :: _ => true
  | _ :: _, [] => false
  | a :: s, b :: t => decide (a < b) || (decide (a = b) && string_lt s t)

/-- `dict[key] = value` on a `std::map`: insert at the key's place, or assign
to the entry already there. -/
def map_assign (key : Bytes) (value : Json) : List (Bytes × Json) → List (Bytes × Json)
  | [] => [(key, value)]
  | (k, v) :: rest =>
    if string_lt key k then (key, value) :: (k, v) :: rest
    else if string_lt k key then (k, v) :: map_assign key value rest
    else (k, value) :: rest

/-- `j.get<std::string>()`. -/
def Json.get_string : Json → Except Fault Bytes
  | .str s => .ok s
  | _ => .error .type_error

/-- `std::map::find` on the entry list. -/
def map_find (key : Bytes) : List (Bytes × Json) → Option Json
  | [] => none
  | (k, v) :: rest => if k = key then some v else map_find key rest

/-- The value `j[key]` refers to (non-const `operator[]`): an absent key, and a
null `j`, give null; a `j` that is neither object nor null throws. -/
def Json.index (j : Json) (key : Bytes) : Except Fault Json :=
  match j with
  | .null => .ok .null
  | .obj kvs => .ok ((map_find key kvs).getD .null)
  | _ => .error .type_error

/-! ## `decode.hpp`: the decoder -/

/-- `decode_string(it, end)`. The bytes of the string are taken with
`std::string str(it, it + length)` and the cursor is moved by `it += length`
without comparing `length` with `end - it`: when fewer than `length` bytes
remain, the call reads beyond `end` and leaves the cursor beyond `end`. That
is undefined behaviour, which the embedding records as `past_the_end` at the
point where it happens; what the program does from there on is not modelled. -/
def decode_string (it : Bytes) : Except Fault (Json × Bytes) :=
  let number_string := it.takeWhile isdigit
  match it.dropWhile isdigit with
  | [] => .error .runtime_error
  | c :: it =>
    if c != 58 then .error .runtime_error
    else
      match stoll (c_str number_string) with
      | .error e => .error e
      | .ok length =>
        if 0 ≤ length ∧ length.toNat ≤ it.length then
          .ok (.str (it.take length.toNat), it.drop length.toNat)
        else .error .past_the_end

/-- `decode_integer(it, end)`: the bytes between the leading `i` and the first
`e` go to `std::stoll`. -/
def decode_integer (it : Bytes) : Except Fault (Json × Bytes) :=
  match it with
  | [] => .error .past_the_end
  | _ :: it =>
    let integer_string := it.takeWhile (fun c => c != 101)
    match it.dropWhile (fun c => c != 101) with
    | [] => .error .runtime_error
    | _ :: it =>
      match stoll (c_str integer_string) with
      | .error e => .error e
      | .ok integer => .ok (.int integer, it)

mutual
/-- `decode_bencoded_value(it, end)` with a recursion bound. -/
def decode_bencoded_value_fuel : Nat → Bytes → Except Fault (Json × Bytes)
  | 0, _ => .error .out_of_fuel
  | fuel + 1, it =>
    match it with
    | [] => .error .runtime_error
    | type :: _ =>
      if isdigit type then decode_string it
      else if type = 105 then decode_integer it
      else if type = 108 then decode_list_fuel fuel it
      else if type = 100 then decode_dict_fuel fuel it
      else .error .runtime_error
/-- `decode_list(it, end)` with a recursion bound. -/
def decode_list_fuel : Nat → Bytes → Except Fault (Json × Bytes)
  | 0, _ => .error .out_of_fuel
  | fuel + 1, it =>
    match it with
    | [] => .error .past_the_end
    | _ :: it => decode_list_loop fuel it []
/-- The `while` loop of `decode_list`; `list` is the array built so far. -/
def decode_list_loop : Nat → Bytes → List Json → Except Fault (Json × Bytes)
  | 0, _, _ => .error .out_of_fuel
  | fuel + 1, it, list =>
    match it with
    | [] => .error .runtime_error
    | c :: rest =>
      if c != 101 then
        match decode_bencoded_value_fuel fuel it with
        | .error e => .error e
        | .ok (value, it) => decode_list_loop fuel it (list ++ [value])
      else .ok (.arr list, rest)
/-- `decode_dict(it, end)` with a recursion bound. -/
def decode_dict_fuel : Nat → Bytes → Except Fault (Json × Bytes)
  | 0, _ => .error .out_of_fuel
  | fuel + 1, it =>
    match it with
    | [] => .error .past_the_end
    | _ :: it => decode_dict_loop fuel it []
/-- The `while` loop of `decode_dict`; `dict` is the map built so far. -/
def decode_dict_loop : Nat → Bytes → List (Bytes × Json) → Except Fault (Json × Bytes)
  | 0, _, _ => .error .out_of_fuel
  | fuel + 1, it, dict =>
    match it with
    | [] => .error .runtime_error
    | c :: rest =>
      if c != 101 then
        match decode_bencoded_value_fuel fuel it with
        | .error e => .error e
        | .ok (key, it) =>
          match decode_bencoded_value_fuel fuel it with
          | .error e => .error e
          | .ok (value, it) =>
            match key.get_string with
            | .error e => .error e
            | .ok k => decode_dict_loop fuel it (map_assign k value dict)
      else .ok (.obj dict, rest)
end

/-- `decode_bencoded_value(it, end)`: the value and the cursor after it. The
bound `3 * length + 1` is never used up (`fuel_adequate`). -/
def decode_bencoded_value (it : Bytes) : Except Fault (Json × Bytes) :=
  decode_bencoded_value_fuel (3 * it.length + 1) it

/-- `decode_list(it, end)`. -/
def decode_list (it : Bytes) : Except Fault (Json × Bytes) :=
  decode_list_fuel (3 * it.length + 1) it

/-- `decode_dict(it, end)`. -/
def decode_dict (it : Bytes) : Except Fault (Json × Bytes) :=
  decode_dict_fuel (3 * it.length + 1) it

/-- The overload `decode_bencoded_value(const std::string&)`: the cursor is dropped. -/
def decode_bencoded_value_string (encoded_value : Bytes) : Except Fault Json :=
  match decode_bencoded_value encoded_value with
  | .error e => .error e
  | .ok (value, _) => .ok value

/-! ## `decode.hpp`: the encoder -/

/-- `json::object()`: a static factory, the empty object whatever it is called on. -/
def Json.object : Json := .obj []

/-- What `bencode_decoded_value` returns for `json::object()`: the object
branch with no entry (`bencode_decoded_value_object` proves it). -/
def bencode_fresh_object : Bytes := 100 :: [] ++ [101]

/-- The array loop of `bencode_decoded_value`: each step encodes
`value.object()`, the empty object, not `value`. -/
def bencode_array_items : List Json → Bytes
  | [] => []
  | _value :: rest => bencode_fresh_object ++ bencode_array_items rest

mutual
/-- `bencode_decoded_value(decoded_value)`. -/
def bencode_decoded_value : Json → Except Fault Bytes
  | .str str => .ok (to_string_nat str.length ++ 58 :: str)
  | .int n => .ok (105 :: to_string_int n ++ [101])
  | .arr xs => .ok (108 :: bencode_array_items xs ++ [101])
  | .obj kvs =>
    match bencode_object_items kvs with
    | .error e => .error e
    | .ok items => .ok (100 :: items ++ [101])
  | .null => .error .runtime_error
/-- The object loop of `bencode_decoded_value`, over the entries in map order. -/
def bencode_object_items : List (Bytes × Json) → Except Fault Bytes
  | [] => .ok []
  | (key, value) :: rest =>
    match bencode_decoded_value value with
    | .error e => .error e
    | .ok encoded =>
      match bencode_object_items rest with
      | .error e => .error e
      | .ok items => .ok (to_string_nat key.length ++ 58 :: key ++ encoded ++ items)
end

/-- Lines 31-32 of `parse_torrent`: the string handed to SHA-1,
`bencode_decoded_value(decoded_value["info"])`. -/
def parse_torrent_info_bencoded (encoded_value : Bytes) : Except Fault Bytes :=
  match decode_bencoded_value_string encoded_value with
  | .error e => .error e
  | .ok decoded_value =>
    match decoded_value.index (bytes "info") with
    | .error e => .error e
    | .ok info => bencode_decoded_value info

/-! ## The canonical bencoding of the specification -/

mutual
/-- The canonical bencoding, following the spec's words (section 4.1): integers
as decimals without leading zeros, byte strings length-prefixed, lists as
`l<values>e`, mappings as `d<pairs>e` with the keys in ascending order (the
order of the entry list). It is the reference the code is compared with. -/
def spec_encode : Json → Bytes
  | .str s => to_string_nat s.length ++ 58 :: s
  | .int n => 105 :: to_string_int n ++ [101]
  | .arr xs => 108 :: spec_encode_list xs ++ [101]
  | .obj kvs => 100 :: spec_encode_entries kvs ++ [101]
  | .null => []
/-- The values of a list, one after the other. -/
def spec_encode_list : List Json → Bytes
  | [] => []
  | x :: xs => spec_encode x ++ spec_encode_list xs
/-- The pairs of a mapping, one after the other: key as a byte string, then value. -/
def spec_encode_entries : List (Bytes × Json) → Bytes
  | [] => []
  | (k, v) :: rest =>
    (to_string_nat k.length ++ 58 :: k) ++ spec_encode v ++ spec_encode_entries rest
end

/-- Each key is below the next one. -/
def keys_ascending : List Bytes → Bool
  | [] => true
  | [_] => true
  | a :: b :: rest => string_lt a b && keys_ascending (b :: rest)

mutual
/-- A bencode value of the data model (spec section 3): no null, integers in
the signed 64-bit range, sizes a `std::string` can have, mapping keys strictly
ascending. -/
def Json.conforming : Json → Bool
  | .null => false
  | .str s => decide (s.length < 2 ^ 63)
  | .int n => decide (-(2 : Int) ^ 63 ≤ n) && decide (n < (2 : Int) ^ 63)
  | .arr xs => conforming_list xs
  | .obj kvs => keys_ascending (kvs.map Prod.fst) && conforming_entries kvs
/-- Every value of the list is conforming. -/
def conforming_list : List Json → Bool
  | [] => true
  | x :: xs => x.conforming && conforming_list xs
/-- Every key has a possible size and every value is conforming (the order of
the keys is not looked at). -/
def conforming_entries : List (Bytes × Json) → Bool
  | [] => true
  | (k, v) :: rest => decide (k.length < 2 ^ 63) && v.conforming && conforming_entries rest
end

/-- The map built by assigning the entries one after the other. -/
def assign_all (dict : List (Bytes × Json)) (kvs : List (Bytes × Json)) : List (Bytes × Json) :=
  kvs.foldl (fun d kv => map_assign kv.1 kv.2 d) dict


mutual
/-- No list occurs in the value, at any depth. -/
def Json.list_free : Json → Bool
  | .arr _ => false
  | .obj kvs => list_free_entries kvs
  | _ => true
/-- No list occurs in the values of the entries. -/
def list_free_entries : List (Bytes × Json) → Bool
  | [] => true
  | (_, v) :: rest => v.list_free && list_free_entries rest
end

mutual
/-- The shape of a value built by the decoder: no null, and the entries of
every object, at any depth, in strictly ascending key order (they live in a
`std::map`). -/
def Json.ordered : Json → Bool
  | .null => false
  | .str _ => true
  | .int _ => true
  | .arr xs => ordered_list xs
  | .obj kvs => keys_ascending (kvs.map Prod.fst) && ordered_entries kvs
/-- Every value of the list is ordered. -/
def ordered_list : List Json → Bool
  | [] => true
  | x :: xs => x.ordered && ordered_list xs
/-- Every value of the entries is ordered. -/
def ordered_entries : List (Bytes × Json) → Bool
  | [] => true
  | (_, v) :: rest => v.ordered && ordered_entries rest
end

/-- What the object loop of the encoder writes for the entries `kvs` when
`encs` are the encodings of their values: for each entry in turn the length
of the key, a colon, the key, and the encoded value. -/
def emitted_entries : List (Bytes × Json) → List Bytes → Bytes
  | (k, _) :: kvs, e :: encs => to_string_nat k.length ++ 58 :: k ++ e ++ emitted_entries kvs encs
  | _, _ => []

/-! ## `torrent.hpp` and the metainfo of the specification -/

/-- `struct Info` of `torrent.hpp`. -/
structure Info where
  name : Bytes
  /-- Piece length (`int64_t`). -/
  plength : Int
  pieces : Bytes
  /-- Length of the file in bytes (`int64_t`). -/
  length : Int
  path : List Bytes
  hash : Bytes
  deriving Repr

/-- `struct Torrent` of `torrent.hpp`. -/
structure Torrent where
  announce : Bytes
  info : Info
  deriving Repr

/-- The info dictionary of a single-file metainfo (spec section 3), under the
keys `parse_torrent` reads. -/
def Info.to_json (info : Info) : Json :=
  .obj [(bytes "length", .int info.length), (bytes "name", .str info.name),
    (bytes "piece length", .int info.plength), (bytes "pieces", .str info.pieces)]

/-- The metainfo as a bencode value: `announce` and the info dictionary. -/
def Torrent.to_json (t : Torrent) : Json :=
  .obj [(bytes "announce", .str t.announce), (bytes "info", t.info.to_json)]

/-- A valid metainfo (spec section 3): positive piece length and length, a
`pieces` string of `P` digests with `(P-1) * piece_length < length <= P * piece_length`,
all of it within what `int64_t` and `std::string` can hold. -/
def Torrent.valid (t : Torrent) : Prop :=
  0 < t.info.plength ∧ 0 < t.info.length ∧ t.info.pieces.length % 20 = 0 ∧
  ((t.info.pieces.length / 20 : Nat) - 1 : Int) * t.info.plength < t.info.length ∧
  t.info.length ≤ (t.info.pieces.length / 20 : Nat) * t.info.plength ∧
  t.info.plength < 2 ^ 63 ∧ t.info.length < 2 ^ 63 ∧
  t.announce.length < 2 ^ 63 ∧ t.info.name.length < 2 ^ 63 ∧ t.info.pieces.length < 2 ^ 63

/-- The info dictionary of scenario S3 of the specification. -/
def s3_info : Info :=
  { name := bytes "x", plength := 16, pieces := List.replicate 20 0, length := 12,
    path := [], hash := [] }

/-! ## `download.hpp`: piece lengths and the block requests of `download_piece` -/

/-- Conversion of a signed value to `size_t` (64 bits). -/
def to_size_t (v : Int) : Nat := (v % 2 ^ 64).toNat

/-- `static_cast<int>` of a 64-bit value (32-bit `int`, wrapping). -/
def to_int32 (v : Int) : Int := (v + 2 ^ 31) % 2 ^ 32 - 2 ^ 31

/-- `a % b` on `int64_t`: the remainder of the division truncated toward
zero; undefined for a zero divisor and for `INT64_MIN % -1`. -/
def int64_rem (a b : Int) : Except Fault Int :=
  if b = 0 ∨ (a = -(2 : Int) ^ 63 ∧ b = -1) then .error .bad_remainder
  else .ok (Int.tmod a b)

/-- Lines 119-120 of `download_piece`: the length of piece `piece_index`.
The `int` index is compared with the `size_t` value `pieces.size() / 20 - 1`. -/
def download_piece_length (info : Info) (piece_index : Int) : Except Fault Int :=
  if to_size_t piece_index = to_size_t ((info.pieces.length / 20 : Nat) - 1) then
    int64_rem info.length info.plength
  else .ok info.plength

/-- Line 267 of `recheck_existing_file`: the length of piece `i`, a `size_t`. -/
def recheck_piece_length (info : Info) (i : Nat) : Except Fault Nat :=
  let piece_count := info.pieces.length / 20
  if i = to_size_t ((piece_count : Int) - 1) then
    match int64_rem info.length info.plength with
    | .error e => .error e
    | .ok r => .ok (to_size_t r)
  else .ok (to_size_t info.plength)

/-- `struct PeerMessage` of `peers.hpp`. -/
structure PeerMessage where
  length : Nat
  id : Nat
  payload : Bytes
  deriving Repr

/-- `BLOCK_SIZE` of `download_piece`. -/
def BLOCK_SIZE : Int := 16 * 1024

/-- The four bytes `memcpy` copies from `htonl(v)`: `v` as `uint32_t`, most
significant byte first. -/
def htonl_bytes (v : Int) : Bytes :=
  let u := (v % 2 ^ 32).toNat
  [u / 2 ^ 24 % 256, u / 2 ^ 16 % 256, u / 2 ^ 8 % 256, u % 256]

/-- The unsigned number a run of bytes denotes, most significant byte first. -/
def be_value (bs : Bytes) : Nat := bs.foldl (fun acc b => acc * 256 + b) 0

/-- Lines 128-138 of `download_piece`: the 12-byte payload of the request for
the block at `offset`. -/
def request_payload (piece_index offset piece_length : Int) : Bytes :=
  let block_length := min BLOCK_SIZE (to_int32 (piece_length - offset))
  htonl_bytes piece_index ++ htonl_bytes offset ++ htonl_bytes block_length

/-- The request loop of `download_piece` (lines 126-154) from `offset` on.
`inbound` holds what the successive calls of `read_peer_message` give (a
message, or the exception thrown; nothing left is a failed read), and every
`send_peer_message` is taken to succeed. The result is the list of request
payloads sent and the outcome: the assembled `piece_data`, or the fault that
ended the loop. -/
def request_loop (piece_index piece_length : Int) :
    List (Except Fault PeerMessage) → Int → Bytes → List Bytes × Except Fault Bytes
  | [], offset, piece_data =>
    if offset < piece_length then
      ([request_payload piece_index offset piece_length], .error .runtime_error)
    else ([], .ok piece_data)
  | received :: inbound, offset, piece_data =>
    if offset < piece_length then
      match received with
      | .error e => ([request_payload piece_index offset piece_length], .error e)
      | .ok piece_msg =>
        if piece_msg.id ≠ 7 then
          ([request_payload piece_index offset piece_length], .error .runtime_error)
        else if piece_msg.payload.length < 8 then
          ([request_payload piece_index offset piece_length], .error .past_the_end)
        else
          let rest := request_loop piece_index piece_length inbound (offset + BLOCK_SIZE)
            (piece_data ++ piece_msg.payload.drop 8)
          (request_payload piece_index offset piece_length :: rest.1, rest.2)
    else ([], .ok piece_data)

/-- A metainfo whose length is an exact multiple of the piece length: two
pieces of 16384 bytes. -/
def two_full_pieces : Torrent :=
  { announce := bytes "t",
    info := { name := bytes "x", plength := 16384, pieces := List.replicate 40 0,
              length := 32768, path := [], hash := [] } }

/-- The metainfo of scenario S6: 40000 bytes in pieces of 16384. -/
def s6_torrent : Torrent :=
  { announce := bytes "t",
    info := { name := bytes "x", plength := 16384, pieces := List.replicate 60 0,
              length := 40000, path := [], hash := [] } }

/-! ## `download.hpp`: `WorkerQueue` -/

/-- `class WorkerQueue`: the `std::queue<int>`, front first. The calls are
taken one after the other, so the mutex does not appear. -/
structure WorkerQueue where
  queue : List Int
  deriving Repr

/-- `WorkerQueue::add_piece`. -/
def WorkerQueue.add_piece (q : WorkerQueue) (piece_index : Int) : WorkerQueue :=
  ⟨q.queue ++ [piece_index]⟩

/-- `WorkerQueue::get_next_piece(piece_index)`: the value returned, the
reference argument afterwards, and the queue afterwards. -/
def WorkerQueue.get_next_piece (q : WorkerQueue) (piece_index : Int) : Bool × Int × WorkerQueue :=
  match q.queue with
  | [] => (false, piece_index, q)
  | front :: rest => (true, front, ⟨rest⟩)

/-- The loop of `WorkerQueue::contains` over the copy `temp`. -/
def contains_loop (piece_index : Int) : List Int → Bool
  | [] => false
  | front :: temp => if front = piece_index then true else contains_loop piece_index temp

/-- `WorkerQueue::contains`. -/
def WorkerQueue.contains (q : WorkerQueue) (piece_index : Int) : Bool :=
  contains_loop piece_index q.queue

/-- `WorkerQueue::empty`. -/
def WorkerQueue.empty (q : WorkerQueue) : Bool := q.queue.isEmpty

/-- A call on a `WorkerQueue` that can change it. -/
inductive QueueCall where
  | add_piece (piece_index : Int)
  | get_next_piece
  deriving Repr

/-- A sequence of calls run on a queue and a reference argument: the indices
the successful `get_next_piece` calls returned, in order, with the queue and
the argument afterwards. -/
def run_calls : List QueueCall → WorkerQueue → Int → List Int × WorkerQueue × Int
  | [], q, piece_index => ([], q, piece_index)
  | .add_piece i :: calls, q, piece_index => run_calls calls (q.add_piece i) piece_index
  | .get_next_piece :: calls, q, piece_index =>
    match q.get_next_piece piece_index with
    | (true, got, q) =>
      let run := run_calls calls q got
      (got :: run.1, run.2)
    | (false, kept, q) => run_calls calls q kept

/-- The indices the `add_piece` calls of a sequence push, in order. -/
def pushed : List QueueCall → List Int
  | [] => []
  | .add_piece i :: calls => i :: pushed calls
  | .get_next_piece :: calls => pushed calls

/-! ## `peers.hpp`: the compact peer list -/

/-- `s[pos]` converted to `uint8_t`: a byte of the string, the terminating NUL
at `pos == size()`, undefined behaviour beyond. -/
def string_at (s : Bytes) (pos : Nat) : Except Fault Nat :=
  if pos < s.length then .ok (s.getD pos 0 % 256)
  else if pos = s.length then .ok 0
  else .error .past_the_end

/-- `format_ip_address(peers, offset)`; 46 is the dot. -/
def format_ip_address (peers : Bytes) (offset : Nat) : Except Fault Bytes :=
  match string_at peers offset, string_at peers (offset + 1), string_at peers (offset + 2),
    string_at peers (offset + 3) with
  | .ok a, .ok b, .ok c, .ok d =>
    .ok (to_string_nat a ++ [46] ++ to_string_nat b ++ [46] ++ to_string_nat c ++ [46]
      ++ to_string_nat d)
  | _, _, _, _ => .error .past_the_end

/-- `get_peer_port(peers, offset)`: `(hi << 8) | lo` as `uint16_t`. -/
def get_peer_port (peers : Bytes) (offset : Nat) : Except Fault Nat :=
  match string_at peers offset, string_at peers (offset + 1) with
  | .ok hi, .ok lo => .ok (((hi <<< 8) ||| lo) % 2 ^ 16)
  | _, _ => .error .past_the_end

/-- The peer loop of `peers_request` from index `i` on, with `remaining`
peers to go: the address and port of each peer, in the order printed. -/
def peers_request_loop (peers : Bytes) : Nat → Nat → Except Fault (List (Bytes × Nat))
  | 0, _ => .ok []
  | remaining + 1, i =>
    match format_ip_address peers (i * 6) with
    | .error e => .error e
    | .ok ip =>
      match get_peer_port peers (i * 6 + 4) with
      | .error e => .error e
      | .ok port =>
        match peers_request_loop peers remaining (i + 1) with
        | .error e => .error e
        | .ok rest => .ok ((ip, port) :: rest)

/-- The peers `peers_request` prints for the `peers` string of the tracker
response: `num_peers = peers.length() / 6` rounds of the loop. -/
def peers_request_peers (peers : Bytes) : Except Fault (List (Bytes × Nat)) :=
  peers_request_loop peers (peers.length / 6) 0

/-- The line printed for a peer: `ip << ":" << port`. -/
def peer_line (peer : Bytes × Nat) : Bytes := peer.1 ++ [58] ++ to_string_nat peer.2

/-! ## `peers.hpp`: sockets and framed messages -/

/-- `recv(sock, buf, n, 0)` on a connection whose inbound data is a list of
deliveries: the call returns the bytes of the first delivery, at most `n` of
them, and leaves the rest. An empty delivery, and no delivery at all, is a
call that returns no byte (the peer closed, or an error). -/
def recv (n : Nat) : List Bytes → Bytes × List Bytes
  | [] => ([], [])
  | delivery :: later =>
    if delivery.length ≤ n then (delivery, later)
    else (delivery.take n, delivery.drop n :: later)

/-- The payload loop of `read_peer_message`: `payload` holds the
`total_received` bytes read so far. -/
def read_payload (payload_length : Nat) : Nat → Bytes → List Bytes →
    Except Fault (Bytes × List Bytes)
  | 0, payload, inbound =>
    if payload.length < payload_length then .error .out_of_fuel else .ok (payload, inbound)
  | fuel + 1, payload, inbound =>
    if payload.length < payload_length then
      match recv (payload_length - payload.length) inbound with
      | (received, inbound) =>
        if received.length = 0 then .error .runtime_error
        else read_payload payload_length fuel (payload ++ received) inbound
    else .ok (payload, inbound)

/-- `read_peer_message(sock)`: the message and the inbound data left. The
length and the id are each read by one `recv`; the payload loop makes at most
one call per payload byte. -/
def read_peer_message (inbound : List Bytes) : Except Fault (PeerMessage × List Bytes) :=
  match recv 4 inbound with
  | (length_buffer, inbound) =>
    if length_buffer.length ≠ 4 then .error .runtime_error
    else
      let length := be_value length_buffer % 2 ^ 32
      if length = 0 then .ok (⟨length, 255, []⟩, inbound)
      else
        match recv 1 inbound with
        | ([id], inbound) =>
          match read_payload (length - 1) (length - 1) [] inbound with
          | .error e => .error e
          | .ok (payload, inbound) => .ok (⟨length, id, payload⟩, inbound)
        | _ => .error .runtime_error

/-- The bytes `send_peer_message(sock, id, payload)` sends when every `send`
takes all it is given: the length, the id, and the payload if there is one. -/
def send_peer_message (id : Nat) (payload : Bytes) : Bytes :=
  htonl_bytes ((payload.length + 1 : Nat) : Int) ++ [id] ++ (if payload.isEmpty then [] else payload)

/-- The handshake message both `perform_handshake` and `download_piece` build. -/
def handshake_message (info_hash peer_id : Bytes) : Bytes :=
  [19] ++ bytes "BitTorrent protocol" ++ List.replicate 8 0 ++ info_hash ++ peer_id

/-- The character `"0123456789abcdef"[n]`. -/
def hex_digit (n : Nat) : Nat := if n < 10 then 48 + n else 87 + n

/-- A string of bytes in lowercase hexadecimal, two characters per byte. -/
def to_hex : Bytes → Bytes
  | [] => []
  | b :: rest => hex_digit (b / 16 % 16) :: hex_digit (b % 16) :: to_hex rest

/-- Modelled from the spec: `sha1.hpp` is not under `src/`, SHA-1 is an
external collaborator (spec section 1). `sha1` is the 20-byte digest function,
and `SHA1::final()` after `update(data)` returns the digest as 40 lowercase
hexadecimal characters, which is what `parse_torrent` and `download_piece`
convert back byte by byte. -/
def SHA1_final (sha1 : Bytes → Bytes) (data : Bytes) : Bytes := to_hex (sha1 data)

/-- The value of a hexadecimal digit, if the byte is one. -/
def hex_value (c : Nat) : Option Nat :=
  if 48 ≤ c ∧ c ≤ 57 then some (c - 48)
  else if 97 ≤ c ∧ c ≤ 102 then some (c - 87)
  else if 65 ≤ c ∧ c ≤ 70 then some (c - 55)
  else none

/-- `std::stoi(str, nullptr, 16)`: white space, an optional sign, an optional
`0x` in front of a digit, then the longest run of hexadecimal digits. -/
def stoi16 (str : Bytes) : Except Fault Int :=
  let s := str.dropWhile isspace
  let neg : Bool := match s with
    | 45 :: _ => true
    | _ => false
  let s := match s with
    | 45 :: t => t
    | 43 :: t => t
    | _ => s
  let s := match s with
    | 48 :: x :: d :: t => if (x = 120 ∨ x = 88) ∧ (hex_value d).isSome then d :: t else s
    | _ => s
  let ds := s.takeWhile (fun c => (hex_value c).isSome)
  if ds.isEmpty then .error .invalid_argument
  else
    let v : Nat := ds.foldl (fun acc c => acc * 16 + (hex_value c).getD 0) 0
    let n : Int := if neg then -(v : Int) else (v : Int)
    if n < -(2 : Int) ^ 31 ∨ (2 : Int) ^ 31 - 1 < n then .error .out_of_range
    else .ok n

/-- The loop `for (i = 0; i < hash.length(); i += 2)` that turns the
hexadecimal string into bytes: `static_cast<uint8_t>(std::stoi(hash.substr(i, 2), nullptr, 16))`. -/
def hex_to_bytes : Bytes → Except Fault Bytes
  | [] => .ok []
  | [a] =>
    match stoi16 [a] with
    | .error e => .error e
    | .ok v => .ok [(v % 256).toNat]
  | a :: b :: rest =>
    match stoi16 [a, b] with
    | .error e => .error e
    | .ok v =>
      match hex_to_bytes rest with
      | .error e => .error e
      | .ok more => .ok ((v % 256).toNat :: more)

/-! ## `utils.hpp`: `parse_torrent` -/

/-- `j.contains(key)`: false for anything but an object. -/
def Json.contains (j : Json) (key : Bytes) : Bool :=
  match j with
  | .obj kvs => (map_find key kvs).isSome
  | _ => false

/-- `j.get<int64_t>()`. -/
def Json.get_int : Json → Except Fault Int
  | .int n => .ok n
  | _ => .error .type_error

/-- The element loop of `get<std::vector<std::string>>()`. -/
def get_strings : List Json → Except Fault (List Bytes)
  | [] => .ok []
  | x :: xs =>
    match x.get_string with
    | .error e => .error e
    | .ok s =>
      match get_strings xs with
      | .error e => .error e
      | .ok rest => .ok (s :: rest)

/-- `j.get<std::vector<std::string>>()`. -/
def Json.get_string_list : Json → Except Fault (List Bytes)
  | .arr xs => get_strings xs
  | _ => .error .type_error

/-- `parse_torrent` from line 32 on, for the decoded value: the record stored
in the global `torr`. `contains(key) ? get : default` is the code's own way
of reading `announce`, `name`, `piece length`, `length` and `path`. -/
def parse_torrent_decoded (sha1 : Bytes → Bytes) (decoded_value : Json) : Except Fault Torrent :=
  match decoded_value.index (bytes "info") with
  | .error e => .error e
  | .ok info =>
  match bencode_decoded_value info with
  | .error e => .error e
  | .ok info_bencoded =>
  match info.index (bytes "pieces") with
  | .error e => .error e
  | .ok pieces =>
  match pieces.get_string with
  | .error e => .error e
  | .ok pieces_data =>
  match hex_to_bytes (SHA1_final sha1 info_bencoded) with
  | .error e => .error e
  | .ok binary_hash =>
  match (if decoded_value.contains (bytes "announce") then
      ((decoded_value.index (bytes "announce")).bind Json.get_string) else .ok []) with
  | .error e => .error e
  | .ok announce =>
  match (if info.contains (bytes "name") then
      ((info.index (bytes "name")).bind Json.get_string) else .ok []) with
  | .error e => .error e
  | .ok name =>
  match (if info.contains (bytes "piece length") then
      ((info.index (bytes "piece length")).bind Json.get_int) else .ok 0) with
  | .error e => .error e
  | .ok plength =>
  match (if info.contains (bytes "length") then
      ((info.index (bytes "length")).bind Json.get_int) else .ok 0) with
  | .error e => .error e
  | .ok length =>
  match (if info.contains (bytes "path") then
      ((info.index (bytes "path")).bind Json.get_string_list) else .ok [name]) with
  | .error e => .error e
  | .ok path =>
    .ok { announce := announce,
          info := { name := name, plength := plength, pieces := pieces_data, length := length,
                    path := path, hash := binary_hash } }

/-- `parse_torrent(encoded_value)`. -/
def parse_torrent (sha1 : Bytes → Bytes) (encoded_value : Bytes) : Except Fault Torrent :=
  match decode_bencoded_value_string encoded_value with
  | .error e => .error e
  | .ok decoded_value => parse_torrent_decoded sha1 decoded_value

/-! ## `download.hpp`: `download_piece` -/

/-- The results of the first `n` calls of `read_peer_message` on a
connection, up to the first call that throws. -/
def read_messages : Nat → List Bytes → List (Except Fault PeerMessage)
  | 0, _ => []
  | n + 1, inbound =>
    match read_peer_message inbound with
    | .error e => [.error e]
    | .ok (msg, inbound) => .ok msg :: read_messages n inbound

/-- The comparison loop of `download_piece` (lines 170-175) from byte `i` on,
`remaining` bytes to go. Both vectors are indexed without a bound check. -/
def verify_piece_hash (piece_hash pieces : Bytes) (piece_index : Int) :
    Nat → Nat → Except Fault Unit
  | 0, _ => .ok ()
  | remaining + 1, i =>
    let at_index := to_size_t (piece_index * 20) + i
    if i < piece_hash.length ∧ at_index < pieces.length then
      if piece_hash.getD i 0 ≠ pieces.getD at_index 0 then .error .runtime_error
      else verify_piece_hash piece_hash pieces piece_index remaining (i + 1)
    else .error .past_the_end

/-- Lines 156-177 of `download_piece`: the piece is returned only after its
digest has been compared with the entry of `info.pieces`. -/
def verify_piece (sha1 : Bytes → Bytes) (info : Info) (piece_index : Int) (piece_data : Bytes) :
    Except Fault Bytes :=
  match hex_to_bytes (SHA1_final sha1 piece_data) with
  | .error e => .error e
  | .ok piece_hash =>
    match verify_piece_hash piece_hash info.pieces piece_index 20 0 with
    | .error e => .error e
    | .ok _ => .ok piece_data

/-- The number of rounds the request loop makes for a piece of `piece_length` bytes. -/
def block_count (piece_length : Int) : Nat := ((piece_length + (BLOCK_SIZE - 1)) / BLOCK_SIZE).toNat

/-- `download_piece(peer_ip, peer_port, info, info_hash, piece_index)` on a
connection that is established and takes every `send` whole: `inbound` is
what the peer delivers, `peer_id` what `generate_peer_id` drew. The result is
the bytes sent and the piece, or the fault. The messages of the request loop
are the results of its successive `read_peer_message` calls. -/
def download_piece (sha1 : Bytes → Bytes) (peer_id : Bytes) (info : Info) (info_hash : Bytes)
    (piece_index : Int) (inbound : List Bytes) : Bytes × Except Fault Bytes :=
  let sent := handshake_message info_hash peer_id
  match recv 68 inbound with
  | (response, inbound) =>
  if response.length ≠ 68 then (sent, .error .runtime_error) else
  match read_peer_message inbound with
  | .error e => (sent, .error e)
  | .ok (bitfield, inbound) =>
  if bitfield.id ≠ 5 then (sent, .error .runtime_error) else
  let sent := sent ++ send_peer_message 2 []
  match read_peer_message inbound with
  | .error e => (sent, .error e)
  | .ok (unchoke, inbound) =>
  if unchoke.id ≠ 1 then (sent, .error .runtime_error) else
  match download_piece_length info piece_index with
  | .error e => (sent, .error e)
  | .ok piece_length =>
  if piece_length < 0 then (sent, .error .length_error) else
  let blocks := request_loop piece_index piece_length
    (read_messages (block_count piece_length) inbound) 0 []
  let sent := sent ++ (blocks.1.map (send_peer_message 6)).flatten
  match blocks.2 with
  | .error e => (sent, .error e)
  | .ok piece_data => (sent, verify_piece sha1 info piece_index piece_data)

/-! ## `download.hpp`: the resume scan -/

/-- The `std::ifstream` of `recheck_existing_file`: the bytes of the file and
whether `failbit` is set. -/
structure InputFile where
  contents : Bytes
  failed : Bool
  deriving Repr

/-- `file.seekg(offset); file.read(buffer.data(), n)` on a zero-filled buffer
of `n` bytes: the buffer, `gcount()` and the stream afterwards. A stream with
`failbit` set does nothing; a short read sets `failbit`. -/
def seek_and_read (file : InputFile) (offset : Int) (n : Nat) : Bytes × Nat × InputFile :=
  if file.failed ∨ offset < 0 then (List.replicate n 0, 0, { file with failed := true })
  else
    let got := (file.contents.drop offset.toNat).take n
    (got ++ List.replicate (n - got.length) 0, got.length,
      { file with failed := decide (got.length < n) })

/-- The loop of `recheck_existing_file` over an existing file, from piece `i`
on with `remaining` pieces to go. The digest is compared as `SHA1::final()`
returns it, with the 20 bytes of `info.pieces`. -/
def recheck_loop (sha1 : Bytes → Bytes) (info : Info) :
    Nat → Nat → InputFile → WorkerQueue → Except Fault WorkerQueue
  | 0, _, _, worker_queue => .ok worker_queue
  | remaining + 1, i, file, worker_queue =>
    match recheck_piece_length info i with
    | .error e => .error e
    | .ok piece_length =>
      if 2 ^ 63 ≤ piece_length then .error .length_error
      else
        match seek_and_read file ((i : Int) * info.plength) piece_length with
        | (buffer, gcount, file) =>
          if gcount ≠ piece_length then
            recheck_loop sha1 info remaining (i + 1) file
              (worker_queue.add_piece (to_int32 (i : Int)))
          else
            let piece_hash_bytes := SHA1_final sha1 buffer
            let expected_hash := (info.pieces.drop (i * 20)).take 20
            if piece_hash_bytes = expected_hash then
              recheck_loop sha1 info remaining (i + 1) file worker_queue
            else
              recheck_loop sha1 info remaining (i + 1) file
                (worker_queue.add_piece (to_int32 (i : Int)))

/-- The loop of `recheck_existing_file` when there is no file: every index is added. -/
def add_all_pieces : Nat → Nat → WorkerQueue → WorkerQueue
  | 0, _, worker_queue => worker_queue
  | remaining + 1, i, worker_queue =>
    add_all_pieces remaining (i + 1) (worker_queue.add_piece (to_int32 (i : Int)))

/-- `recheck_existing_file(output_path, info, worker_queue)`; `output` is the
file at `output_path`, if there is one. -/
def recheck_existing_file (sha1 : Bytes → Bytes) (output : Option Bytes) (info : Info)
    (worker_queue : WorkerQueue) : Except Fault WorkerQueue :=
  match output with
  | none => .ok (add_all_pieces (info.pieces.length / 20) 0 worker_queue)
  | some contents =>
    recheck_loop sha1 info (info.pieces.length / 20) 0 ⟨contents, false⟩ worker_queue

/-! ## `download.hpp`: `download_complete_file` -/

/-- Lines 303-313 of `download_complete_file`: `std::ofstream init_file(path,
std::ios::binary)` opens with `out | trunc`, so what the file held is gone;
then `seekp(length - 1); put('\0')` makes it `length` zero bytes (nothing is
written when `length - 1` is negative). -/
def preallocate (_existing : Option Bytes) (length : Int) : Bytes :=
  if 1 ≤ length then List.replicate length.toNat 0 else []

/-- The `std::fstream output_file`: the bytes of the file and whether the
stream is still `good()`. -/
structure OutputFile where
  contents : Bytes
  good : Bool
  deriving Repr

/-- The file after `data` is written at `offset` (a gap is filled with zeros). -/
def file_write (contents : Bytes) (offset : Nat) (data : Bytes) : Bytes :=
  contents.take offset ++ List.replicate (offset - contents.length) 0 ++ data
    ++ contents.drop (offset + data.length)

/-- `MAX_RETRIES` of `download_complete_file`. -/
def MAX_RETRIES : Int := 3

/-- Whether the fault is a C++ exception, which `catch (const std::exception&)`
catches; the others are undefined behaviour, or the limit of the embedding. -/
def Fault.is_exception : Fault → Bool
  | .runtime_error => true
  | .invalid_argument => true
  | .out_of_range => true
  | .type_error => true
  | .length_error => true
  | _ => false

/-- The `try` block of the download loop (lines 380-400) once `download_piece`
has ended with `downloaded`: the stream afterwards and the write made, or
the exception. -/
def try_write (plength : Int) (file : OutputFile) (piece_index : Int)
    (downloaded : Except Fault Bytes) : OutputFile × Except Fault (Int × Bytes) :=
  match downloaded with
  | .error e => (file, .error e)
  | .ok piece_data =>
    let offset := piece_index * plength
    if file.good ∧ 0 ≤ offset then
      ({ file with contents := file_write file.contents offset.toNat piece_data },
        .ok (offset, piece_data))
    else ({ file with good := false }, .error .runtime_error)

/-- What a run of the download loop did. -/
structure DownloadRun where
  /-- The piece indices passed to `download_piece`, in order. -/
  attempts : List Int
  /-- The writes to the output file, in order: offset and bytes. -/
  writes : List (Int × Bytes)
  file : OutputFile
  /-- How the loop ended: normally, or with the fault that left it. -/
  outcome : Except Fault Unit

/-- The download loop of `download_complete_file` (lines 379-410). Each
round calls `download_piece` once; `calls` gives, for each call in turn, what
it returns for the index it is passed. When the calls are used up the run
ends with `out_of_fuel`. -/
def download_loop (plength : Int) :
    List (Int → Except Fault Bytes) → WorkerQueue → Int → Int → OutputFile → DownloadRun
  | [], worker_queue, piece_index, _, file =>
    match worker_queue.get_next_piece piece_index with
    | (false, _, _) => ⟨[], [], file, .ok ()⟩
    | (true, _, _) => ⟨[], [], file, .error .out_of_fuel⟩
  | call :: calls, worker_queue, piece_index, retry_count, file =>
    match worker_queue.get_next_piece piece_index with
    | (false, _, _) => ⟨[], [], file, .ok ()⟩
    | (true, piece_index, worker_queue) =>
      match try_write plength file piece_index (call piece_index) with
      | (file, .ok written) =>
        let run := download_loop plength calls worker_queue piece_index 0 file
        { run with attempts := piece_index :: run.attempts, writes := written :: run.writes }
      | (file, .error e) =>
        if e.is_exception ∧ retry_count + 1 < MAX_RETRIES then
          let run := download_loop plength calls (worker_queue.add_piece piece_index)
            piece_index (retry_count + 1) file
          { run with attempts := piece_index :: run.attempts }
        else ⟨[piece_index], [], file, .error e⟩

/-- What a run of `download_complete_file` did. -/
structure Download where
  /-- The output file afterwards, if there is one. -/
  output : Option Bytes
  /-- The work queue after the resume scan. -/
  scanned : List Int
  attempts : List Int
  writes : List (Int × Bytes)
  outcome : Except Fault Unit

/-- `download_complete_file(encoded_value, output_path)`. `existing` is the
file at the output path, `response` the body of the tracker's answer, and
`connections` gives for each `download_piece` call in turn the peer id drawn
and what the peer delivers. Opening the files and the tracker request are
taken to succeed. -/
def download_complete_file (sha1 : Bytes → Bytes) (encoded_value : Bytes)
    (existing : Option Bytes) (response : Bytes) (connections : List (Bytes × List Bytes)) :
    Download :=
  match parse_torrent sha1 encoded_value with
  | .error e => ⟨existing, [], [], [], .error e⟩
  | .ok torr =>
  let allocated := preallocate existing torr.info.length
  match recheck_existing_file sha1 (some allocated) torr.info ⟨[]⟩ with
  | .error e => ⟨some allocated, [], [], [], .error e⟩
  | .ok worker_queue =>
  if worker_queue.empty then ⟨some allocated, worker_queue.queue, [], [], .ok ()⟩ else
  match (decode_bencoded_value_string response).bind
      (fun decoded_response => (decoded_response.index (bytes "peers")).bind Json.get_string) with
  | .error e => ⟨some allocated, worker_queue.queue, [], [], .error e⟩
  | .ok peers =>
  match (format_ip_address peers 0).bind (fun _ => get_peer_port peers 4) with
  | .error e => ⟨some allocated, worker_queue.queue, [], [], .error e⟩
  | .ok _ =>
  let run := download_loop torr.info.plength
    (connections.map (fun c piece_index =>
      (download_piece sha1 c.1 torr.info torr.info.hash piece_index c.2).2))
    worker_queue 0 0 ⟨allocated, true⟩
  ⟨some run.file.contents, worker_queue.queue, run.attempts, run.writes, run.outcome⟩

/-! ## Inputs used to state the theorems on `parse_torrent` and the download -/

/-- A stand-in for SHA-1 in worked examples: twenty times the sum of the
bytes modulo 256. -/
def sum_digest (data : Bytes) : Bytes := List.replicate 20 (data.sum % 256)

/-- A complete one-piece download: the file `hello world!` and the metainfo
whose `pieces` entry is its digest under `sum_digest`. -/
def hello_torrent : Torrent :=
  { announce := bytes "t",
    info := { name := bytes "x", plength := 16, pieces := sum_digest (bytes "hello world!"),
              length := 12, path := [], hash := [] } }

/-- The tracker's answer used in the examples: the one peer `10.0.0.1:6881`. -/
def one_peer_response : Bytes := bytes "d5:peers6:" ++ [10, 0, 0, 1, 26, 225] ++ bytes "e"

/-- `download_complete_file` run again on the complete file `hello world!`,
with a peer that delivers nothing on any of three connections. -/
def hello_rerun : Download :=
  download_complete_file sum_digest (spec_encode hello_torrent.to_json)
    (some (bytes "hello world!")) one_peer_response
    [(List.replicate 20 7, []), (List.replicate 20 7, []), (List.replicate 20 7, [])]

/-- What a peer that serves `hello world!` delivers on a connection: the
handshake, a bitfield, an unchoke, and the piece message of block 0. -/
def hello_peer (info_hash : Bytes) : List Bytes :=
  [handshake_message info_hash (List.replicate 20 2), send_peer_message 5 [128],
    send_peer_message 1 [],
    send_peer_message 7 (htonl_bytes 0 ++ htonl_bytes 0 ++ bytes "hello world!")]

/-! ## The cursor of `decode_string` -/

/-- The number of bytes by which `decode_string` moves `it`: one for each
digit (`*it++`), one for the `:` (`++it`), and `length` (`it += length`),
which the code does not compare with `end - it`. -/
def decode_string_advance (it : Bytes) : Except Fault Int :=
  let number_string := it.takeWhile isdigit
  match it.dropWhile isdigit with
  | [] => .error .runtime_error
  | c :: _ =>
    if c != 58 then .error .runtime_error
    else
      match stoll (c_str number_string) with
      | .error e => .error e
      | .ok length => .ok (number_string.length + 1 + length)

/-! # Theorems -/

/-! ## Decimal numbers -/

theorem takeWhile_append_stop {p : Nat → Bool} (l r : Bytes) (a : Nat)
    (hl : ∀ x ∈ l, p x = true) (ha : p a = false) :
    (l ++ a :: r).takeWhile p = l := by
  induction l with
  | nil => simp [List.takeWhile, ha]
  | cons x l ih =>
    have hx : p x = true := hl x (by simp)
    simp only [List.cons_append, List.takeWhile_cons, hx, if_true]
    rw [ih (fun y hy => hl y (by simp [hy]))]

theorem dropWhile_append_stop {p : Nat → Bool} (l r : Bytes) (a : Nat)
    (hl : ∀ x ∈ l, p x = true) (ha : p a = false) :
    (l ++ a :: r).dropWhile p = a :: r := by
  induction l with
  | nil => simp [List.dropWhile, ha]
  | cons x l ih =>
    have hx : p x = true := hl x (by simp)
    simp only [List.cons_append, List.dropWhile_cons, hx, if_true]
    exact ih (fun y hy => hl y (by simp [hy]))

theorem takeWhile_all {p : Nat → Bool} (l : Bytes) (hl : ∀ x ∈ l, p x = true) :
    l.takeWhile p = l := by
  induction l with
  | nil => rfl
  | cons x l ih =>
    have hx : p x = true := hl x (by simp)
    simp only [List.takeWhile_cons, hx, if_true]
    rw [ih (fun y hy => hl y (by simp [hy]))]

theorem digits_value_append (ds : Bytes) (d : Nat) :
    digits_value (ds ++ [d]) = digits_value ds * 10 + (d - 48) := by
  simp [digits_value, List.foldl_append]

theorem to_string_aux_spec (fuel : Nat) : ∀ (n : Nat) (acc : Bytes), n < fuel →
    ∃ ds : Bytes, to_string_aux fuel n acc = ds ++ acc ∧ ds ≠ [] ∧
      (∀ d ∈ ds, isdigit d = true) ∧ digits_value ds = n := by
  induction fuel with
  | zero => intro n acc h; omega
  | succ fuel ih =>
    intro n acc h
    by_cases hn : n < 10
    · refine ⟨[48 + n], ?_, by simp, ?_, ?_⟩
      · simp [to_string_aux, hn]
      · intro d hd
        simp only [List.mem_singleton] at hd
        subst hd
        simp [isdigit]; omega
      · simp [digits_value]
    · have hlt : n / 10 < fuel := by omega
      obtain ⟨ds, h1, _, h3, h4⟩ := ih (n / 10) ((48 + n % 10) :: acc) hlt
      refine ⟨ds ++ [48 + n % 10], ?_, by simp, ?_, ?_⟩
      · simp [to_string_aux, hn, h1]
      · intro d hd
        rcases List.mem_append.mp hd with hd | hd
        · exact h3 d hd
        · simp only [List.mem_singleton] at hd
          subst hd
          simp [isdigit]; omega
      · rw [digits_value_append, h4]; omega

theorem to_string_nat_spec (n : Nat) :
    to_string_nat n ≠ [] ∧ (∀ d ∈ to_string_nat n, isdigit d = true) ∧
      digits_value (to_string_nat n) = n := by
  obtain ⟨ds, h1, h2, h3, h4⟩ := to_string_aux_spec (n + 1) n [] (by omega)
  have : to_string_nat n = ds := by simp [to_string_nat, h1]
  rw [this]; exact ⟨h2, h3, h4⟩

theorem isdigit_range {c : Nat} (h : isdigit c = true) : 48 ≤ c ∧ c ≤ 57 := by
  simpa [isdigit] using h

/-- `stoll` on a non-empty run of digits followed by anything that does not
start with a digit. -/
theorem stoll_digits (ds junk : Bytes) (hne : ds ≠ []) (hd : ∀ d ∈ ds, isdigit d = true)
    (hj : ∀ c, junk.head? = some c → isdigit c = false) :
    stoll (ds ++ junk) =
      if (2 : Int) ^ 63 - 1 < (digits_value ds : Int) then .error .out_of_range
      else .ok (digits_value ds : Int) := by
  obtain ⟨d, ds', rfl⟩ := List.exists_cons_of_ne_nil hne
  have hdr := isdigit_range (hd d (by simp))
  have hsp : isspace d = false := by simp [isspace]; omega
  have htake : ((d :: ds') ++ junk).takeWhile isdigit = d :: ds' := by
    cases junk with
    | nil => simpa using takeWhile_all (d :: ds') hd
    | cons c junk => exact takeWhile_append_stop (d :: ds') junk c hd (hj c rfl)
  have h45 : d ≠ 45 := by omega
  have h43 : d ≠ 43 := by omega
  have hdrop : ((d :: ds') ++ junk).dropWhile isspace = (d :: ds') ++ junk := by
    simp [List.dropWhile, hsp]
  unfold stoll
  simp only [hdrop]
  have e1 : (match (d :: ds') ++ junk with | 45 :: _ => true | _ => false) = false := by
    simp only [List.cons_append]
    split
    · rename_i heq; simp at heq; omega
    · rfl
  have e2 : (match (d :: ds') ++ junk with | 45 :: t => t | 43 :: t => t | _ => (d :: ds') ++ junk)
      = (d :: ds') ++ junk := by
    simp only [List.cons_append]
    split
    · rename_i heq; simp at heq; omega
    · rename_i heq; simp at heq; omega
    · rfl
  simp only [e1, e2, htake, List.isEmpty_cons, Bool.false_eq_true, if_false]
  have hnn : (0 : Int) ≤ (digits_value (d :: ds') : Int) := Int.ofNat_nonneg _
  split_ifs with h1 h2 h2
  · rfl
  · rcases h1 with h1 | h1 <;> omega
  · exact absurd (Or.inr h2) h1
  · rfl

theorem stoll_minus_digits (ds junk : Bytes) (hne : ds ≠ []) (hd : ∀ d ∈ ds, isdigit d = true)
    (hj : ∀ c, junk.head? = some c → isdigit c = false) :
    stoll (45 :: (ds ++ junk)) =
      if -(digits_value ds : Int) < -(2 : Int) ^ 63 then .error .out_of_range
      else .ok (-(digits_value ds : Int)) := by
  obtain ⟨d, ds', rfl⟩ := List.exists_cons_of_ne_nil hne
  have htake : ((d :: ds') ++ junk).takeWhile isdigit = d :: ds' := by
    cases junk with
    | nil => simpa using takeWhile_all (d :: ds') hd
    | cons c junk => exact takeWhile_append_stop (d :: ds') junk c hd (hj c rfl)
  have hsp : isspace 45 = false := by decide
  have hdrop : (45 :: ((d :: ds') ++ junk)).dropWhile isspace = 45 :: ((d :: ds') ++ junk) := by
    simp [List.dropWhile, hsp]
  unfold stoll
  simp only [hdrop, htake, List.isEmpty_cons, Bool.false_eq_true, if_false, if_true]
  have hnn : (0 : Int) ≤ (digits_value (d :: ds') : Int) := Int.ofNat_nonneg _
  split_ifs with h1 h2 h2
  · rfl
  · rcases h1 with h1 | h1 <;> omega
  · exact absurd (Or.inl h2) h1
  · rfl

theorem c_str_append (l r : Bytes) (hl : ∀ x ∈ l, x ≠ 0) : c_str (l ++ r) = l ++ c_str r := by
  induction l with
  | nil => rfl
  | cons x l ih =>
    have hx : x ≠ 0 := hl x (by simp)
    have ih' := ih (fun y hy => hl y (by simp [hy]))
    simp only [c_str] at ih' ⊢
    simp [List.takeWhile_cons, hx, ih']

theorem c_str_head (r : Bytes) (c : Nat) (h : (c_str r).head? = some c) : r.head? = some c := by
  cases r with
  | nil => simp [c_str] at h
  | cons x r =>
    by_cases hx : x = 0
    · simp [c_str, List.takeWhile_cons, hx] at h
    · simp [c_str, List.takeWhile_cons, hx] at h
      simp [h]

theorem digit_ne_zero {ds : Bytes} (hd : ∀ d ∈ ds, isdigit d = true) : ∀ x ∈ ds, x ≠ 0 := by
  intro x hx h0
  have := isdigit_range (hd x hx)
  omega

/-- `stoll(s.c_str())` on a run of digits followed by bytes that do not start
with a digit: the value of the run. -/
theorem stoll_c_str_digits (ds junk : Bytes) (hne : ds ≠ []) (hd : ∀ d ∈ ds, isdigit d = true)
    (hj : ∀ c, junk.head? = some c → isdigit c = false)
    (hr : digits_value ds < 2 ^ 63) :
    stoll (c_str (ds ++ junk)) = .ok (digits_value ds : Int) := by
  rw [c_str_append ds junk (digit_ne_zero hd),
    stoll_digits ds (c_str junk) hne hd (fun c hc => hj c (c_str_head junk c hc))]
  have : ¬ ((2 : Int) ^ 63 - 1 < (digits_value ds : Int)) := by
    have : (digits_value ds : Int) < 2 ^ 63 := by exact_mod_cast hr
    omega
  rw [if_neg this]

theorem stoll_c_str_minus_digits (ds junk : Bytes) (hne : ds ≠ [])
    (hd : ∀ d ∈ ds, isdigit d = true)
    (hj : ∀ c, junk.head? = some c → isdigit c = false)
    (hr : digits_value ds ≤ 2 ^ 63) :
    stoll (c_str (45 :: (ds ++ junk))) = .ok (-(digits_value ds : Int)) := by
  have h45 : c_str (45 :: (ds ++ junk)) = 45 :: (ds ++ c_str junk) := by
    have := c_str_append (45 :: ds) junk (by
      intro x hx
      rcases List.mem_cons.mp hx with h | h
      · omega
      · exact digit_ne_zero hd x h)
    simpa using this
  rw [h45, stoll_minus_digits ds (c_str junk) hne hd (fun c hc => hj c (c_str_head junk c hc))]
  have : ¬ (-(digits_value ds : Int) < -(2 : Int) ^ 63) := by
    have : (digits_value ds : Int) ≤ 2 ^ 63 := by exact_mod_cast hr
    omega
  rw [if_neg this]

theorem stoll_to_string_nat (n : Nat) (hn : n < 2 ^ 63) :
    stoll (c_str (to_string_nat n)) = .ok (n : Int) := by
  obtain ⟨h1, h2, h3⟩ := to_string_nat_spec n
  have := stoll_c_str_digits (to_string_nat n) [] h1 h2 (by simp) (by rw [h3]; exact hn)
  simpa [h3] using this

theorem stoll_to_string_int (n : Int) (h1 : -(2 : Int) ^ 63 ≤ n) (h2 : n < (2 : Int) ^ 63) :
    stoll (c_str (to_string_int n)) = .ok n := by
  unfold to_string_int
  by_cases hneg : n < 0
  · rw [if_pos hneg]
    obtain ⟨g1, g2, g3⟩ := to_string_nat_spec n.natAbs
    have := stoll_c_str_minus_digits (to_string_nat n.natAbs) [] g1 g2 (by simp)
      (by rw [g3]; omega)
    rw [g3] at this
    simp only [List.append_nil] at this
    rw [this]
    congr 1
    omega
  · rw [if_neg hneg]
    have hn : n.toNat < 2 ^ 63 := by omega
    rw [stoll_to_string_nat n.toNat hn]
    congr 1
    omega

/-- The bytes `to_string_int` writes: a minus sign or digits, never `e`. -/
theorem to_string_int_ne_e (n : Int) : ∀ c ∈ to_string_int n, (c != 101) = true := by
  intro c hc
  unfold to_string_int at hc
  split_ifs at hc
  · rcases List.mem_cons.mp hc with h | h
    · subst h; decide
    · have := isdigit_range ((to_string_nat_spec n.natAbs).2.1 c h)
      simp; omega
  · have := isdigit_range ((to_string_nat_spec n.toNat).2.1 c hc)
    simp; omega

/-- The decoder reads back a length-prefixed string and stops right after it. -/
theorem decode_string_spec_encode (s rest : Bytes) (hs : s.length < 2 ^ 63) :
    decode_string (to_string_nat s.length ++ 58 :: s ++ rest) = .ok (.str s, rest) := by
  obtain ⟨h1, h2, h3⟩ := to_string_nat_spec s.length
  have h58 : isdigit 58 = false := by decide
  have e : to_string_nat s.length ++ 58 :: s ++ rest
      = to_string_nat s.length ++ 58 :: (s ++ rest) := by simp
  unfold decode_string
  rw [e, takeWhile_append_stop _ _ 58 h2 h58, dropWhile_append_stop _ _ 58 h2 h58]
  simp only [bne_self_eq_false, Bool.false_eq_true, if_false]
  rw [stoll_to_string_nat _ hs]
  simp

/-- The decoder reads back an integer in the signed 64-bit range. -/
theorem decode_integer_spec_encode (n : Int) (rest : Bytes)
    (h1 : -(2 : Int) ^ 63 ≤ n) (h2 : n < (2 : Int) ^ 63) :
    decode_integer (105 :: to_string_int n ++ [101] ++ rest) = .ok (.int n, rest) := by
  have e : 105 :: to_string_int n ++ [101] ++ rest = 105 :: (to_string_int n ++ 101 :: rest) := by
    simp
  have hp : (fun c : Nat => c != 101) 101 = false := by decide
  unfold decode_integer
  rw [e]
  simp only
  rw [takeWhile_append_stop _ _ 101 (to_string_int_ne_e n) hp,
    dropWhile_append_stop _ _ 101 (to_string_int_ne_e n) hp]
  simp only
  rw [stoll_to_string_int n h1 h2]

/-! ## The recursion bound of the decoder -/

/-- A result that is not "out of fuel" is kept when one more unit of fuel is given. -/
theorem fuel_step (fuel : Nat) :
    (∀ it, decode_bencoded_value_fuel fuel it ≠ .error .out_of_fuel →
      decode_bencoded_value_fuel (fuel + 1) it = decode_bencoded_value_fuel fuel it) ∧
    (∀ it, decode_list_fuel fuel it ≠ .error .out_of_fuel →
      decode_list_fuel (fuel + 1) it = decode_list_fuel fuel it) ∧
    (∀ it list, decode_list_loop fuel it list ≠ .error .out_of_fuel →
      decode_list_loop (fuel + 1) it list = decode_list_loop fuel it list) ∧
    (∀ it, decode_dict_fuel fuel it ≠ .error .out_of_fuel →
      decode_dict_fuel (fuel + 1) it = decode_dict_fuel fuel it) ∧
    (∀ it dict, decode_dict_loop fuel it dict ≠ .error .out_of_fuel →
      decode_dict_loop (fuel + 1) it dict = decode_dict_loop fuel it dict) := by
  induction fuel with
  | zero =>
    refine ⟨?_, ?_, ?_, ?_, ?_⟩ <;> intros <;>
      simp [decode_bencoded_value_fuel, decode_list_fuel, decode_list_loop, decode_dict_fuel,
        decode_dict_loop] at *
  | succ fuel ih =>
    obtain ⟨ihV, ihL, ihLL, ihD, ihDL⟩ := ih
    refine ⟨?_, ?_, ?_, ?_, ?_⟩
    · intro it h
      cases it with
      | nil => simp [decode_bencoded_value_fuel]
      | cons c rest =>
        rw [decode_bencoded_value_fuel] at h ⊢
        rw [decode_bencoded_value_fuel]
        split_ifs at h ⊢ with h1 h2 h3 h4
        · rfl
        · rfl
        · exact ihL _ h
        · exact ihD _ h
        · rfl
    · intro it h
      cases it with
      | nil => simp [decode_list_fuel]
      | cons c rest =>
        rw [decode_list_fuel] at h ⊢
        rw [decode_list_fuel]
        exact ihLL _ _ h
    · intro it list h
      cases it with
      | nil => simp [decode_list_loop]
      | cons c rest =>
        rw [decode_list_loop] at h ⊢
        rw [decode_list_loop]
        split_ifs at h ⊢ with h1
        · cases hv : decode_bencoded_value_fuel fuel (c :: rest) with
          | error e =>
            rw [hv] at h
            have hne : decode_bencoded_value_fuel fuel (c :: rest) ≠ .error .out_of_fuel := by
              rw [hv]; simpa using h
            rw [ihV _ hne, hv]
          | ok r =>
            obtain ⟨value, it2⟩ := r
            rw [hv] at h
            have hne : decode_bencoded_value_fuel fuel (c :: rest) ≠ .error .out_of_fuel := by
              rw [hv]; simp
            rw [ihV _ hne, hv]
            exact ihLL _ _ h
        · rfl
    · intro it h
      cases it with
      | nil => simp [decode_dict_fuel]
      | cons c rest =>
        rw [decode_dict_fuel] at h ⊢
        rw [decode_dict_fuel]
        exact ihDL _ _ h
    · intro it dict h
      cases it with
      | nil => simp [decode_dict_loop]
      | cons c rest =>
        rw [decode_dict_loop] at h ⊢
        rw [decode_dict_loop]
        split_ifs at h ⊢ with h1
        · cases hk : decode_bencoded_value_fuel fuel (c :: rest) with
          | error e =>
            rw [hk] at h
            have hne : decode_bencoded_value_fuel fuel (c :: rest) ≠ .error .out_of_fuel := by
              rw [hk]; simpa using h
            rw [ihV _ hne, hk]
          | ok r =>
            obtain ⟨key, it2⟩ := r
            rw [hk] at h
            have hne : decode_bencoded_value_fuel fuel (c :: rest) ≠ .error .out_of_fuel := by
              rw [hk]; simp
            rw [ihV _ hne, hk]
            simp only at h ⊢
            cases hv : decode_bencoded_value_fuel fuel it2 with
            | error e =>
              rw [hv] at h
              have hne2 : decode_bencoded_value_fuel fuel it2 ≠ .error .out_of_fuel := by
                rw [hv]; simpa using h
              rw [ihV _ hne2, hv]
            | ok r2 =>
              obtain ⟨value, it3⟩ := r2
              rw [hv] at h
              have hne2 : decode_bencoded_value_fuel fuel it2 ≠ .error .out_of_fuel := by
                rw [hv]; simp
              rw [ihV _ hne2, hv]
              simp only at h ⊢
              cases hg : key.get_string with
              | error e => rfl
              | ok k =>
                rw [hg] at h
                simp only at h ⊢
                exact ihDL _ _ h
        · rfl

theorem decode_bencoded_value_fuel_mono {f g : Nat} (hfg : f ≤ g) (it : Bytes)
    (h : decode_bencoded_value_fuel f it ≠ .error .out_of_fuel) :
    decode_bencoded_value_fuel g it = decode_bencoded_value_fuel f it := by
  induction g, hfg using Nat.le_induction with
  | base => rfl
  | succ g _ ih => rw [(fuel_step g).1 it (by rw [ih]; exact h), ih]

theorem decode_list_fuel_mono {f g : Nat} (hfg : f ≤ g) (it : Bytes)
    (h : decode_list_fuel f it ≠ .error .out_of_fuel) :
    decode_list_fuel g it = decode_list_fuel f it := by
  induction g, hfg using Nat.le_induction with
  | base => rfl
  | succ g _ ih => rw [(fuel_step g).2.1 it (by rw [ih]; exact h), ih]

theorem decode_list_loop_mono {f g : Nat} (hfg : f ≤ g) (it : Bytes) (list : List Json)
    (h : decode_list_loop f it list ≠ .error .out_of_fuel) :
    decode_list_loop g it list = decode_list_loop f it list := by
  induction g, hfg using Nat.le_induction with
  | base => rfl
  | succ g _ ih => rw [(fuel_step g).2.2.1 it list (by rw [ih]; exact h), ih]

theorem decode_dict_fuel_mono {f g : Nat} (hfg : f ≤ g) (it : Bytes)
    (h : decode_dict_fuel f it ≠ .error .out_of_fuel) :
    decode_dict_fuel g it = decode_dict_fuel f it := by
  induction g, hfg using Nat.le_induction with
  | base => rfl
  | succ g _ ih => rw [(fuel_step g).2.2.2.1 it (by rw [ih]; exact h), ih]

theorem decode_dict_loop_mono {f g : Nat} (hfg : f ≤ g) (it : Bytes) (dict : List (Bytes × Json))
    (h : decode_dict_loop f it dict ≠ .error .out_of_fuel) :
    decode_dict_loop g it dict = decode_dict_loop f it dict := by
  induction g, hfg using Nat.le_induction with
  | base => rfl
  | succ g _ ih => rw [(fuel_step g).2.2.2.2 it dict (by rw [ih]; exact h), ih]

theorem stoll_ne_out_of_fuel (s : Bytes) : stoll s ≠ .error .out_of_fuel := by
  unfold stoll
  simp only
  split_ifs <;> simp

theorem decode_string_ne_out_of_fuel (it : Bytes) :
    decode_string it ≠ .error .out_of_fuel := by
  unfold decode_string
  simp only
  split
  · simp
  · split_ifs
    · simp
    · split
      · rename_i e he
        intro h
        injection h with h
        subst h
        exact stoll_ne_out_of_fuel _ he
      · split_ifs <;> simp

theorem decode_integer_ne_out_of_fuel (it : Bytes) :
    decode_integer it ≠ .error .out_of_fuel := by
  unfold decode_integer
  split
  · simp
  · simp only
    split
    · simp
    · split
      · rename_i e he
        intro h
        injection h with h
        subst h
        exact stoll_ne_out_of_fuel _ he
      · simp

theorem decode_string_progress (it : Bytes) (v : Json) (it2 : Bytes)
    (h : decode_string it = .ok (v, it2)) : it2.length < it.length := by
  unfold decode_string at h
  simp only at h
  split at h
  · simp at h
  · rename_i c it1 hdrop
    have hlen : (c :: it1).length ≤ it.length := by
      rw [← hdrop]; exact (List.dropWhile_sublist _).length_le
    split_ifs at h
    split at h
    · simp at h
    · split_ifs at h
      simp only [Except.ok.injEq, Prod.mk.injEq] at h
      rw [← h.2]
      simp only [List.length_cons, List.length_drop] at hlen ⊢
      omega

theorem decode_integer_progress (it : Bytes) (v : Json) (it2 : Bytes)
    (h : decode_integer it = .ok (v, it2)) : it2.length < it.length := by
  unfold decode_integer at h
  split at h
  · simp at h
  · rename_i c it1
    simp only at h
    split at h
    · simp at h
    · rename_i c2 it3 hdrop
      have hlen : (c2 :: it3).length ≤ it1.length := by
        rw [← hdrop]; exact (List.dropWhile_sublist _).length_le
      split at h
      · simp at h
      · simp only [Except.ok.injEq, Prod.mk.injEq] at h
        rw [← h.2]
        simp only [List.length_cons] at hlen ⊢
        omega

/-- Every successful call moves the cursor forward by at least one byte. -/
theorem fuel_progress (fuel : Nat) :
    (∀ it v it2, decode_bencoded_value_fuel fuel it = .ok (v, it2) → it2.length < it.length) ∧
    (∀ it v it2, decode_list_fuel fuel it = .ok (v, it2) → it2.length < it.length) ∧
    (∀ it list v it2, decode_list_loop fuel it list = .ok (v, it2) → it2.length < it.length) ∧
    (∀ it v it2, decode_dict_fuel fuel it = .ok (v, it2) → it2.length < it.length) ∧
    (∀ it dict v it2, decode_dict_loop fuel it dict = .ok (v, it2) →
      it2.length < it.length) := by
  induction fuel with
  | zero =>
    refine ⟨?_, ?_, ?_, ?_, ?_⟩ <;> intros <;>
      simp [decode_bencoded_value_fuel, decode_list_fuel, decode_list_loop, decode_dict_fuel,
        decode_dict_loop] at *
  | succ fuel ih =>
    obtain ⟨ihV, ihL, ihLL, ihD, ihDL⟩ := ih
    refine ⟨?_, ?_, ?_, ?_, ?_⟩
    · intro it v it2 h
      cases it with
      | nil => simp [decode_bencoded_value_fuel] at h
      | cons c rest =>
        rw [decode_bencoded_value_fuel] at h
        split_ifs at h
        · exact decode_string_progress _ _ _ h
        · exact decode_integer_progress _ _ _ h
        · exact ihL _ _ _ h
        · exact ihD _ _ _ h
    · intro it v it2 h
      cases it with
      | nil => simp [decode_list_fuel] at h
      | cons c rest =>
        rw [decode_list_fuel] at h
        have := ihLL _ _ _ _ h
        simp only [List.length_cons]
        omega
    · intro it list v it2 h
      cases it with
      | nil => simp [decode_list_loop] at h
      | cons c rest =>
        rw [decode_list_loop] at h
        split_ifs at h
        · cases hv : decode_bencoded_value_fuel fuel (c :: rest) with
          | error e => rw [hv] at h; simp at h
          | ok r =>
            obtain ⟨value, it3⟩ := r
            rw [hv] at h
            have h1 := ihV _ _ _ hv
            have h2 := ihLL _ _ _ _ h
            omega
        · simp only [Except.ok.injEq, Prod.mk.injEq] at h
          rw [← h.2]; simp
    · intro it v it2 h
      cases it with
      | nil => simp [decode_dict_fuel] at h
      | cons c rest =>
        rw [decode_dict_fuel] at h
        have := ihDL _ _ _ _ h
        simp only [List.length_cons]
        omega
    · intro it dict v it2 h
      cases it with
      | nil => simp [decode_dict_loop] at h
      | cons c rest =>
        rw [decode_dict_loop] at h
        split_ifs at h
        · cases hk : decode_bencoded_value_fuel fuel (c :: rest) with
          | error e => rw [hk] at h; simp at h
          | ok r =>
            obtain ⟨key, it3⟩ := r
            rw [hk] at h
            simp only at h
            cases hv : decode_bencoded_value_fuel fuel it3 with
            | error e => rw [hv] at h; simp at h
            | ok r2 =>
              obtain ⟨value, it4⟩ := r2
              rw [hv] at h
              simp only at h
              cases hg : key.get_string with
              | error e => rw [hg] at h; simp at h
              | ok k =>
                rw [hg] at h
                simp only at h
                have h1 := ihV _ _ _ hk
                have h2 := ihV _ _ _ hv
                have h3 := ihDL _ _ _ _ h
                omega
        · simp only [Except.ok.injEq, Prod.mk.injEq] at h
          rw [← h.2]; simp

/-- Three units of fuel per input byte are enough: the bound is never used up. -/
theorem fuel_adequate (fuel : Nat) :
    (∀ it, 3 * it.length + 1 ≤ fuel → decode_bencoded_value_fuel fuel it ≠ .error .out_of_fuel) ∧
    (∀ it, 3 * it.length ≤ fuel → 1 ≤ fuel → decode_list_fuel fuel it ≠ .error .out_of_fuel) ∧
    (∀ it list, 3 * it.length + 2 ≤ fuel →
      decode_list_loop fuel it list ≠ .error .out_of_fuel) ∧
    (∀ it, 3 * it.length ≤ fuel → 1 ≤ fuel → decode_dict_fuel fuel it ≠ .error .out_of_fuel) ∧
    (∀ it dict, 3 * it.length + 2 ≤ fuel →
      decode_dict_loop fuel it dict ≠ .error .out_of_fuel) := by
  induction fuel with
  | zero =>
    refine ⟨?_, ?_, ?_, ?_, ?_⟩ <;> intros <;> omega
  | succ fuel ih =>
    obtain ⟨ihV, ihL, ihLL, ihD, ihDL⟩ := ih
    refine ⟨?_, ?_, ?_, ?_, ?_⟩
    · intro it hf
      cases it with
      | nil => simp [decode_bencoded_value_fuel]
      | cons c rest =>
        rw [decode_bencoded_value_fuel]
        simp only [List.length_cons] at hf
        split_ifs
        · exact decode_string_ne_out_of_fuel _
        · exact decode_integer_ne_out_of_fuel _
        · exact ihL _ (by simp only [List.length_cons]; omega) (by omega)
        · exact ihD _ (by simp only [List.length_cons]; omega) (by omega)
        · simp
    · intro it hf _
      cases it with
      | nil => simp [decode_list_fuel]
      | cons c rest =>
        rw [decode_list_fuel]
        simp only [List.length_cons] at hf
        exact ihLL _ _ (by omega)
    · intro it list hf
      cases it with
      | nil => simp [decode_list_loop]
      | cons c rest =>
        rw [decode_list_loop]
        simp only [List.length_cons] at hf
        split_ifs
        · cases hv : decode_bencoded_value_fuel fuel (c :: rest) with
          | error e =>
            simp only
            intro h
            injection h with h
            subst h
            exact ihV _ (by simp only [List.length_cons]; omega) hv
          | ok r =>
            obtain ⟨value, it3⟩ := r
            simp only
            have h1 := (fuel_progress fuel).1 _ _ _ hv
            simp only [List.length_cons] at h1
            exact ihLL _ _ (by omega)
        · simp
    · intro it hf _
      cases it with
      | nil => simp [decode_dict_fuel]
      | cons c rest =>
        rw [decode_dict_fuel]
        simp only [List.length_cons] at hf
        exact ihDL _ _ (by omega)
    · intro it dict hf
      cases it with
      | nil => simp [decode_dict_loop]
      | cons c rest =>
        rw [decode_dict_loop]
        simp only [List.length_cons] at hf
        split_ifs
        · cases hk : decode_bencoded_value_fuel fuel (c :: rest) with
          | error e =>
            simp only
            intro h
            injection h with h
            subst h
            exact ihV _ (by simp only [List.length_cons]; omega) hk
          | ok r =>
            obtain ⟨key, it3⟩ := r
            simp only
            have h1 := (fuel_progress fuel).1 _ _ _ hk
            simp only [List.length_cons] at h1
            cases hv : decode_bencoded_value_fuel fuel it3 with
            | error e =>
              simp only
              intro h
              injection h with h
              subst h
              exact ihV _ (by omega) hv
            | ok r2 =>
              obtain ⟨value, it4⟩ := r2
              simp only
              have h2 := (fuel_progress fuel).1 _ _ _ hv
              cases hg : key.get_string with
              | error e =>
                simp only
                cases key <;> simp [Json.get_string] at hg
                all_goals subst hg; simp
              | ok k =>
                simp only
                exact ihDL _ _ (by omega)
        · simp

/-- A result obtained with any amount of fuel is the result of `decode_bencoded_value`. -/
theorem decode_bencoded_value_of_fuel (fuel : Nat) (it : Bytes)
    (r : Except Fault (Json × Bytes))
    (h : decode_bencoded_value_fuel fuel it = r) (hr : r ≠ .error .out_of_fuel) :
    decode_bencoded_value it = r := by
  unfold decode_bencoded_value
  have had := (fuel_adequate (3 * it.length + 1)).1 it (le_refl _)
  rcases Nat.le_total fuel (3 * it.length + 1) with hle | hle
  · rw [decode_bencoded_value_fuel_mono hle it (by rw [h]; exact hr), h]
  · rw [← h, decode_bencoded_value_fuel_mono hle it had]

/-- A result obtained with any amount of fuel is the result of `decode_dict`. -/
theorem decode_dict_of_fuel (fuel : Nat) (it : Bytes)
    (r : Except Fault (Json × Bytes))
    (h : decode_dict_fuel fuel it = r) (hr : r ≠ .error .out_of_fuel) :
    decode_dict it = r := by
  unfold decode_dict
  have had := (fuel_adequate (3 * it.length + 1)).2.2.2.1 it (by omega) (by omega)
  rcases Nat.le_total fuel (3 * it.length + 1) with hle | hle
  · rw [decode_dict_fuel_mono hle it (by rw [h]; exact hr), h]
  · rw [← h, decode_dict_fuel_mono hle it had]

/-! ## The key order of `std::map` -/

theorem string_lt_irrefl : ∀ a : Bytes, string_lt a a = false
  | [] => rfl
  | a :: s => by simp [string_lt, string_lt_irrefl s]

theorem string_lt_trans : ∀ a b c : Bytes, string_lt a b = true → string_lt b c = true →
    string_lt a c = true
  | [], [], _, h, _ => by simp [string_lt] at h
  | [], _ :: _, [], _, h => by simp [string_lt] at h
  | [], _ :: _, _ :: _, _, _ => by simp [string_lt]
  | _ :: _, [], _, h, _ => by simp [string_lt] at h
  | _ :: _, _ :: _, [], _, h => by simp [string_lt] at h
  | x :: s, y :: t, z :: u, h1, h2 => by
    simp only [string_lt, Bool.or_eq_true, Bool.and_eq_true, decide_eq_true_eq] at h1 h2 ⊢
    rcases h1 with h1 | ⟨h1, h1'⟩ <;> rcases h2 with h2 | ⟨h2, h2'⟩
    · left; omega
    · left; omega
    · left; omega
    · right; exact ⟨by omega, string_lt_trans s t u h1' h2'⟩

theorem string_lt_asymm (a b : Bytes) (h : string_lt a b = true) : string_lt b a = false := by
  by_contra hba
  have hba' : string_lt b a = true := by simpa using hba
  have := string_lt_trans a b a h hba'
  rw [string_lt_irrefl] at this
  exact Bool.false_ne_true this

theorem string_lt_connected : ∀ a b : Bytes, string_lt a b = false → string_lt b a = false →
    a = b
  | [], [], _, _ => rfl
  | [], _ :: _, h, _ => by simp [string_lt] at h
  | _ :: _, [], _, h => by simp [string_lt] at h
  | x :: s, y :: t, h1, h2 => by
    simp only [string_lt, Bool.or_eq_false_iff, Bool.and_eq_false_imp, decide_eq_false_iff_not,
      decide_eq_true_eq] at h1 h2
    have hxy : x = y := by omega
    subst hxy
    rw [string_lt_connected s t (h1.2 rfl) (h2.2 rfl)]

theorem keys_ascending_iff_chain (ks : List Bytes) :
    keys_ascending ks = true ↔ ks.Chain' (fun a b => string_lt a b = true) := by
  induction ks with
  | nil => simp [keys_ascending]
  | cons a ks ih =>
    cases ks with
    | nil => simp [keys_ascending]
    | cons b ks =>
      simp only [keys_ascending, Bool.and_eq_true, List.chain'_cons]
      rw [ih]

theorem keys_ascending_iff_pairwise (ks : List Bytes) :
    keys_ascending ks = true ↔ ks.Pairwise (fun a b => string_lt a b = true) := by
  haveI : IsTrans Bytes (fun a b => string_lt a b = true) := ⟨string_lt_trans⟩
  rw [keys_ascending_iff_chain]
  exact List.chain'_iff_pairwise

/-- Assigning a key above every key of the map appends the entry. -/
theorem map_assign_above (k : Bytes) (v : Json) : ∀ dict : List (Bytes × Json),
    (∀ e ∈ dict, string_lt e.1 k = true) → map_assign k v dict = dict ++ [(k, v)]
  | [], _ => rfl
  | (k0, v0) :: rest, h => by
    have h0 : string_lt k0 k = true := h (k0, v0) (by simp)
    have h1 : string_lt k k0 = false := string_lt_asymm _ _ h0
    simp only [map_assign, h1, h0, Bool.false_eq_true, if_false, if_true, List.cons_append]
    rw [map_assign_above k v rest (fun e he => h e (by simp [he]))]

theorem assign_all_ascending : ∀ (kvs dict : List (Bytes × Json)),
    ((dict ++ kvs).map Prod.fst).Pairwise (fun a b => string_lt a b = true) →
    assign_all dict kvs = dict ++ kvs
  | [], dict, _ => by simp [assign_all]
  | (k, v) :: kvs, dict, h => by
    have hk : ∀ e ∈ dict, string_lt e.1 k = true := by
      intro e he
      rw [List.map_append, List.pairwise_append] at h
      exact h.2.2 e.1 (List.mem_map_of_mem _ he) k (by simp)
    have ih := assign_all_ascending kvs (dict ++ [(k, v)]) (by simpa using h)
    simp only [assign_all, List.foldl_cons] at ih ⊢
    rw [map_assign_above k v dict hk, ih]
    simp

theorem map_assign_mem (k : Bytes) (v : Json) : ∀ (dict : List (Bytes × Json)) (e : Bytes × Json),
    e ∈ map_assign k v dict → e = (k, v) ∨ e ∈ dict ∨ (e.2 = v ∧ ∃ w, (e.1, w) ∈ dict)
  | [], e, h => by simp [map_assign] at h; exact Or.inl h
  | (k0, v0) :: rest, e, h => by
    simp only [map_assign] at h
    split_ifs at h
    · rcases List.mem_cons.mp h with h | h
      · exact Or.inl h
      · exact Or.inr (Or.inl h)
    · rcases List.mem_cons.mp h with h | h
      · exact Or.inr (Or.inl (by simp [h]))
      · rcases map_assign_mem k v rest e h with h | h | ⟨h, w, hw⟩
        · exact Or.inl h
        · exact Or.inr (Or.inl (by simp [h]))
        · exact Or.inr (Or.inr ⟨h, w, by simp [hw]⟩)
    · rcases List.mem_cons.mp h with h | h
      · exact Or.inr (Or.inr ⟨by simp [h], v0, by simp [h]⟩)
      · exact Or.inr (Or.inl (by simp [h]))

theorem map_assign_key_mem (k : Bytes) (v : Json) (dict : List (Bytes × Json)) (x : Bytes)
    (h : x ∈ (map_assign k v dict).map Prod.fst) : x = k ∨ x ∈ dict.map Prod.fst := by
  obtain ⟨e, he, rfl⟩ := List.mem_map.mp h
  rcases map_assign_mem k v dict e he with h | h | ⟨_, w, hw⟩
  · left; simp [h]
  · right; exact List.mem_map_of_mem _ h
  · right; exact List.mem_map.mpr ⟨(e.1, w), hw, rfl⟩

/-- Assignment keeps the keys of the map strictly ascending. -/
theorem map_assign_sorted (k : Bytes) (v : Json) : ∀ dict : List (Bytes × Json),
    (dict.map Prod.fst).Pairwise (fun a b => string_lt a b = true) →
    ((map_assign k v dict).map Prod.fst).Pairwise (fun a b => string_lt a b = true)
  | [], _ => by simp [map_assign]
  | (k0, v0) :: rest, h => by
    simp only [List.map_cons, List.pairwise_cons] at h
    simp only [map_assign]
    split_ifs with h1 h2
    · simp only [List.map_cons, List.pairwise_cons, List.mem_cons]
      refine ⟨?_, h⟩
      intro x hx
      rcases hx with hx | hx
      · rw [hx]; exact h1
      · exact string_lt_trans _ _ _ h1 (h.1 x hx)
    · simp only [List.map_cons, List.pairwise_cons]
      refine ⟨?_, map_assign_sorted k v rest h.2⟩
      intro x hx
      rcases map_assign_key_mem k v rest x hx with hx | hx
      · rw [hx]; exact h2
      · exact h.1 x hx
    · simpa using h

/-! ## Decoding a canonical bencoding -/

theorem spec_encode_head (v : Json) (h : v.conforming = true) :
    ∃ c tl, spec_encode v = c :: tl ∧ (c != 101) = true := by
  cases v with
  | null => simp [Json.conforming] at h
  | str s =>
    obtain ⟨h1, h2, _⟩ := to_string_nat_spec s.length
    obtain ⟨d, ds, hd⟩ := List.exists_cons_of_ne_nil h1
    have := isdigit_range (h2 d (by rw [hd]; simp))
    refine ⟨d, ds ++ 58 :: s, by simp [spec_encode, hd], ?_⟩
    simp; omega
  | int n => exact ⟨105, to_string_int n ++ [101], by simp [spec_encode], by decide⟩
  | arr xs => exact ⟨108, spec_encode_list xs ++ [101], by simp [spec_encode], by decide⟩
  | obj kvs => exact ⟨100, spec_encode_entries kvs ++ [101], by simp [spec_encode], by decide⟩

theorem key_head (k : Bytes) :
    ∃ d tl, to_string_nat k.length ++ 58 :: k = d :: tl ∧ isdigit d = true := by
  obtain ⟨h1, h2, _⟩ := to_string_nat_spec k.length
  obtain ⟨d, ds, hd⟩ := List.exists_cons_of_ne_nil h1
  exact ⟨d, ds ++ 58 :: k, by simp [hd], h2 d (by rw [hd]; simp)⟩

theorem decode_key_fuel (k rest : Bytes) (hk : k.length < 2 ^ 63) (fuel : Nat) :
    decode_bencoded_value_fuel (fuel + 1) ((to_string_nat k.length ++ 58 :: k) ++ rest)
      = .ok (.str k, rest) := by
  obtain ⟨d, tl, hd, hdig⟩ := key_head k
  have h := decode_string_spec_encode k rest hk
  rw [hd] at h ⊢
  rw [List.cons_append, decode_bencoded_value_fuel]
  simp only [hdig, if_true]
  exact h

mutual
/-- With enough fuel the decoder reads back every conforming value from its
canonical bencoding and stops right after it. -/
theorem decode_spec_encode_fuel : ∀ (v : Json), v.conforming = true → ∀ rest : Bytes,
    ∃ fuel, decode_bencoded_value_fuel fuel (spec_encode v ++ rest) = .ok (v, rest)
  | .null, h, _ => by simp [Json.conforming] at h
  | .str s, h, rest => by
    have hs : s.length < 2 ^ 63 := by simpa [Json.conforming] using h
    exact ⟨1, by simpa [spec_encode] using decode_key_fuel s rest hs 0⟩
  | .int n, h, rest => by
    simp only [Json.conforming, Bool.and_eq_true, decide_eq_true_eq] at h
    have := decode_integer_spec_encode n rest h.1 h.2
    simp only [spec_encode]
    refine ⟨0 + 1, ?_⟩
    rw [List.cons_append, List.cons_append, decode_bencoded_value_fuel]
    simp only [show isdigit 105 = false by decide, Bool.false_eq_true, if_false, if_true]
    simpa using this
  | .arr xs, h, rest => by
    have hxs : conforming_list xs = true := by simpa [Json.conforming] using h
    obtain ⟨f, hf⟩ := decode_list_items_fuel xs hxs (101 :: rest) [] (.ok (.arr xs, rest))
      ⟨1, by simp [decode_list_loop]⟩ (by simp)
    simp only [spec_encode]
    refine ⟨f + 1 + 1, ?_⟩
    rw [List.cons_append, List.cons_append, decode_bencoded_value_fuel]
    simp only [show isdigit 108 = false by decide, Bool.false_eq_true, if_false, if_true,
      show ¬ ((108 : Nat) = 105) by decide]
    rw [decode_list_fuel]
    simpa using hf
  | .obj kvs, h, rest => by
    simp only [Json.conforming, Bool.and_eq_true] at h
    have hsorted := (keys_ascending_iff_pairwise _).mp h.1
    obtain ⟨f, hf⟩ := decode_dict_items_fuel kvs h.2 (101 :: rest) [] (.ok (.obj kvs, rest))
      ⟨1, by
        rw [assign_all_ascending kvs [] (by simpa using hsorted)]
        simp [decode_dict_loop]⟩ (by simp)
    simp only [spec_encode]
    refine ⟨f + 1 + 1, ?_⟩
    rw [List.cons_append, List.cons_append, decode_bencoded_value_fuel]
    simp only [show isdigit 100 = false by decide, Bool.false_eq_true, if_false, if_true,
      show ¬ ((100 : Nat) = 105) by decide, show ¬ ((100 : Nat) = 108) by decide]
    rw [decode_dict_fuel]
    simpa using hf
/-- The list loop reads the values of a conforming list one by one and goes on
with what follows them. -/
theorem decode_list_items_fuel : ∀ (xs : List Json), conforming_list xs = true →
    ∀ (tail : Bytes) (acc : List Json) (r : Except Fault (Json × Bytes)),
    (∃ fuel, decode_list_loop fuel tail (acc ++ xs) = r) → r ≠ .error .out_of_fuel →
    ∃ fuel, decode_list_loop fuel (spec_encode_list xs ++ tail) acc = r
  | [], _, tail, acc, r, hr, _ => by simpa [spec_encode_list] using hr
  | x :: xs, h, tail, acc, r, ⟨f2, hf2⟩, hne => by
    simp only [conforming_list, Bool.and_eq_true] at h
    obtain ⟨f1, hf1⟩ := decode_spec_encode_fuel x h.1 (spec_encode_list xs ++ tail)
    obtain ⟨f3, hf3⟩ := decode_list_items_fuel xs h.2 tail (acc ++ [x]) r
      ⟨f2, by simpa using hf2⟩ hne
    obtain ⟨c, tl, hc, hce⟩ := spec_encode_head x h.1
    refine ⟨max f1 f3 + 1, ?_⟩
    have e : spec_encode_list (x :: xs) ++ tail
        = c :: (tl ++ (spec_encode_list xs ++ tail)) := by
      simp [spec_encode_list, hc]
    rw [e, decode_list_loop]
    simp only [hce, if_true]
    have e2 : c :: (tl ++ (spec_encode_list xs ++ tail))
        = spec_encode x ++ (spec_encode_list xs ++ tail) := by simp [hc]
    rw [e2, decode_bencoded_value_fuel_mono (le_max_left f1 f3) _ (by rw [hf1]; simp), hf1]
    simp only
    rw [decode_list_loop_mono (le_max_right f1 f3) _ _ (by rw [hf3]; exact hne), hf3]
/-- The dictionary loop reads the pairs one by one, assigns each to the map,
and goes on with what follows them; the keys may come in any order. -/
theorem decode_dict_items_fuel : ∀ (kvs : List (Bytes × Json)), conforming_entries kvs = true →
    ∀ (tail : Bytes) (dict : List (Bytes × Json)) (r : Except Fault (Json × Bytes)),
    (∃ fuel, decode_dict_loop fuel tail (assign_all dict kvs) = r) → r ≠ .error .out_of_fuel →
    ∃ fuel, decode_dict_loop fuel (spec_encode_entries kvs ++ tail) dict = r
  | [], _, tail, dict, r, hr, _ => by simpa [spec_encode_entries, assign_all] using hr
  | (k, v) :: kvs, h, tail, dict, r, ⟨f2, hf2⟩, hne => by
    simp only [conforming_entries, Bool.and_eq_true, decide_eq_true_eq] at h
    obtain ⟨f1, hf1⟩ := decode_spec_encode_fuel v h.1.2 (spec_encode_entries kvs ++ tail)
    obtain ⟨f3, hf3⟩ := decode_dict_items_fuel kvs h.2 tail (map_assign k v dict) r
      ⟨f2, by simpa [assign_all] using hf2⟩ hne
    obtain ⟨d, tl, hd, hdig⟩ := key_head k
    have hde : (d != 101) = true := by
      have := isdigit_range hdig
      simp; omega
    refine ⟨max f1 f3 + 1, ?_⟩
    have e : spec_encode_entries ((k, v) :: kvs) ++ tail
        = (to_string_nat k.length ++ 58 :: k)
          ++ (spec_encode v ++ (spec_encode_entries kvs ++ tail)) := by
      simp [spec_encode_entries]
    have e2 : d :: (tl ++ (spec_encode v ++ (spec_encode_entries kvs ++ tail)))
        = (to_string_nat k.length ++ 58 :: k)
          ++ (spec_encode v ++ (spec_encode_entries kvs ++ tail)) := by rw [hd]; rfl
    rw [e, ← e2, decode_dict_loop]
    simp only [hde, if_true]
    have hkey := decode_key_fuel k (spec_encode v ++ (spec_encode_entries kvs ++ tail)) h.1.1
      (max f1 f3 - 1)
    have hpos : max f1 f3 - 1 + 1 = max f1 f3 := by
      have : 1 ≤ f1 := by
        rcases f1 with _ | f1
        · simp [decode_bencoded_value_fuel] at hf1
        · omega
      omega
    rw [hpos] at hkey
    rw [e2, hkey]
    simp only
    rw [decode_bencoded_value_fuel_mono (le_max_left f1 f3) _ (by rw [hf1]; simp), hf1]
    simp only [Json.get_string]
    rw [decode_dict_loop_mono (le_max_right f1 f3) _ _ (by rw [hf3]; exact hne), hf3]
end

/-- The decoder reads back every conforming value from its canonical bencoding
and leaves the cursor right after it. -/
theorem decode_spec_encode (v : Json) (h : v.conforming = true) (rest : Bytes) :
    decode_bencoded_value (spec_encode v ++ rest) = .ok (v, rest) := by
  obtain ⟨f, hf⟩ := decode_spec_encode_fuel v h rest
  exact decode_bencoded_value_of_fuel f _ _ hf (by simp)

/-! ## Round trips -/

/-- The constant written for each array element is what the encoder returns
for `json::object()`. -/
theorem bencode_decoded_value_object :
    bencode_decoded_value Json.object = .ok bencode_fresh_object := rfl

/-- C1, on the code: the value decoded from `l1:ae`, the list holding the
string `a`, is encoded as `ldee` (each element is written as an empty
dictionary), and decoding that gives the list holding an empty mapping, not
the value that was encoded. -/
theorem round_trip_breaks_on_list :
    decode_bencoded_value_string (bytes "l1:ae") = .ok (.arr [.str (bytes "a")]) ∧
    bencode_decoded_value (.arr [.str (bytes "a")]) = .ok (bytes "ldee") ∧
    decode_bencoded_value_string (bytes "ldee") = .ok (.arr [.obj []]) ∧
    Json.arr [.obj []] ≠ Json.arr [.str (bytes "a")] :=
  ⟨rfl, rfl, rfl, by simp⟩

/-- C2, on the code: the conforming input `d4:spaml1:a1:bee` decodes to
`{spam: [a, b]}`, and encoding that value gives `d4:spamldedeee`, which is not
the input. -/
theorem canonical_encoding_breaks_on_list :
    (Json.obj [(bytes "spam", .arr [.str (bytes "a"), .str (bytes "b")])]).conforming = true ∧
    spec_encode (.obj [(bytes "spam", .arr [.str (bytes "a"), .str (bytes "b")])])
      = bytes "d4:spaml1:a1:bee" ∧
    decode_bencoded_value_string (bytes "d4:spaml1:a1:bee")
      = .ok (.obj [(bytes "spam", .arr [.str (bytes "a"), .str (bytes "b")])]) ∧
    bencode_decoded_value (.obj [(bytes "spam", .arr [.str (bytes "a"), .str (bytes "b")])])
      = .ok (bytes "d4:spamldedeee") ∧
    bytes "d4:spamldedeee" ≠ bytes "d4:spaml1:a1:bee" :=
  ⟨rfl, rfl, rfl, rfl, by decide⟩

mutual
/-- On a conforming value without lists the encoder writes the canonical bencoding. -/
theorem bencode_eq_spec_encode : ∀ v : Json, v.conforming = true → v.list_free = true →
    bencode_decoded_value v = .ok (spec_encode v)
  | .null, h, _ => by simp [Json.conforming] at h
  | .str s, _, _ => by simp [bencode_decoded_value, spec_encode]
  | .int n, _, _ => by simp [bencode_decoded_value, spec_encode]
  | .arr xs, _, h => by simp [Json.list_free] at h
  | .obj kvs, h1, h2 => by
    simp only [Json.conforming, Bool.and_eq_true] at h1
    simp only [Json.list_free] at h2
    simp only [bencode_decoded_value, spec_encode]
    rw [bencode_items_eq_spec_encode kvs h1.2 h2]
/-- The object loop writes the pairs of the canonical bencoding. -/
theorem bencode_items_eq_spec_encode : ∀ kvs : List (Bytes × Json),
    conforming_entries kvs = true → list_free_entries kvs = true →
    bencode_object_items kvs = .ok (spec_encode_entries kvs)
  | [], _, _ => by simp [bencode_object_items, spec_encode_entries]
  | (k, v) :: kvs, h1, h2 => by
    simp only [conforming_entries, Bool.and_eq_true, decide_eq_true_eq] at h1
    simp only [list_free_entries, Bool.and_eq_true] at h2
    simp only [bencode_object_items, spec_encode_entries]
    rw [bencode_eq_spec_encode v h1.1.2 h2.1, bencode_items_eq_spec_encode kvs h1.2 h2.2]
end

theorem spec_encode_entries_append : ∀ a b : List (Bytes × Json),
    spec_encode_entries (a ++ b) = spec_encode_entries a ++ spec_encode_entries b
  | [], b => by simp [spec_encode_entries]
  | (k, v) :: a, b => by
    simp [spec_encode_entries, spec_encode_entries_append a b]

theorem map_find_split (key : Bytes) (value : Json) : ∀ kvs : List (Bytes × Json),
    map_find key kvs = some value → ∃ before after, kvs = before ++ (key, value) :: after
  | [], h => by simp [map_find] at h
  | (k, v) :: kvs, h => by
    simp only [map_find] at h
    split_ifs at h with hk
    · simp only [Option.some.injEq] at h
      exact ⟨[], kvs, by simp [hk, h]⟩
    · obtain ⟨before, after, e⟩ := map_find_split key value kvs h
      exact ⟨(k, v) :: before, after, by simp [e]⟩

theorem conforming_entries_mem : ∀ (kvs : List (Bytes × Json)), conforming_entries kvs = true →
    ∀ e ∈ kvs, e.2.conforming = true
  | [], _, e, he => by simp at he
  | (k, v) :: kvs, h, e, he => by
    simp only [conforming_entries, Bool.and_eq_true, decide_eq_true_eq] at h
    rcases List.mem_cons.mp he with he | he
    · rw [he]; exact h.1.2
    · exact conforming_entries_mem kvs h.2 e he

/-- The string `parse_torrent` hashes, for any conforming torrent dictionary
whose `info` value holds no list: it is the canonical bencoding of the info
value, the very bytes that stand for it inside the blob. -/
theorem parse_torrent_info_bencoded_range (entries : List (Bytes × Json)) (info : Json)
    (hc : (Json.obj entries).conforming = true)
    (hi : map_find (bytes "info") entries = some info) (hl : info.list_free = true) :
    ∃ before after, entries = before ++ (bytes "info", info) :: after ∧
      spec_encode (.obj entries)
        = (100 :: spec_encode_entries before ++ bytes "4:info") ++ spec_encode info
          ++ (spec_encode_entries after ++ [101]) ∧
      parse_torrent_info_bencoded (spec_encode (.obj entries)) = .ok (spec_encode info) := by
  obtain ⟨before, after, e⟩ := map_find_split _ _ entries hi
  have hce : conforming_entries entries = true := by
    simp only [Json.conforming, Bool.and_eq_true] at hc
    exact hc.2
  have hinfo : info.conforming = true :=
    conforming_entries_mem entries hce (bytes "info", info) (by rw [e]; simp)
  refine ⟨before, after, e, ?_, ?_⟩
  · rw [e]
    simp only [spec_encode, spec_encode_entries_append, spec_encode_entries]
    have : to_string_nat (bytes "info").length ++ 58 :: bytes "info" = bytes "4:info" := by decide
    rw [this]
    simp
  · have hd := decode_spec_encode (.obj entries) hc []
    rw [List.append_nil] at hd
    simp only [parse_torrent_info_bencoded, decode_bencoded_value_string, hd, Json.index, hi, Option.getD_some]
    exact bencode_eq_spec_encode info hinfo hl

theorem Torrent.to_json_conforming (t : Torrent) (h : t.valid) : t.to_json.conforming = true := by
  obtain ⟨h1, h2, _, _, _, h6, h7, h8, h9, h10⟩ := h
  have a1 : -(2 : Int) ^ 63 ≤ t.info.length := by omega
  have a2 : -(2 : Int) ^ 63 ≤ t.info.plength := by omega
  have k1 : keys_ascending [bytes "announce", bytes "info"] = true := by decide
  have k2 : keys_ascending [bytes "length", bytes "name", bytes "piece length", bytes "pieces"]
      = true := by decide
  have l1 : (bytes "announce").length < 2 ^ 63 := by decide
  have l2 : (bytes "info").length < 2 ^ 63 := by decide
  have l3 : (bytes "length").length < 2 ^ 63 := by decide
  have l4 : (bytes "name").length < 2 ^ 63 := by decide
  have l5 : (bytes "piece length").length < 2 ^ 63 := by decide
  have l6 : (bytes "pieces").length < 2 ^ 63 := by decide
  simp only [Torrent.to_json, Info.to_json, Json.conforming, conforming_entries, List.map_cons,
    List.map_nil, k1, k2, Bool.and_eq_true, decide_eq_true_eq, Bool.true_and, Bool.and_true,
    and_true, true_and]
  exact ⟨⟨l1, h8⟩, l2, ⟨l3, a1, h7⟩, ⟨l4, h9⟩, ⟨l5, a2, h6⟩, l6, h10⟩

/-- C3: for every valid metainfo, on its conforming bencoding `parse_torrent`
hands to SHA-1 exactly the bytes that stand for the info value inside the
blob (so any digest of the two is the same); for the info dictionary of
scenario S3 these bytes are
`d6:lengthi12e4:name1:x12:piece lengthi16e6:pieces20:<20 zero bytes>e`. -/
theorem info_hash_stability (t : Torrent) (h : t.valid) :
    spec_encode t.to_json
      = (bytes "d8:announce" ++ spec_encode (.str t.announce) ++ bytes "4:info")
        ++ spec_encode t.info.to_json ++ bytes "e" ∧
    parse_torrent_info_bencoded (spec_encode t.to_json) = .ok (spec_encode t.info.to_json) ∧
    (∀ sha1 : Bytes → Bytes,
      Except.map sha1 (parse_torrent_info_bencoded (spec_encode t.to_json))
        = .ok (sha1 (spec_encode t.info.to_json))) ∧
    spec_encode s3_info.to_json
      = bytes "d6:lengthi12e4:name1:x12:piece lengthi16e6:pieces20:" ++ List.replicate 20 0
        ++ bytes "e" := by
  have hc := Torrent.to_json_conforming t h
  obtain ⟨before, after, _, _, h3⟩ := parse_torrent_info_bencoded_range
    [(bytes "announce", .str t.announce), (bytes "info", t.info.to_json)] t.info.to_json hc
    (by simp [map_find, bytes]) rfl
  have h3' : parse_torrent_info_bencoded (spec_encode t.to_json)
      = .ok (spec_encode t.info.to_json) := h3
  refine ⟨?_, h3', ?_, by decide⟩
  · have e1 : to_string_nat (bytes "announce").length ++ 58 :: bytes "announce"
        = bytes "8:announce" := by decide
    have e2 : to_string_nat (bytes "info").length ++ 58 :: bytes "info" = bytes "4:info" := by
      decide
    have e3 : bytes "d8:announce" = 100 :: bytes "8:announce" := by decide
    have e4 : bytes "e" = [101] := by decide
    simp only [Torrent.to_json, spec_encode, spec_encode_entries, e1, e2, e3, e4]
    simp
  · intro sha1
    rw [h3']
    rfl

/-- C3 at the metainfo of scenario S3 with tracker URL `t`. -/
theorem info_hash_stability_witness :
    parse_torrent_info_bencoded (spec_encode (Torrent.to_json ⟨bytes "t", s3_info⟩))
      = .ok (spec_encode s3_info.to_json) :=
  (info_hash_stability ⟨bytes "t", s3_info⟩ (by
    simp only [Torrent.valid, s3_info, bytes]
    decide)).2.1

/-- C4: the decoder returns every bencode value from its canonical bencoding
and leaves the cursor right at the end of it, whatever follows; `i-42e` gives
-42, `5:hello` the string `hello`, `le` the empty list, `de` the empty
mapping and `d3:cow3:moo4:spaml1:a1:bee` the mapping `{cow: moo, spam: [a, b]}`. -/
theorem decoder_correct_on_grammar (v : Json) (h : v.conforming = true) :
    decode_bencoded_value (spec_encode v) = .ok (v, []) ∧
    (∀ rest : Bytes, decode_bencoded_value (spec_encode v ++ rest) = .ok (v, rest)) ∧
    decode_bencoded_value_string (spec_encode v) = .ok v ∧
    decode_bencoded_value (bytes "i-42e") = .ok (.int (-42), []) ∧
    decode_bencoded_value (bytes "5:hello") = .ok (.str (bytes "hello"), []) ∧
    decode_bencoded_value (bytes "le") = .ok (.arr [], []) ∧
    decode_bencoded_value (bytes "de") = .ok (.obj [], []) ∧
    decode_bencoded_value (bytes "d3:cow3:moo4:spaml1:a1:bee")
      = .ok (.obj [(bytes "cow", .str (bytes "moo")),
          (bytes "spam", .arr [.str (bytes "a"), .str (bytes "b")])], []) := by
  have h0 := decode_spec_encode v h []
  rw [List.append_nil] at h0
  refine ⟨h0, decode_spec_encode v h, ?_, rfl, rfl, rfl, rfl, rfl⟩
  simp [decode_bencoded_value_string, h0]

/-- C4 at the nested mapping of scenario S2. -/
theorem decoder_correct_on_grammar_witness :
    decode_bencoded_value (spec_encode (.obj [(bytes "cow", .str (bytes "moo")),
        (bytes "spam", .arr [.str (bytes "a"), .str (bytes "b")])]))
      = .ok (.obj [(bytes "cow", .str (bytes "moo")),
          (bytes "spam", .arr [.str (bytes "a"), .str (bytes "b")])], []) :=
  (decoder_correct_on_grammar (.obj [(bytes "cow", .str (bytes "moo")),
    (bytes "spam", .arr [.str (bytes "a"), .str (bytes "b")])]) rfl).1

/-! ## Key order of decoded and encoded mappings -/

theorem ordered_list_append : ∀ (l : List Json) (v : Json),
    ordered_list (l ++ [v]) = (ordered_list l && v.ordered)
  | [], v => by simp [ordered_list]
  | x :: l, v => by simp [ordered_list, ordered_list_append l v, Bool.and_assoc]

theorem ordered_entries_iff : ∀ kvs : List (Bytes × Json),
    ordered_entries kvs = true ↔ ∀ e ∈ kvs, e.2.ordered = true
  | [] => by simp [ordered_entries]
  | (k, v) :: kvs => by
    simp [ordered_entries, ordered_entries_iff kvs]

/-- Assignment into an ordered object gives an ordered object. -/
theorem map_assign_ordered (k : Bytes) (v : Json) (dict : List (Bytes × Json))
    (hv : v.ordered = true) (hd : (Json.obj dict).ordered = true) :
    (Json.obj (map_assign k v dict)).ordered = true := by
  simp only [Json.ordered, Bool.and_eq_true] at hd ⊢
  refine ⟨?_, ?_⟩
  · exact (keys_ascending_iff_pairwise _).mpr
      (map_assign_sorted k v dict ((keys_ascending_iff_pairwise _).mp hd.1))
  · rw [ordered_entries_iff] at hd ⊢
    intro e he
    rcases map_assign_mem k v dict e he with h | h | ⟨h, _⟩
    · rw [h]; exact hv
    · exact hd.2 e h
    · rw [h]; exact hv

/-- Every value the decoder returns is ordered: no null, and every object
with strictly ascending keys. -/
theorem fuel_ordered (fuel : Nat) :
    (∀ it v it2, decode_bencoded_value_fuel fuel it = .ok (v, it2) → v.ordered = true) ∧
    (∀ it v it2, decode_list_fuel fuel it = .ok (v, it2) → v.ordered = true) ∧
    (∀ it list v it2, decode_list_loop fuel it list = .ok (v, it2) →
      ordered_list list = true → v.ordered = true) ∧
    (∀ it v it2, decode_dict_fuel fuel it = .ok (v, it2) → v.ordered = true) ∧
    (∀ it dict v it2, decode_dict_loop fuel it dict = .ok (v, it2) →
      (Json.obj dict).ordered = true → v.ordered = true) := by
  induction fuel with
  | zero =>
    refine ⟨?_, ?_, ?_, ?_, ?_⟩ <;> intros <;>
      simp [decode_bencoded_value_fuel, decode_list_fuel, decode_list_loop, decode_dict_fuel,
        decode_dict_loop] at *
  | succ fuel ih =>
    obtain ⟨ihV, ihL, ihLL, ihD, ihDL⟩ := ih
    refine ⟨?_, ?_, ?_, ?_, ?_⟩
    · intro it v it2 h
      cases it with
      | nil => simp [decode_bencoded_value_fuel] at h
      | cons c rest =>
        rw [decode_bencoded_value_fuel] at h
        split_ifs at h
        · unfold decode_string at h
          simp only at h
          split at h
          · simp at h
          · split_ifs at h
            split at h
            · simp at h
            · split_ifs at h
              simp only [Except.ok.injEq, Prod.mk.injEq] at h
              rw [← h.1]; rfl
        · unfold decode_integer at h
          simp only at h
          split at h
          · simp at h
          · split at h
            · simp at h
            · simp only [Except.ok.injEq, Prod.mk.injEq] at h
              rw [← h.1]; rfl
        · exact ihL _ _ _ h
        · exact ihD _ _ _ h
    · intro it v it2 h
      cases it with
      | nil => simp [decode_list_fuel] at h
      | cons c rest =>
        rw [decode_list_fuel] at h
        exact ihLL _ _ _ _ h rfl
    · intro it list v it2 h hl
      cases it with
      | nil => simp [decode_list_loop] at h
      | cons c rest =>
        rw [decode_list_loop] at h
        split_ifs at h
        · cases hv : decode_bencoded_value_fuel fuel (c :: rest) with
          | error e => rw [hv] at h; simp at h
          | ok r =>
            obtain ⟨value, it3⟩ := r
            rw [hv] at h
            refine ihLL _ _ _ _ h ?_
            rw [ordered_list_append, hl, ihV _ _ _ hv]
            rfl
        · simp only [Except.ok.injEq, Prod.mk.injEq] at h
          rw [← h.1]; simpa [Json.ordered] using hl
    · intro it v it2 h
      cases it with
      | nil => simp [decode_dict_fuel] at h
      | cons c rest =>
        rw [decode_dict_fuel] at h
        exact ihDL _ _ _ _ h rfl
    · intro it dict v it2 h hd
      cases it with
      | nil => simp [decode_dict_loop] at h
      | cons c rest =>
        rw [decode_dict_loop] at h
        split_ifs at h
        · cases hk : decode_bencoded_value_fuel fuel (c :: rest) with
          | error e => rw [hk] at h; simp at h
          | ok r =>
            obtain ⟨key, it3⟩ := r
            rw [hk] at h
            simp only at h
            cases hv : decode_bencoded_value_fuel fuel it3 with
            | error e => rw [hv] at h; simp at h
            | ok r2 =>
              obtain ⟨value, it4⟩ := r2
              rw [hv] at h
              simp only at h
              cases hg : key.get_string with
              | error e => rw [hg] at h; simp at h
              | ok k =>
                rw [hg] at h
                simp only at h
                exact ihDL _ _ _ _ h (map_assign_ordered k value dict (ihV _ _ _ hv) hd)
        · simp only [Except.ok.injEq, Prod.mk.injEq] at h
          rw [← h.1]; exact hd

mutual
/-- The encoder returns for every ordered value. -/
theorem bencode_ordered_ok : ∀ v : Json, v.ordered = true →
    ∃ out, bencode_decoded_value v = .ok out
  | .null, h => by simp [Json.ordered] at h
  | .str s, _ => ⟨_, rfl⟩
  | .int n, _ => ⟨_, rfl⟩
  | .arr xs, _ => ⟨_, rfl⟩
  | .obj kvs, h => by
    simp only [Json.ordered, Bool.and_eq_true] at h
    obtain ⟨encs, _, he⟩ := bencode_items_emitted kvs h.2
    exact ⟨100 :: emitted_entries kvs encs ++ [101], by
      simp only [bencode_decoded_value, he]⟩
/-- The object loop writes the entries in the order of the map, each key once. -/
theorem bencode_items_emitted : ∀ kvs : List (Bytes × Json), ordered_entries kvs = true →
    ∃ encs, List.Forall₂ (fun kv e => bencode_decoded_value kv.2 = .ok e) kvs encs ∧
      bencode_object_items kvs = .ok (emitted_entries kvs encs)
  | [], _ => ⟨[], List.Forall₂.nil, rfl⟩
  | (k, v) :: kvs, h => by
    simp only [ordered_entries, Bool.and_eq_true] at h
    obtain ⟨e, he⟩ := bencode_ordered_ok v h.1
    obtain ⟨encs, h1, h2⟩ := bencode_items_emitted kvs h.2
    exact ⟨e :: encs, List.Forall₂.cons he h1, by
      simp only [bencode_object_items, he, h2, emitted_entries]⟩
end

theorem pairwise_string_lt_nodup (ks : List Bytes)
    (h : ks.Pairwise (fun a b => string_lt a b = true)) : ks.Nodup := by
  refine List.Pairwise.imp ?_ h
  intro a b hab heq
  rw [heq, string_lt_irrefl] at hab
  exact Bool.false_ne_true hab

/-- C5: every value the decoder returns is ordered (each mapping in it, at any
depth, has strictly ascending keys) and the encoder returns for it; for every
ordered mapping the encoder writes the entries in the order of the map, so
the keys come out strictly ascending in unsigned byte order, each exactly
once; the input `d1:bi1e1:ai2ee`, whose keys are out of order, is written
back as `d1:ai2e1:bi1ee`. -/
theorem dictionary_key_order (it : Bytes) (v : Json) (rest : Bytes)
    (h : decode_bencoded_value it = .ok (v, rest)) :
    v.ordered = true ∧
    (∃ out, bencode_decoded_value v = .ok out) ∧
    (∀ kvs : List (Bytes × Json), (Json.obj kvs).ordered = true →
      (kvs.map Prod.fst).Pairwise (fun a b => string_lt a b = true) ∧
      (kvs.map Prod.fst).Nodup ∧
      ∃ encs, List.Forall₂ (fun kv e => bencode_decoded_value kv.2 = .ok e) kvs encs ∧
        bencode_decoded_value (.obj kvs) = .ok (100 :: emitted_entries kvs encs ++ [101])) ∧
    decode_bencoded_value_string (bytes "d1:bi1e1:ai2ee")
      = .ok (.obj [(bytes "a", .int 2), (bytes "b", .int 1)]) ∧
    bencode_decoded_value (.obj [(bytes "a", .int 2), (bytes "b", .int 1)])
      = .ok (bytes "d1:ai2e1:bi1ee") := by
  have ho : v.ordered = true := (fuel_ordered _).1 it v rest h
  refine ⟨ho, bencode_ordered_ok v ho, ?_, rfl, rfl⟩
  intro kvs hk
  simp only [Json.ordered, Bool.and_eq_true] at hk
  have hp := (keys_ascending_iff_pairwise _).mp hk.1
  obtain ⟨encs, h1, h2⟩ := bencode_items_emitted kvs hk.2
  exact ⟨hp, pairwise_string_lt_nodup _ hp, encs, h1, by simp only [bencode_decoded_value, h2]⟩

/-- C5 at the out-of-order input `d1:bi1e1:ai2ee`. -/
theorem dictionary_key_order_witness :
    decode_bencoded_value (bytes "d1:bi1e1:ai2ee")
      = .ok (.obj [(bytes "a", .int 2), (bytes "b", .int 1)], []) ∧
    (Json.obj [(bytes "a", .int 2), (bytes "b", .int 1)]).ordered = true :=
  ⟨rfl, (dictionary_key_order (bytes "d1:bi1e1:ai2ee")
    (.obj [(bytes "a", .int 2), (bytes "b", .int 1)]) [] rfl).1⟩

/-! ## What the decoder accepts and rejects -/

/-- C6, on the code: the integers `i007e`, `i-0e` and `i12abce`, which the
claim says are rejected, are decoded to 7, 0 and 12. -/
theorem integer_validation_counterexample :
    decode_integer (bytes "i007e") = .ok (.int 7, []) ∧
    decode_integer (bytes "i-0e") = .ok (.int 0, []) ∧
    decode_integer (bytes "i12abce") = .ok (.int 12, []) :=
  ⟨rfl, rfl, rfl⟩

theorem stoll_no_conversion (s : Bytes)
    (h : ∀ c, s.head? = some c →
      isdigit c = false ∧ isspace c = false ∧ c ≠ 45 ∧ c ≠ 43) :
    stoll s = .error .invalid_argument := by
  cases s with
  | nil => rfl
  | cons c t =>
    obtain ⟨h1, h2, h3, h4⟩ := h c rfl
    have hdrop : (c :: t).dropWhile isspace = c :: t := by simp [List.dropWhile, h2]
    unfold stoll
    simp only [hdrop]
    have e2 : (match c :: t with | 45 :: t => t | 43 :: t => t | _ => c :: t) = c :: t := by
      split
      · rename_i heq; simp at heq; omega
      · rename_i heq; simp at heq; omega
      · rfl
    simp only [e2]
    simp [List.takeWhile, h1]

/-- C6 as the code has it: when the body is an optional minus sign, a
non-empty run of decimal digits whose value fits `int64_t`, and then any bytes
other than `e` that do not start with a digit, `decode_integer` returns the
value of the run and leaves the cursor after the `e`: leading zeros, `-0` and
trailing non-digits are accepted. It fails with `invalid_argument` when the
body is empty or starts with a byte that is no digit, sign or white space,
and with `runtime_error` when no `e` follows. -/
theorem decode_integer_lenient (neg : Bool) (ds junk rest : Bytes) (hne : ds ≠ [])
    (hd : ∀ d ∈ ds, isdigit d = true)
    (hj : ∀ c, junk.head? = some c → isdigit c = false)
    (he : ∀ c ∈ junk, c ≠ 101)
    (hr : digits_value ds < 2 ^ 63 + (if neg then 1 else 0)) :
    decode_integer (105 :: ((if neg then [45] else []) ++ ds ++ junk ++ 101 :: rest))
      = .ok (.int (if neg then -(digits_value ds : Int) else (digits_value ds : Int)), rest) ∧
    (∀ body tail : Bytes, (∀ c ∈ body, c ≠ 101) →
      (∀ c, body.head? = some c → isdigit c = false ∧ isspace c = false ∧ c ≠ 45 ∧ c ≠ 43) →
      decode_integer (105 :: (body ++ 101 :: tail)) = .error .invalid_argument) ∧
    (∀ body : Bytes, (∀ c ∈ body, c ≠ 101) →
      decode_integer (105 :: body) = .error .runtime_error) := by
  have hp : (fun c : Nat => c != 101) 101 = false := by decide
  refine ⟨?_, ?_, ?_⟩
  · have hbody : ∀ c ∈ (if neg then [45] else []) ++ ds ++ junk, (c != 101) = true := by
      intro c hc
      simp only [bne_iff_ne, ne_eq]
      rcases List.mem_append.mp hc with hc | hc
      · rcases List.mem_append.mp hc with hc | hc
        · cases neg <;> simp at hc
          omega
        · have := isdigit_range (hd c hc)
          omega
      · exact he c hc
    unfold decode_integer
    simp only
    rw [takeWhile_append_stop _ _ 101 hbody hp, dropWhile_append_stop _ _ 101 hbody hp]
    simp only
    cases neg with
    | false =>
      have := stoll_c_str_digits ds junk hne hd hj (by simpa using hr)
      simp only [Bool.false_eq_true, if_false, List.nil_append]
      rw [this]
    | true =>
      have := stoll_c_str_minus_digits ds junk hne hd hj (by simp at hr; omega)
      simp only [if_true, List.cons_append, List.nil_append, List.append_assoc]
      rw [this]
  · intro body tail hb hh
    have hbody : ∀ c ∈ body, (c != 101) = true := by
      intro c hc; simpa using hb c hc
    unfold decode_integer
    simp only
    rw [takeWhile_append_stop _ _ 101 hbody hp, dropWhile_append_stop _ _ 101 hbody hp]
    simp only
    rw [stoll_no_conversion (c_str body) (fun c hc => hh c (c_str_head body c hc))]
  · intro body hb
    have hbody : ∀ c ∈ body, (c != 101) = true := by
      intro c hc; simpa using hb c hc
    have hdrop : body.dropWhile (fun c => c != 101) = [] := by
      rw [List.dropWhile_eq_nil_iff]; exact hbody
    unfold decode_integer
    simp only [hdrop]

/-- C6 as the code has it, at `i-007xe`: the result is -7. -/
theorem decode_integer_lenient_witness :
    decode_integer (105 :: ((if true then [45] else []) ++ [48, 48, 55] ++ [120] ++ 101 :: []))
      = .ok (.int (if true then -(digits_value [48, 48, 55] : Int)
          else (digits_value [48, 48, 55] : Int)), []) :=
  (decode_integer_lenient true [48, 48, 55] [120] [] (by decide) (by decide) (by decide)
    (by decide) (by decide)).1

/-- C7, on the code: on `5:hi`, and on the proper prefix `5:he` of the
conforming input `5:hello`, `decode_string` builds the string from
`[it, it + 5)` although fewer than five bytes remain: the decoder reads past
the end of the buffer instead of failing with an exception. -/
theorem truncated_string_reads_past_end :
    decode_bencoded_value (bytes "5:hi") = .error .past_the_end ∧
    decode_string (bytes "5:hi") = .error .past_the_end ∧
    (Json.str (bytes "hello")).conforming = true ∧
    spec_encode (.str (bytes "hello")) = bytes "5:he" ++ bytes "llo" ∧
    decode_bencoded_value (bytes "5:he") = .error .past_the_end :=
  ⟨rfl, rfl, rfl, rfl, rfl⟩

/-- C8, on the code: the dictionary `d1:ai1e1:ai2ee`, in which the key `a`
occurs twice, is not rejected: `decode_dict` returns the mapping `{a: 2}`. -/
theorem duplicate_key_counterexample :
    decode_dict (bytes "d1:ai1e1:ai2ee") = .ok (.obj [(bytes "a", .int 2)], []) := rfl

theorem map_find_map_assign (k : Bytes) (v : Json) : ∀ dict : List (Bytes × Json),
    map_find k (map_assign k v dict) = some v
  | [] => by simp [map_assign, map_find]
  | (k0, v0) :: rest => by
    simp only [map_assign]
    split_ifs with h1 h2
    · simp [map_find]
    · have hne : k0 ≠ k := by
        intro heq
        rw [heq, string_lt_irrefl] at h2
        exact Bool.false_ne_true h2
      simp only [map_find, hne, if_false]
      exact map_find_map_assign k v rest
    · have heq : k0 = k :=
        (string_lt_connected k k0 (by simpa using h1) (by simpa using h2)).symm
      simp [map_find, heq]

/-- C8 as the code has it: a dictionary whose keys are strings is accepted
whatever their order and however often a key occurs, the result being the map
obtained by assigning the pairs one after the other, so that a key looked up
right after its assignment has the value just assigned (a repeated key keeps
its last value); a dictionary in which, after any number of such pairs, a key
position holds a value that is not a string is rejected. -/
theorem decode_dict_keys (pairs : List (Bytes × Json)) (h : conforming_entries pairs = true) :
    (∀ rest : Bytes, decode_dict (100 :: (spec_encode_entries pairs ++ 101 :: rest))
      = .ok (.obj (assign_all [] pairs), rest)) ∧
    (∀ (k : Bytes) (v : Json) (dict : List (Bytes × Json)),
      map_find k (map_assign k v dict) = some v) ∧
    (∀ (key : Json) (rest : Bytes), key.conforming = true →
      key.get_string = .error .type_error →
      ∃ e, decode_dict (100 :: (spec_encode_entries pairs ++ (spec_encode key ++ rest)))
        = .error e ∧ e ≠ .out_of_fuel) ∧
    decode_dict (bytes "di1ei2ee") = .error .type_error := by
  refine ⟨?_, map_find_map_assign, ?_, rfl⟩
  · intro rest
    obtain ⟨f, hf⟩ := decode_dict_items_fuel pairs h (101 :: rest) []
      (.ok (.obj (assign_all [] pairs), rest)) ⟨0 + 1, by simp [decode_dict_loop]⟩ (by simp)
    refine decode_dict_of_fuel (f + 1) _ _ ?_ (by simp)
    rw [decode_dict_fuel]
    exact hf
  · intro key rest hkc hks
    obtain ⟨f1, hf1⟩ := decode_spec_encode_fuel key hkc rest
    obtain ⟨c, tl, hc, hce⟩ := spec_encode_head key hkc
    let F := max f1 (3 * rest.length + 1)
    have hkey : decode_bencoded_value_fuel F (c :: (tl ++ rest)) = .ok (key, rest) := by
      have : c :: (tl ++ rest) = spec_encode key ++ rest := by rw [hc]; rfl
      rw [this, decode_bencoded_value_fuel_mono (le_max_left _ _) _ (by rw [hf1]; simp), hf1]
    have hval : decode_bencoded_value_fuel F rest ≠ .error .out_of_fuel :=
      (fuel_adequate F).1 rest (le_max_right _ _)
    have hloop : ∃ e, decode_dict_loop (F + 1) (spec_encode key ++ rest) (assign_all [] pairs)
        = .error e ∧ e ≠ .out_of_fuel := by
      rw [hc, List.cons_append, decode_dict_loop]
      simp only [hce, if_true, hkey]
      cases hv : decode_bencoded_value_fuel F rest with
      | error e =>
        refine ⟨e, rfl, ?_⟩
        intro he
        rw [he] at hv
        exact hval hv
      | ok r =>
        obtain ⟨value, it⟩ := r
        simp only [hks]
        exact ⟨.type_error, rfl, by decide⟩
    obtain ⟨e, he, hne⟩ := hloop
    obtain ⟨f, hf⟩ := decode_dict_items_fuel pairs h (spec_encode key ++ rest) [] (.error e)
      ⟨F + 1, he⟩ (by simpa using hne)
    refine ⟨e, ?_, hne⟩
    refine decode_dict_of_fuel (f + 1) _ _ ?_ (by simpa using hne)
    rw [decode_dict_fuel]
    exact hf

/-- C8 as the code has it, at the pairs `a: 1`, `a: 2`. -/
theorem decode_dict_keys_witness :
    conforming_entries [(bytes "a", .int 1), (bytes "a", .int 2)] = true ∧
    decode_dict (100 :: (spec_encode_entries [(bytes "a", .int 1), (bytes "a", .int 2)]
        ++ 101 :: []))
      = .ok (.obj (assign_all [] [(bytes "a", .int 1), (bytes "a", .int 2)]), []) :=
  ⟨rfl, (decode_dict_keys [(bytes "a", .int 1), (bytes "a", .int 2)] rfl).1 []⟩

/-! ## Piece lengths -/

/-- C9, on the code: for the valid metainfo with length 32768 and piece length
16384 (two pieces), `download_piece` and `recheck_existing_file` compute
`length % piece_length = 0` for the last piece, index 1, where the claim's
formula `length - (P-1) * piece_length` gives 16384; with length 40000
(scenario S6) the three lengths are the claimed 16384, 16384 and 7232. -/
theorem last_piece_length_of_exact_multiple :
    two_full_pieces.valid ∧
    download_piece_length two_full_pieces.info 1 = .ok 0 ∧
    recheck_piece_length two_full_pieces.info 1 = .ok 0 ∧
    two_full_pieces.info.length
      - ((two_full_pieces.info.pieces.length / 20 : Nat) - 1) * two_full_pieces.info.plength
      = 16384 ∧
    [download_piece_length s6_torrent.info 0, download_piece_length s6_torrent.info 1,
      download_piece_length s6_torrent.info 2] = [.ok 16384, .ok 16384, .ok 7232] ∧
    [recheck_piece_length s6_torrent.info 0, recheck_piece_length s6_torrent.info 1,
      recheck_piece_length s6_torrent.info 2] = [.ok 16384, .ok 16384, .ok 7232] := by
  refine ⟨?_, rfl, rfl, by decide, rfl, rfl⟩
  simp only [Torrent.valid, two_full_pieces, bytes]
  decide

/-- Where the two piece-length computations agree with the formula of the
specification: for a valid metainfo whose length is not a multiple of the
piece length, piece `i` gets `piece_length` when `i < P - 1` and
`length - (P-1) * piece_length` when `i = P - 1`. -/
theorem piece_length_of_inexact_multiple (t : Torrent) (h : t.valid)
    (hnm : t.info.length % t.info.plength ≠ 0) (i : Nat)
    (hi : i < t.info.pieces.length / 20) :
    download_piece_length t.info (i : Int)
      = .ok (if i < t.info.pieces.length / 20 - 1 then t.info.plength
          else t.info.length - ((t.info.pieces.length / 20 : Nat) - 1) * t.info.plength) ∧
    recheck_piece_length t.info i
      = .ok (if i < t.info.pieces.length / 20 - 1 then t.info.plength.toNat
          else (t.info.length
            - ((t.info.pieces.length / 20 : Nat) - 1) * t.info.plength).toNat) := by
  obtain ⟨h1, h2, _, h4, h5, h6, h7, _, _, h10⟩ := h
  generalize hP : t.info.pieces.length / 20 = P at *
  generalize hpl : t.info.plength = pl at *
  generalize hlen : t.info.length = len at *
  have hPb : P < 2 ^ 63 := by omega
  obtain ⟨Q, rfl⟩ : ∃ Q, P = Q + 1 := ⟨P - 1, by omega⟩
  have hQ : (((Q + 1 : Nat) : Int) - 1) = (Q : Int) := by push_cast; ring
  rw [hQ] at h4
  have hrem : len % pl = len - (Q : Int) * pl := by
    have hlt : len < ((Q + 1 : Nat) : Int) * pl := by
      rcases lt_or_eq_of_le h5 with h | h
      · exact h
      · exfalso
        apply hnm
        rw [h]
        exact Int.mul_emod_left _ _
    have hlt' : len - (Q : Int) * pl < pl := by
      have : ((Q + 1 : Nat) : Int) * pl = (Q : Int) * pl + pl := by push_cast; ring
      omega
    have e : len = (len - (Q : Int) * pl) + (Q : Int) * pl := by ring
    rw [e, Int.add_mul_emod_self, Int.emod_eq_of_lt (by omega) hlt']
    ring
  have htm : Int.tmod len pl = len % pl := Int.tmod_eq_emod (by omega) (by omega)
  have hrem_ok : int64_rem len pl = .ok (len - (Q : Int) * pl) := by
    unfold int64_rem
    rw [if_neg (by omega), htm, hrem]
  have hsz : ∀ v : Int, 0 ≤ v → v < 2 ^ 63 → to_size_t v = v.toNat := by
    intro v hv0 hv1
    unfold to_size_t
    congr 1
    omega
  have hsi : to_size_t (i : Int) = i := by rw [hsz _ (by omega) (by omega)]; omega
  have hsq : to_size_t ((Q : Int)) = Q := by rw [hsz _ (by omega) (by omega)]; omega
  have hQ1 : Q + 1 - 1 = Q := by omega
  have hqp : 0 ≤ (Q : Int) * pl := Int.mul_nonneg (Int.ofNat_nonneg Q) (by omega)
  refine ⟨?_, ?_⟩
  · unfold download_piece_length
    rw [hP, hpl, hlen, hQ, hsi, hsq, hQ1]
    by_cases hiq : i = Q
    · rw [if_pos hiq, if_neg (by omega), hrem_ok]
    · rw [if_neg hiq, if_pos (by omega)]
  · unfold recheck_piece_length
    simp only [hP, hpl, hlen, hQ, hsq, hQ1]
    by_cases hiq : i = Q
    · rw [if_pos hiq, if_neg (by omega), hrem_ok]
      simp only
      rw [hsz _ (by omega) (by omega)]
    · rw [if_neg hiq, if_pos (by omega), hsz _ (by omega) (by omega)]

/-! ## The block requests of `download_piece` -/

theorem be_value_htonl_bytes (v : Nat) (h : v < 2 ^ 32) :
    be_value (htonl_bytes (v : Int)) = v ∧ (htonl_bytes (v : Int)).length = 4 ∧
      ∀ b ∈ htonl_bytes (v : Int), b < 256 := by
  have hu : ((v : Int) % 2 ^ 32).toNat = v := by omega
  refine ⟨?_, rfl, ?_⟩
  · simp only [htonl_bytes, hu, be_value, List.foldl_cons, List.foldl_nil]
    omega
  · simp only [htonl_bytes, hu, List.mem_cons, List.mem_singleton, List.not_mem_nil, or_false]
    rintro b (rfl | rfl | rfl | rfl) <;> omega

theorem contains_loop_eq (piece_index : Int) : ∀ temp : List Int,
    contains_loop piece_index temp = decide (piece_index ∈ temp)
  | [] => by simp [contains_loop]
  | front :: temp => by
    by_cases h : front = piece_index
    · simp [contains_loop, h]
    · have h' : ¬ piece_index = front := fun e => h e.symm
      simp [contains_loop, h, h', contains_loop_eq piece_index temp]

theorem run_calls_fifo : ∀ (calls : List QueueCall) (q : WorkerQueue) (piece_index : Int),
    q.queue ++ pushed calls
      = (run_calls calls q piece_index).1 ++ (run_calls calls q piece_index).2.1.queue
  | [], q, piece_index => by simp [run_calls, pushed]
  | .add_piece i :: calls, q, piece_index => by
    have ih := run_calls_fifo calls (q.add_piece i) piece_index
    simp only [run_calls, pushed]
    rw [← ih]
    simp [WorkerQueue.add_piece]
  | .get_next_piece :: calls, q, piece_index => by
    obtain ⟨queue⟩ := q
    cases queue with
    | nil =>
      have ih := run_calls_fifo calls ⟨[]⟩ piece_index
      simp only [run_calls, pushed, WorkerQueue.get_next_piece]
      exact ih
    | cons front rest =>
      have ih := run_calls_fifo calls ⟨rest⟩ front
      simp only [run_calls, pushed, WorkerQueue.get_next_piece, List.cons_append]
      rw [← ih]

/-- C14: on a `WorkerQueue`, for every sequence of `add_piece` and
`get_next_piece` calls, the indices pushed (behind what the queue held) are
the indices the successful `get_next_piece` calls returned, in that order,
followed by what is still queued; `add_piece` puts the index at the tail;
`get_next_piece` returns false exactly when the queue is empty and then
leaves queue and argument as they were, and otherwise hands out the front;
`contains` and `empty` (const members, they return no new queue) give
membership and emptiness. -/
theorem worker_queue_fifo (calls : List QueueCall) (q : WorkerQueue) (piece_index : Int) :
    q.queue ++ pushed calls
      = (run_calls calls q piece_index).1 ++ (run_calls calls q piece_index).2.1.queue ∧
    (∀ i : Int, (q.add_piece i).queue = q.queue ++ [i]) ∧
    ((q.get_next_piece piece_index).1 = false ↔ q.queue = []) ∧
    (q.queue = [] → q.get_next_piece piece_index = (false, piece_index, q)) ∧
    (∀ front rest, q.queue = front :: rest →
      q.get_next_piece piece_index = (true, front, ⟨rest⟩)) ∧
    (∀ i : Int, q.contains i = decide (i ∈ q.queue)) ∧
    q.empty = decide (q.queue = []) := by
  obtain ⟨queue⟩ := q
  refine ⟨run_calls_fifo calls ⟨queue⟩ piece_index, fun i => rfl, ?_, ?_, ?_,
    fun i => contains_loop_eq i queue, ?_⟩
  · cases queue <;> simp [WorkerQueue.get_next_piece]
  · intro h
    simp only at h
    simp [WorkerQueue.get_next_piece, h]
  · intro front rest h
    simp only at h
    simp [WorkerQueue.get_next_piece, h]
  · cases queue <;> simp [WorkerQueue.empty]

/-! ## The compact peer list -/

theorem string_at_in_range (s : Bytes) (hb : ∀ b ∈ s, b < 256) (pos : Nat)
    (h : pos < s.length) : string_at s pos = .ok (s.getD pos 0) := by
  have hmem : s.getD pos 0 ∈ s := by
    rw [List.getD_eq_getElem s 0 h]
    exact List.getElem_mem h
  simp only [string_at, h, if_true]
  rw [Nat.mod_eq_of_lt (hb _ hmem)]

theorem getD_lt_256 (s : Bytes) (hb : ∀ b ∈ s, b < 256) (pos : Nat) : s.getD pos 0 < 256 := by
  by_cases h : pos < s.length
  · rw [List.getD_eq_getElem s 0 h]
    exact hb _ (List.getElem_mem h)
  · rw [List.getD_eq_default s 0 (by omega)]
    omega

theorem port_value (hi lo : Nat) (hhi : hi < 256) (hlo : lo < 256) :
    ((hi <<< 8) ||| lo) % 2 ^ 16 = 256 * hi + lo := by
  have h := Nat.mul_add_lt_is_or (i := 8) (b := lo) (by omega) hi
  rw [Nat.shiftLeft_eq, Nat.mul_comm hi (2 ^ 8), ← h]
  omega

/-- The peer loop gives, for each round, the dotted address and the port of
the six bytes at `6 * i`. -/
theorem peers_request_loop_eq (peers : Bytes) (hb : ∀ b ∈ peers, b < 256) :
    ∀ (remaining i : Nat), 6 * (i + remaining) ≤ peers.length →
    peers_request_loop peers remaining i
      = .ok ((List.range remaining).map (fun j =>
          (to_string_nat (peers.getD (6 * (i + j)) 0) ++ [46]
            ++ to_string_nat (peers.getD (6 * (i + j) + 1) 0) ++ [46]
            ++ to_string_nat (peers.getD (6 * (i + j) + 2) 0) ++ [46]
            ++ to_string_nat (peers.getD (6 * (i + j) + 3) 0),
           256 * peers.getD (6 * (i + j) + 4) 0 + peers.getD (6 * (i + j) + 5) 0)))
  | 0, _, _ => rfl
  | remaining + 1, i, h => by
    have ih := peers_request_loop_eq peers hb remaining (i + 1) (by omega)
    have e6 : i * 6 = 6 * i := Nat.mul_comm _ _
    rw [peers_request_loop, ih]
    simp only [format_ip_address, get_peer_port, e6,
      string_at_in_range peers hb (6 * i) (by omega),
      string_at_in_range peers hb (6 * i + 1) (by omega),
      string_at_in_range peers hb (6 * i + 2) (by omega),
      string_at_in_range peers hb (6 * i + 3) (by omega),
      string_at_in_range peers hb (6 * i + 4) (by omega),
      string_at_in_range peers hb (6 * i + 4 + 1) (by omega),
      port_value _ _ (getD_lt_256 peers hb _) (getD_lt_256 peers hb _)]
    rw [List.range_succ_eq_map, List.map_cons, List.map_map]
    have key : ∀ j : Nat, i + 1 + j = i + (j + 1) := fun j => by omega
    simp only [key, Function.comp_def, Nat.succ_eq_add_one, Nat.add_zero]

/-- C19: for every `peers` string the peer loop of `peers_request` yields
exactly `len / 6` entries in input order, entry `k` being the dotted-decimal
rendering of the bytes `6k .. 6k+3` and the port `256 * byte[6k+4] +
byte[6k+5]`; the twelve bytes `0a 00 00 01 1a e1 0a 00 00 02 1a e2` yield
`10.0.0.1:6881` and `10.0.0.2:6882`. -/
theorem compact_peer_list (peers : Bytes) (hb : ∀ b ∈ peers, b < 256) :
    peers_request_peers peers
      = .ok ((List.range (peers.length / 6)).map (fun k =>
          (to_string_nat (peers.getD (6 * k) 0) ++ [46]
            ++ to_string_nat (peers.getD (6 * k + 1) 0) ++ [46]
            ++ to_string_nat (peers.getD (6 * k + 2) 0) ++ [46]
            ++ to_string_nat (peers.getD (6 * k + 3) 0),
           256 * peers.getD (6 * k + 4) 0 + peers.getD (6 * k + 5) 0))) ∧
    (∀ out, peers_request_peers peers = .ok out → out.length = peers.length / 6) ∧
    (peers_request_peers [10, 0, 0, 1, 26, 225, 10, 0, 0, 2, 26, 226]).map (List.map peer_line)
      = .ok [bytes "10.0.0.1:6881", bytes "10.0.0.2:6882"] := by
  have h := peers_request_loop_eq peers hb (peers.length / 6) 0 (by omega)
  simp only [Nat.zero_add] at h
  refine ⟨h, ?_, by rfl⟩
  intro out hout
  rw [peers_request_peers, h] at hout
  simp only [Except.ok.injEq] at hout
  rw [← hout]
  simp

/-- C19 at the twelve bytes of scenario S5. -/
theorem compact_peer_list_witness :
    (peers_request_peers [10, 0, 0, 1, 26, 225, 10, 0, 0, 2, 26, 226]).map List.length
      = .ok 2 := by
  rw [(compact_peer_list [10, 0, 0, 1, 26, 225, 10, 0, 0, 2, 26, 226] (by decide)).1]
  rfl

/-! ## Framed messages -/

theorem send_peer_message_eq (id : Nat) (payload : Bytes) :
    send_peer_message id payload
      = htonl_bytes ((payload.length + 1 : Nat) : Int) ++ [id] ++ payload := by
  unfold send_peer_message
  cases payload <;> simp

theorem append_split_left {a b c d : Bytes} (h : a ++ b = c ++ d) (hl : a.length ≤ c.length) :
    ∃ c', c = a ++ c' ∧ b = c' ++ d := by
  rcases List.append_eq_append_iff.mp h with ⟨a', h1, h2⟩ | ⟨c', h1, h2⟩
  · exact ⟨a', h1, h2⟩
  · have hc : c' = [] := by
      have := congrArg List.length h1
      simp only [List.length_append] at this
      exact List.length_eq_zero.mp (by omega)
    subst hc
    exact ⟨[], by simpa using h1.symm, by simpa using h2.symm⟩

/-- One `recv` of `n` bytes on deliveries that start with the `n` wanted
bytes, the first delivery holding at least `n`: the call returns them. -/
theorem recv_exact (n : Nat) (hn : 0 < n) (ds later : List Bytes) (want after : Bytes)
    (hne : ∀ d ∈ ds, d ≠ []) (hflat : ds.flatten = want ++ after) (hwant : want.length = n)
    (hfirst : ∀ first ∈ ds.head?, n ≤ first.length) :
    ∃ ds', recv n (ds ++ later) = (want, ds' ++ later) ∧ (∀ d ∈ ds', d ≠ []) ∧
      ds'.flatten = after := by
  cases ds with
  | nil =>
    simp only [List.flatten_nil] at hflat
    have : want.length = 0 := by
      have := congrArg List.length hflat
      simp only [List.length_nil, List.length_append] at this
      omega
    omega
  | cons first rest =>
    have hf : n ≤ first.length := hfirst first (by simp)
    simp only [List.flatten_cons] at hflat
    by_cases hle : first.length ≤ n
    · obtain ⟨c', hc1, hc2⟩ := append_split_left (a := want) (b := after) (c := first)
        (d := rest.flatten) hflat.symm (by omega)
      have hc' : c' = [] := by
        have := congrArg List.length hc1
        simp only [List.length_append] at this
        exact List.length_eq_zero.mp (by omega)
      subst hc'
      simp only [List.append_nil, List.nil_append] at hc1 hc2
      refine ⟨rest, ?_, fun d hd => hne d (by simp [hd]), hc2.symm⟩
      simp only [recv, List.cons_append, if_pos hle]
      rw [hc1]
    · obtain ⟨c', hc1, hc2⟩ := append_split_left (a := want) (b := after) (c := first)
        (d := rest.flatten) hflat.symm (by omega)
      have htake : first.take n = want := by
        rw [hc1, ← hwant]; simp
      have hdrop : first.drop n = c' := by
        rw [hc1, ← hwant]; simp
      have hc'ne : c' ≠ [] := by
        intro h0
        rw [h0] at hc1
        have := congrArg List.length hc1
        simp only [List.length_append, List.length_nil] at this
        omega
      refine ⟨c' :: rest, ?_, ?_, ?_⟩
      · simp [recv, hle, htake, hdrop]
      · intro d hd
        rcases List.mem_cons.mp hd with h | h
        · rw [h]; exact hc'ne
        · exact hne d (by simp [h])
      · simp [hc2]

theorem read_payload_done (payload_length fuel : Nat) (payload : Bytes) (inbound : List Bytes)
    (h : ¬ payload.length < payload_length) :
    read_payload payload_length fuel payload inbound = .ok (payload, inbound) := by
  cases fuel <;> simp [read_payload, h]

/-- The payload loop gathers the bytes still needed from non-empty
deliveries of any sizes and stops right after them. -/
theorem read_payload_spec (payload_length : Nat) : ∀ (fuel : Nat) (sofar : Bytes)
    (ds later : List Bytes) (need more : Bytes),
    (∀ d ∈ ds, d ≠ []) → ds.flatten = need ++ more →
    sofar.length + need.length = payload_length → need.length ≤ fuel →
    ∃ left, read_payload payload_length fuel sofar (ds ++ later) = .ok (sofar ++ need, left) ∧
      left.flatten = more ++ later.flatten := by
  intro fuel
  induction fuel with
  | zero =>
    intro sofar ds later need more _ hflat hlen hfuel
    have hneed : need = [] := List.length_eq_zero.mp (by omega)
    subst hneed
    refine ⟨ds ++ later, ?_, by simp [hflat]⟩
    rw [read_payload_done _ _ _ _ (by simp at hlen; omega)]
    simp
  | succ fuel ih =>
    intro sofar ds later need more hne hflat hlen hfuel
    by_cases hdone : need = []
    · subst hdone
      refine ⟨ds ++ later, ?_, by simp [hflat]⟩
      rw [read_payload_done _ _ _ _ (by simp at hlen; omega)]
      simp
    · have hneedpos : 0 < need.length := List.length_pos.mpr hdone
      have hlt : sofar.length < payload_length := by omega
      have hn : payload_length - sofar.length = need.length := by omega
      cases ds with
      | nil =>
        simp only [List.flatten_nil] at hflat
        have := congrArg List.length hflat
        simp only [List.length_nil, List.length_append] at this
        omega
      | cons d rest =>
        have hd : d ≠ [] := hne d (by simp)
        have hdpos : 0 < d.length := List.length_pos.mpr hd
        simp only [List.flatten_cons] at hflat
        rw [read_payload, if_pos hlt, hn]
        by_cases hle : d.length ≤ need.length
        · obtain ⟨need', h1, h2⟩ := append_split_left hflat hle
          have hrecv : recv need.length ((d :: rest) ++ later) = (d, rest ++ later) := by
            simp [recv, hle]
          rw [hrecv]
          simp only
          rw [if_neg (by omega)]
          obtain ⟨left, hl1, hl2⟩ := ih (sofar ++ d) rest later need' more
            (fun x hx => hne x (by simp [hx])) h2
            (by rw [h1] at hlen; simp only [List.length_append] at hlen ⊢; omega)
            (by rw [h1] at hfuel; simp only [List.length_append] at hfuel; omega)
          refine ⟨left, ?_, hl2⟩
          rw [hl1, h1]
          simp
        · obtain ⟨c', h1, h2⟩ := append_split_left (a := need) (b := more) (c := d)
            (d := rest.flatten) hflat.symm (by omega)
          have htake : d.take need.length = need := by rw [h1]; simp
          have hdrop : d.drop need.length = c' := by rw [h1]; simp
          have hrecv : recv need.length ((d :: rest) ++ later)
              = (need, c' :: (rest ++ later)) := by
            simp [recv, hle, htake, hdrop]
          rw [hrecv]
          simp only
          rw [if_neg (by omega), read_payload_done _ _ _ _ (by
            simp only [List.length_append]; omega)]
          exact ⟨c' :: (rest ++ later), rfl, by simp [h2]⟩

/-- `read_peer_message` on deliveries that start with a frame written by
`send_peer_message`, the first delivery holding the four length bytes. -/
theorem read_peer_message_frame (id : Nat) (payload : Bytes)
    (hp : payload.length < 2 ^ 32 - 1) (ds later : List Bytes) (more : Bytes)
    (hne : ∀ d ∈ ds, d ≠ []) (hflat : ds.flatten = send_peer_message id payload ++ more)
    (hfirst : ∀ first ∈ ds.head?, 4 ≤ first.length) :
    ∃ left, read_peer_message (ds ++ later)
        = .ok (⟨payload.length + 1, id, payload⟩, left) ∧
      left.flatten = more ++ later.flatten := by
  have hval := be_value_htonl_bytes (payload.length + 1) (by omega)
  rw [send_peer_message_eq, List.append_assoc, List.append_assoc] at hflat
  obtain ⟨ds1, hr1, hne1, hflat1⟩ := recv_exact 4 (by omega) ds later
    (htonl_bytes ((payload.length + 1 : Nat) : Int)) ([id] ++ (payload ++ more)) hne hflat
    hval.2.1 hfirst
  obtain ⟨ds2, hr2, hne2, hflat2⟩ := recv_exact 1 (by omega) ds1 later [id] (payload ++ more)
    hne1 hflat1 rfl (by
      intro first hf
      cases ds1 with
      | nil => simp at hf
      | cons d tl =>
        simp only [List.head?_cons, Option.mem_def, Option.some.injEq] at hf
        subst hf
        exact List.length_pos.mpr (hne1 _ (by simp)))
  obtain ⟨left, hl1, hl2⟩ := read_payload_spec payload.length payload.length [] ds2 later
    payload more hne2 hflat2 (by simp) (le_refl _)
  refine ⟨left, ?_, hl2⟩
  unfold read_peer_message
  rw [hr1]
  simp only [hval.2.1, ne_eq, not_true_eq_false, if_false, hval.1]
  rw [Nat.mod_eq_of_lt (by omega), if_neg (by omega), hr2]
  simp only [Nat.add_sub_cancel]
  rw [hl1]
  simp only [List.nil_append]

/-- C20, on the code: the stream `00 00 | 00 04 07 01 02 03` begins with the
frame that `send_peer_message(7, 01 02 03)` writes, delivered in two reads
of which the first holds two of the four length bytes; `read_peer_message`
fails with "Failed to read message length". -/
theorem message_framing_counterexample :
    [[0, 0], [0, 4, 7, 1, 2, 3]].flatten = send_peer_message 7 [1, 2, 3] ∧
    read_peer_message [[0, 0], [0, 4, 7, 1, 2, 3]] = .error .runtime_error :=
  ⟨rfl, rfl⟩

/-- C20 as the code has it: `send_peer_message` emits the big-endian length
`len(payload) + 1`, the id byte and the payload, `5 + len(payload)` bytes in
all; `read_peer_message`, on deliveries that start with those bytes, the
first one holding the four length bytes and the others non-empty and of any
sizes, returns that length, id and payload and consumes exactly those bytes;
and it fails whenever the first delivery holds fewer than four bytes, or
there is none, whatever follows. -/
theorem message_framing_round_trip (id : Nat) (payload : Bytes)
    (hp : payload.length < 2 ^ 32 - 1) (ds later : List Bytes) (more : Bytes)
    (hne : ∀ d ∈ ds, d ≠ []) (hflat : ds.flatten = send_peer_message id payload ++ more)
    (hfirst : ∀ first ∈ ds.head?, 4 ≤ first.length) :
    send_peer_message id payload
      = htonl_bytes ((payload.length + 1 : Nat) : Int) ++ [id] ++ payload ∧
    be_value (htonl_bytes ((payload.length + 1 : Nat) : Int)) = payload.length + 1 ∧
    (send_peer_message id payload).length = 5 + payload.length ∧
    (∃ left, read_peer_message (ds ++ later)
        = .ok (⟨payload.length + 1, id, payload⟩, left) ∧
      left.flatten = more ++ later.flatten) ∧
    (∀ (short : Bytes) (rest : List Bytes), short.length < 4 →
      read_peer_message (short :: rest) = .error .runtime_error) ∧
    read_peer_message [] = .error .runtime_error := by
  have hval := be_value_htonl_bytes (payload.length + 1) (by omega)
  refine ⟨send_peer_message_eq id payload, hval.1, ?_,
    read_peer_message_frame id payload hp ds later more hne hflat hfirst, ?_, rfl⟩
  · rw [send_peer_message_eq]
    simp only [List.length_append, hval.2.1, List.length_singleton]
  · intro short rest hs
    have hne4 : ¬ (short.length = 4) := by omega
    simp [read_peer_message, recv, Nat.le_of_lt (Nat.lt_of_lt_of_le hs (by decide : 4 ≤ 4)),
      hne4]

/-- C20 as the code has it, at a piece message whose payload arrives in
three reads. -/
theorem message_framing_round_trip_witness :
    ∃ left, read_peer_message ([[0, 0, 0, 4, 7, 1], [2], [3, 9]] ++ [])
        = .ok (⟨[1, 2, 3].length + 1, 7, [1, 2, 3]⟩, left) ∧
      left.flatten = [9] ++ ([] : List Bytes).flatten :=
  (message_framing_round_trip 7 [1, 2, 3] (by decide) [[0, 0, 0, 4, 7, 1], [2], [3, 9]] [] [9]
    (by decide) (by decide) (by decide)).2.2.2.1

/-! ## Handshake and the first messages of `download_piece` -/

theorem stoi16_hex_digits : ∀ a < 16, ∀ c < 16,
    stoi16 [hex_digit a, hex_digit c] = .ok ((16 * a + c : Nat) : Int) := by
  intro a ha c hc
  interval_cases a <;> interval_cases c <;> rfl

/-- Converting the hexadecimal rendering back gives the bytes it was made from. -/
theorem hex_to_bytes_to_hex : ∀ d : Bytes, hex_to_bytes (to_hex d) = .ok (d.map (· % 256))
  | [] => rfl
  | b :: rest => by
    have h := stoi16_hex_digits (b / 16 % 16) (Nat.mod_lt _ (by omega)) (b % 16)
      (Nat.mod_lt _ (by omega))
    simp only [to_hex, hex_to_bytes, h, hex_to_bytes_to_hex rest, List.map_cons]
    congr 2
    omega

theorem to_hex_length : ∀ d : Bytes, (to_hex d).length = 2 * d.length
  | [] => rfl
  | b :: rest => by simp only [to_hex, List.length_cons, to_hex_length rest]; omega

theorem map_mod_of_lt (d : Bytes) (h : ∀ b ∈ d, b < 256) : d.map (· % 256) = d := by
  induction d with
  | nil => rfl
  | cons b rest ih =>
    simp only [List.map_cons]
    rw [Nat.mod_eq_of_lt (h b (by simp)), ih (fun x hx => h x (by simp [hx]))]

/-! ## The retry counter -/

/-- C13, on the code: with pieces 0 and 1 queued and `download_piece`
failing, succeeding, then failing three times, piece 0 is passed to
`download_piece` four times, more than `MAX_RETRIES`, before the loop
re-throws: the one retry counter is reset by the success of piece 1. -/
theorem retry_counter_is_shared :
    (download_loop 2
      [fun _ => .error .runtime_error, fun _ => .ok [9, 9], fun _ => .error .runtime_error,
        fun _ => .error .runtime_error, fun _ => .error .runtime_error]
      ⟨[0, 1]⟩ 0 0 ⟨[0, 0, 0, 0], true⟩).attempts = [0, 1, 0, 0, 0] ∧
    ([0, 1, 0, 0, 0] : List Int).count 0 = 4 ∧
    MAX_RETRIES = 3 ∧
    (download_loop 2
      [fun _ => .error .runtime_error, fun _ => .ok [9, 9], fun _ => .error .runtime_error,
        fun _ => .error .runtime_error, fun _ => .error .runtime_error]
      ⟨[0, 1]⟩ 0 0 ⟨[0, 0, 0, 0], true⟩).outcome = .error .runtime_error :=
  ⟨rfl, by decide, rfl, rfl⟩

/-! ## What `parse_torrent` checks -/

/-- C18, on the code: a torrent whose `info` dictionary holds nothing but a
`pieces` string of three bytes is parsed: announce and name come out empty,
piece length and length 0, and `len(pieces)` is not a multiple of 20. With
a `pieces` string of twenty bytes the record has one piece and piece length
0, and the length of that piece is a remainder by zero. -/
theorem metainfo_validation_counterexample :
    (parse_torrent sum_digest (bytes "d4:infod6:pieces3:abcee")).map
        (fun t => (t.announce, t.info.name, t.info.plength, t.info.length, t.info.pieces))
      = .ok ([], [], 0, 0, bytes "abc") ∧
    (parse_torrent sum_digest (bytes "d4:infod6:pieces20:aaaaaaaaaaaaaaaaaaaaee")).map
        (fun t => (t.info.plength, t.info.pieces.length / 20, download_piece_length t.info 0,
          recheck_piece_length t.info 0))
      = .ok (0, 1, .error .bad_remainder, .error .bad_remainder) :=
  ⟨rfl, rfl⟩

theorem get_string_cases (j : Json) :
    (∃ s, j = .str s ∧ j.get_string = .ok s) ∨
      ((∀ s, j ≠ .str s) ∧ j.get_string = .error .type_error) := by
  cases j <;> simp [Json.get_string]

theorem get_int_cases (j : Json) :
    (∃ k, j = .int k ∧ j.get_int = .ok k) ∨
      ((∀ k, j ≠ .int k) ∧ j.get_int = .error .type_error) := by
  cases j <;> simp [Json.get_int]

theorem get_strings_map_str : ∀ l : List Bytes, get_strings (l.map .str) = .ok l
  | [] => rfl
  | s :: l => by simp [get_strings, Json.get_string, get_strings_map_str l]

theorem get_strings_cases : ∀ xs : List Json,
    (∃ l : List Bytes, xs = l.map .str ∧ get_strings xs = .ok l) ∨
      ((∀ l : List Bytes, xs ≠ l.map .str) ∧ get_strings xs = .error .type_error)
  | [] => Or.inl ⟨[], rfl, rfl⟩
  | x :: xs => by
    rcases get_string_cases x with ⟨s, hx, hs⟩ | ⟨hx, hs⟩
    · rcases get_strings_cases xs with ⟨l, hl, hg⟩ | ⟨hl, hg⟩
      · exact Or.inl ⟨s :: l, by simp [hx, hl], by simp [get_strings, hs, hg]⟩
      · refine Or.inr ⟨?_, by simp [get_strings, hs, hg]⟩
        intro l h
        cases l with
        | nil => simp at h
        | cons a l => exact hl l (by simpa using (List.cons.inj h).2)
    · refine Or.inr ⟨?_, by simp [get_strings, hs]⟩
      intro l h
      cases l with
      | nil => simp at h
      | cons a l => exact hx a (by simpa using (List.cons.inj h).1)

theorem get_string_list_cases (j : Json) :
    (∃ l : List Bytes, j = .arr (l.map .str) ∧ j.get_string_list = .ok l) ∨
      ((∀ l : List Bytes, j ≠ .arr (l.map .str)) ∧ j.get_string_list = .error .type_error) := by
  cases j with
  | arr xs =>
    rcases get_strings_cases xs with ⟨l, hl, hg⟩ | ⟨hl, hg⟩
    · exact Or.inl ⟨l, by rw [hl], by simpa [Json.get_string_list] using hg⟩
    · exact Or.inr ⟨fun l h => hl l (by simpa using h), by simpa [Json.get_string_list] using hg⟩
  | _ => simp [Json.get_string_list]

/-- `j.contains(key) ? j[key].get<T>() : default` on an object, by what
`find(key)` gives. -/
theorem read_field {α : Type} (kvs : List (Bytes × Json)) (key : Bytes)
    (get : Json → Except Fault α) (dflt : α) :
    (if (Json.obj kvs).contains key = true then ((Json.obj kvs).index key).bind get
      else .ok dflt) = (map_find key kvs).elim (.ok dflt) get := by
  cases h : map_find key kvs <;> simp [Json.contains, Json.index, h, Except.bind]

theorem elim_string_cases (o : Option Json) :
    (∃ s, o.elim (Except.ok []) Json.get_string = .ok s) ∨
      o.elim (Except.ok []) Json.get_string = .error .type_error := by
  cases o with
  | none => exact Or.inl ⟨[], rfl⟩
  | some j =>
    rcases get_string_cases j with ⟨s, _, hs⟩ | ⟨_, hs⟩
    · exact Or.inl ⟨s, hs⟩
    · exact Or.inr hs

theorem elim_int_cases (o : Option Json) :
    (∃ k, o.elim (Except.ok 0) Json.get_int = .ok k) ∨
      o.elim (Except.ok 0) Json.get_int = .error .type_error := by
  cases o with
  | none => exact Or.inl ⟨0, rfl⟩
  | some j =>
    rcases get_int_cases j with ⟨k, _, hk⟩ | ⟨_, hk⟩
    · exact Or.inl ⟨k, hk⟩
    · exact Or.inr hk

/-- With an `info` dictionary that is encoded and holds a `pieces` string,
`parse_torrent` comes down to the five reads with a default. -/
theorem parse_torrent_decoded_fields (sha1 : Bytes → Bytes) (top entries : List (Bytes × Json))
    (info_bencoded pieces : Bytes)
    (hinfo : map_find (bytes "info") top = some (.obj entries))
    (henc : bencode_decoded_value (.obj entries) = .ok info_bencoded)
    (hpieces : map_find (bytes "pieces") entries = some (.str pieces)) :
    parse_torrent_decoded sha1 (.obj top) =
      ((map_find (bytes "announce") top).elim (Except.ok []) Json.get_string).bind
        fun announce =>
      ((map_find (bytes "name") entries).elim (Except.ok []) Json.get_string).bind
        fun name =>
      ((map_find (bytes "piece length") entries).elim (Except.ok 0) Json.get_int).bind
        fun plength =>
      ((map_find (bytes "length") entries).elim (Except.ok 0) Json.get_int).bind
        fun length =>
      ((map_find (bytes "path") entries).elim (Except.ok [name]) Json.get_string_list).bind
        fun path =>
      .ok { announce := announce,
            info := { name := name, plength := plength, pieces := pieces, length := length,
                      path := path, hash := (sha1 info_bencoded).map (· % 256) } } := by
  have h1 : (Json.obj top).index (bytes "info") = .ok (.obj entries) := by
    simp [Json.index, hinfo]
  have h2 : (Json.obj entries).index (bytes "pieces") = .ok (.str pieces) := by
    simp [Json.index, hpieces]
  unfold parse_torrent_decoded
  simp only [h1, henc, h2, Json.get_string, SHA1_final, hex_to_bytes_to_hex, read_field]
  generalize (map_find (bytes "announce") top).elim (Except.ok []) Json.get_string = rA
  cases rA with
  | error e => rfl
  | ok announce =>
    generalize (map_find (bytes "name") entries).elim (Except.ok []) Json.get_string = rN
    cases rN with
    | error e => rfl
    | ok name =>
      generalize (map_find (bytes "piece length") entries).elim (Except.ok 0) Json.get_int = rP
      cases rP with
      | error e => rfl
      | ok plength =>
        generalize (map_find (bytes "length") entries).elim (Except.ok 0) Json.get_int = rL
        cases rL with
        | error e => rfl
        | ok length =>
          simp only [Except.bind]
          generalize (map_find (bytes "path") entries).elim (Except.ok [name])
            Json.get_string_list = rT
          cases rT with
          | error e => rfl
          | ok path => rfl

/-- Without a `pieces` string in `info`, `parse_torrent` fails. -/
theorem parse_torrent_decoded_pieces (sha1 : Bytes → Bytes) (top entries : List (Bytes × Json))
    (info_bencoded : Bytes)
    (hinfo : map_find (bytes "info") top = some (.obj entries))
    (henc : bencode_decoded_value (.obj entries) = .ok info_bencoded)
    (hpieces : ∀ s, map_find (bytes "pieces") entries ≠ some (.str s)) :
    parse_torrent_decoded sha1 (.obj top) = .error .type_error := by
  have h1 : (Json.obj top).index (bytes "info") = .ok (.obj entries) := by
    simp [Json.index, hinfo]
  unfold parse_torrent_decoded
  simp only [h1, henc]
  cases hm : map_find (bytes "pieces") entries with
  | none => simp [Json.index, hm, Json.get_string]
  | some j =>
    rcases get_string_cases j with ⟨s, hj, _⟩ | ⟨_, hs⟩
    · exact absurd (by rw [hm, hj]) (hpieces s)
    · simp [Json.index, hm, hs]

/-- One of the five reads failing on the type makes `parse_torrent` fail,
whatever the other fields are. -/
theorem parse_torrent_decoded_reject (sha1 : Bytes → Bytes) (top entries : List (Bytes × Json))
    (info_bencoded : Bytes)
    (hinfo : map_find (bytes "info") top = some (.obj entries))
    (henc : bencode_decoded_value (.obj entries) = .ok info_bencoded)
    (h : (map_find (bytes "announce") top).elim (Except.ok []) Json.get_string
          = .error .type_error ∨
        (map_find (bytes "name") entries).elim (Except.ok []) Json.get_string
          = .error .type_error ∨
        (map_find (bytes "piece length") entries).elim (Except.ok 0) Json.get_int
          = .error .type_error ∨
        (map_find (bytes "length") entries).elim (Except.ok 0) Json.get_int
          = .error .type_error ∨
        ∀ name : Bytes, (map_find (bytes "path") entries).elim (Except.ok [name])
          Json.get_string_list = .error .type_error) :
    parse_torrent_decoded sha1 (.obj top) = .error .type_error := by
  by_cases hp : ∃ s, map_find (bytes "pieces") entries = some (.str s)
  · obtain ⟨pieces, hpieces⟩ := hp
    rw [parse_torrent_decoded_fields sha1 top entries info_bencoded pieces hinfo henc hpieces]
    rcases elim_string_cases (map_find (bytes "announce") top) with ⟨a, ha⟩ | ha
    swap
    · rw [ha]; rfl
    rcases elim_string_cases (map_find (bytes "name") entries) with ⟨n, hn⟩ | hn
    swap
    · rw [ha, hn]; rfl
    rcases elim_int_cases (map_find (bytes "piece length") entries) with ⟨pl, hpl⟩ | hpl
    swap
    · rw [ha, hn, hpl]; rfl
    rcases elim_int_cases (map_find (bytes "length") entries) with ⟨l, hl⟩ | hl
    swap
    · rw [ha, hn, hpl, hl]; rfl
    rcases h with h | h | h | h | h
    · rw [ha] at h; simp at h
    · rw [hn] at h; simp at h
    · rw [hpl] at h; simp at h
    · rw [hl] at h; simp at h
    · rw [ha, hn, hpl, hl]
      simp only [Except.bind]
      rw [h n]
  · exact parse_torrent_decoded_pieces sha1 top entries info_bencoded hinfo henc
      (fun s hs => hp ⟨s, hs⟩)

/-- C18 as the code has it, for a decoded torrent `top` whose `info` entry is
a dictionary `entries` that is encoded: `parse_torrent` returns a record
exactly when `info.pieces` is a string and each of `announce`, `info.name`
(strings), `info."piece length"`, `info.length` (integers) and `info.path`
(a list of strings) is absent or of its type; an absent field is read as the
empty string, 0, or the list holding the name, and neither `len(pieces) % 20`
nor the sign of piece length and length is looked at. It fails when
`pieces` is absent or not a string and when one of the five fields is
present with another type, whatever that value is. It also fails on a
decoded value that is not a dictionary, that has no `info` entry, whose
`info` is not a dictionary, or whose `info` cannot be encoded. -/
theorem parse_torrent_defaults (sha1 : Bytes → Bytes) (top entries : List (Bytes × Json))
    (info_bencoded : Bytes)
    (hinfo : map_find (bytes "info") top = some (.obj entries))
    (henc : bencode_decoded_value (.obj entries) = .ok info_bencoded) :
    (∀ (announce name : Option Bytes) (plength length : Option Int) (pieces : Bytes)
        (path : Option (List Bytes)),
      map_find (bytes "pieces") entries = some (.str pieces) →
      map_find (bytes "announce") top = announce.map .str →
      map_find (bytes "name") entries = name.map .str →
      map_find (bytes "piece length") entries = plength.map .int →
      map_find (bytes "length") entries = length.map .int →
      map_find (bytes "path") entries = path.map (fun l => .arr (l.map .str)) →
      parse_torrent_decoded sha1 (.obj top)
        = .ok { announce := announce.getD [],
                info := { name := name.getD [], plength := plength.getD 0, pieces := pieces,
                          length := length.getD 0, path := path.getD [name.getD []],
                          hash := (sha1 info_bencoded).map (· % 256) } }) ∧
    ((∀ s, map_find (bytes "pieces") entries ≠ some (.str s)) →
      parse_torrent_decoded sha1 (.obj top) = .error .type_error) ∧
    (∀ j, map_find (bytes "announce") top = some j → (∀ s, j ≠ .str s) →
      parse_torrent_decoded sha1 (.obj top) = .error .type_error) ∧
    (∀ j, map_find (bytes "name") entries = some j → (∀ s, j ≠ .str s) →
      parse_torrent_decoded sha1 (.obj top) = .error .type_error) ∧
    (∀ j, map_find (bytes "piece length") entries = some j → (∀ k, j ≠ .int k) →
      parse_torrent_decoded sha1 (.obj top) = .error .type_error) ∧
    (∀ j, map_find (bytes "length") entries = some j → (∀ k, j ≠ .int k) →
      parse_torrent_decoded sha1 (.obj top) = .error .type_error) ∧
    (∀ j, map_find (bytes "path") entries = some j →
      (∀ l : List Bytes, j ≠ .arr (l.map .str)) →
      parse_torrent_decoded sha1 (.obj top) = .error .type_error) ∧
    (∀ v : Json, (∀ kvs, v ≠ .obj kvs) → ∃ e, parse_torrent_decoded sha1 v = .error e) ∧
    (∀ other : List (Bytes × Json), map_find (bytes "info") other = none →
      parse_torrent_decoded sha1 (.obj other) = .error .runtime_error) ∧
    (∀ (other : List (Bytes × Json)) (j : Json), map_find (bytes "info") other = some j →
      (∀ kvs, j ≠ .obj kvs) → ∃ e, parse_torrent_decoded sha1 (.obj other) = .error e) ∧
    (∀ (other inner : List (Bytes × Json)) (e : Fault),
      map_find (bytes "info") other = some (.obj inner) →
      bencode_decoded_value (.obj inner) = .error e →
      parse_torrent_decoded sha1 (.obj other) = .error e) := by
  refine ⟨?_, ?_, ?_, ?_, ?_, ?_, ?_, ?_, ?_, ?_, ?_⟩
  · intro announce name plength length pieces path hP hA hN hPL hL hT
    rw [parse_torrent_decoded_fields sha1 top entries info_bencoded pieces hinfo henc hP,
      hA, hN, hPL, hL, hT]
    cases announce <;> cases name <;> cases plength <;> cases length <;> cases path <;>
      simp [Except.bind, Json.get_string, Json.get_int, Json.get_string_list,
        get_strings_map_str]
  · exact parse_torrent_decoded_pieces sha1 top entries info_bencoded hinfo henc
  · intro j hj hne
    refine parse_torrent_decoded_reject sha1 top entries info_bencoded hinfo henc (Or.inl ?_)
    rw [hj]
    rcases get_string_cases j with ⟨s, hs, _⟩ | ⟨_, hs⟩
    · exact absurd hs (hne s)
    · exact hs
  · intro j hj hne
    refine parse_torrent_decoded_reject sha1 top entries info_bencoded hinfo henc
      (Or.inr (Or.inl ?_))
    rw [hj]
    rcases get_string_cases j with ⟨s, hs, _⟩ | ⟨_, hs⟩
    · exact absurd hs (hne s)
    · exact hs
  · intro j hj hne
    refine parse_torrent_decoded_reject sha1 top entries info_bencoded hinfo henc
      (Or.inr (Or.inr (Or.inl ?_)))
    rw [hj]
    rcases get_int_cases j with ⟨k, hk, _⟩ | ⟨_, hk⟩
    · exact absurd hk (hne k)
    · exact hk
  · intro j hj hne
    refine parse_torrent_decoded_reject sha1 top entries info_bencoded hinfo henc
      (Or.inr (Or.inr (Or.inr (Or.inl ?_))))
    rw [hj]
    rcases get_int_cases j with ⟨k, hk, _⟩ | ⟨_, hk⟩
    · exact absurd hk (hne k)
    · exact hk
  · intro j hj hne
    refine parse_torrent_decoded_reject sha1 top entries info_bencoded hinfo henc
      (Or.inr (Or.inr (Or.inr (Or.inr ?_))))
    intro name
    rw [hj]
    rcases get_string_list_cases j with ⟨l, hl, _⟩ | ⟨_, hl⟩
    · exact absurd hl (hne l)
    · exact hl
  · intro v hv
    cases v with
    | obj kvs => exact absurd rfl (hv kvs)
    | null =>
      exact ⟨.runtime_error, by simp [parse_torrent_decoded, Json.index, bencode_decoded_value]⟩
    | str s => exact ⟨.type_error, by simp [parse_torrent_decoded, Json.index]⟩
    | int n => exact ⟨.type_error, by simp [parse_torrent_decoded, Json.index]⟩
    | arr xs => exact ⟨.type_error, by simp [parse_torrent_decoded, Json.index]⟩
  · intro other hnone
    simp [parse_torrent_decoded, Json.index, hnone, bencode_decoded_value]
  · intro other j hj hne
    cases j with
    | obj kvs => exact absurd rfl (hne kvs)
    | null =>
      exact ⟨.runtime_error,
        by simp [parse_torrent_decoded, Json.index, hj, bencode_decoded_value]⟩
    | str s =>
      exact ⟨.type_error,
        by simp [parse_torrent_decoded, Json.index, hj, bencode_decoded_value]⟩
    | int n =>
      exact ⟨.type_error,
        by simp [parse_torrent_decoded, Json.index, hj, bencode_decoded_value]⟩
    | arr xs =>
      exact ⟨.type_error,
        by simp [parse_torrent_decoded, Json.index, hj, bencode_decoded_value]⟩
  · intro other inner e hi he
    simp [parse_torrent_decoded, Json.index, hi, he]

/-- C18 as the code has it, at the torrent `d4:infod6:pieces3:abcee`: a
record with the defaults and a `pieces` string of three bytes. -/
theorem parse_torrent_defaults_witness :
    parse_torrent_decoded sum_digest
        (.obj [(bytes "info", .obj [(bytes "pieces", .str (bytes "abc"))])])
      = .ok { announce := (none : Option Bytes).getD [],
              info := { name := (none : Option Bytes).getD [],
                        plength := (none : Option Int).getD 0, pieces := bytes "abc",
                        length := (none : Option Int).getD 0,
                        path := (none : Option (List Bytes)).getD
                          [(none : Option Bytes).getD []],
                        hash := (sum_digest (bytes "d6:pieces3:abce")).map (· % 256) } } :=
  (parse_torrent_defaults sum_digest
    [(bytes "info", .obj [(bytes "pieces", .str (bytes "abc"))])]
    [(bytes "pieces", .str (bytes "abc"))] (bytes "d6:pieces3:abce") rfl rfl).1
    none none none none (bytes "abc") none rfl rfl rfl rfl rfl rfl

/-! ## The resume scan -/

theorem recheck_piece_length_ok (info : Info) (i : Nat) (hpl : 0 < info.plength)
    (hpl2 : info.plength < 2 ^ 63) (hlen : 0 ≤ info.length) :
    ∃ n, recheck_piece_length info i = .ok n ∧ n < 2 ^ 63 := by
  have hsz : ∀ v : Int, 0 ≤ v → v < 2 ^ 63 → to_size_t v < 2 ^ 63 := by
    intro v h0 h1
    unfold to_size_t
    omega
  unfold recheck_piece_length
  simp only
  split_ifs with h
  · have hrem : int64_rem info.length info.plength
        = .ok (Int.tmod info.length info.plength) := by
      unfold int64_rem
      rw [if_neg (by omega)]
    rw [hrem]
    refine ⟨_, rfl, hsz _ ?_ ?_⟩
    · rw [Int.tmod_eq_emod hlen (by omega)]
      exact Int.emod_nonneg _ (by omega)
    · rw [Int.tmod_eq_emod hlen (by omega)]
      have := Int.emod_lt_of_pos info.length hpl
      omega
  · exact ⟨_, rfl, hsz _ (by omega) hpl2⟩

/-- On a file that exists, the scan adds every piece index to the queue,
whatever the file holds: the 40 hexadecimal characters `SHA1::final()`
returns never equal the 20 bytes of `info.pieces` they are compared with. -/
theorem recheck_loop_adds_all (sha1 : Bytes → Bytes) (h20 : ∀ d, (sha1 d).length = 20)
    (info : Info) (hpl : 0 < info.plength) (hpl2 : info.plength < 2 ^ 63)
    (hlen : 0 ≤ info.length) :
    ∀ (remaining i : Nat) (file : InputFile) (worker_queue : WorkerQueue),
    recheck_loop sha1 info remaining i file worker_queue
      = .ok ⟨worker_queue.queue
          ++ (List.range remaining).map (fun j => to_int32 ((i + j : Nat) : Int))⟩
  | 0, _, _, worker_queue => by simp [recheck_loop]
  | remaining + 1, i, file, worker_queue => by
    obtain ⟨n, hn, hn2⟩ := recheck_piece_length_ok info i hpl hpl2 hlen
    have key : ∀ j : Nat, i + 1 + j = i + (j + 1) := fun j => by omega
    have hstep : ∀ f : InputFile,
        recheck_loop sha1 info remaining (i + 1) f (worker_queue.add_piece (to_int32 (i : Int)))
          = .ok ⟨worker_queue.queue
              ++ (List.range (remaining + 1)).map (fun j => to_int32 ((i + j : Nat) : Int))⟩ := by
      intro f
      rw [recheck_loop_adds_all sha1 h20 info hpl hpl2 hlen remaining (i + 1) f,
        List.range_succ_eq_map, List.map_cons, List.map_map]
      simp only [key, Function.comp_def, Nat.succ_eq_add_one, Nat.add_zero,
        WorkerQueue.add_piece, List.append_assoc, List.singleton_append]
    rw [recheck_loop, hn]
    simp only
    rw [if_neg (by omega)]
    rcases hsr : seek_and_read file ((i : Int) * info.plength) n with ⟨buffer, gcount, file'⟩
    simp only
    split_ifs with h1 h2
    · exact hstep file'
    · exfalso
      have hl := congrArg List.length h2
      rw [SHA1_final, to_hex_length, h20] at hl
      have : ((info.pieces.drop (i * 20)).take 20).length ≤ 20 := by
        rw [List.length_take]; omega
      omega
    · exact hstep file'

theorem recheck_existing_file_adds_all (sha1 : Bytes → Bytes)
    (h20 : ∀ d, (sha1 d).length = 20) (info : Info) (contents : Bytes)
    (worker_queue : WorkerQueue) (hpl : 0 < info.plength) (hpl2 : info.plength < 2 ^ 63)
    (hlen : 0 ≤ info.length) :
    recheck_existing_file sha1 (some contents) info worker_queue
      = .ok ⟨worker_queue.queue
          ++ (List.range (info.pieces.length / 20)).map (fun j => to_int32 ((j : Nat) : Int))⟩ := by
  have h := recheck_loop_adds_all sha1 h20 info hpl hpl2 hlen (info.pieces.length / 20) 0
    ⟨contents, false⟩ worker_queue
  simp only [Nat.zero_add] at h
  exact h

theorem add_all_pieces_eq : ∀ (remaining i : Nat) (worker_queue : WorkerQueue),
    add_all_pieces remaining i worker_queue
      = ⟨worker_queue.queue
          ++ (List.range remaining).map (fun j => to_int32 ((i + j : Nat) : Int))⟩
  | 0, _, worker_queue => by simp [add_all_pieces]
  | remaining + 1, i, worker_queue => by
    have key : ∀ j : Nat, i + 1 + j = i + (j + 1) := fun j => by omega
    rw [add_all_pieces, add_all_pieces_eq remaining (i + 1), List.range_succ_eq_map,
      List.map_cons, List.map_map]
    simp only [key, Function.comp_def, Nat.succ_eq_add_one, Nat.add_zero,
      WorkerQueue.add_piece, List.append_assoc, List.singleton_append]

/-- C12, on the code: the file `hello world!` is complete for
`hello_torrent` (its twelve bytes can be read and their digest is the
`pieces` entry), yet `recheck_existing_file` started on an empty queue
enqueues index 0: it compares the 40 hexadecimal characters of
`SHA1::final()` with the 20 raw bytes. When the file does not exist every
index is enqueued in ascending order, as claimed. -/
theorem resume_scan_enqueues_verified_piece :
    hello_torrent.valid ∧
    recheck_piece_length hello_torrent.info 0 = .ok 12 ∧
    (seek_and_read ⟨bytes "hello world!", false⟩ 0 12).2.1 = 12 ∧
    sum_digest (seek_and_read ⟨bytes "hello world!", false⟩ 0 12).1
      = (hello_torrent.info.pieces.drop (0 * 20)).take 20 ∧
    recheck_existing_file sum_digest (some (bytes "hello world!")) hello_torrent.info ⟨[]⟩
      = .ok ⟨[0]⟩ ∧
    (SHA1_final sum_digest (bytes "hello world!")).length = 40 ∧
    (∀ (sha1 : Bytes → Bytes) (info : Info) (worker_queue : WorkerQueue),
      recheck_existing_file sha1 none info worker_queue
        = .ok ⟨worker_queue.queue
            ++ (List.range (info.pieces.length / 20)).map
                (fun j => to_int32 ((j : Nat) : Int))⟩) := by
  refine ⟨?_, rfl, rfl, rfl, rfl, rfl, ?_⟩
  · simp only [Torrent.valid, hello_torrent, sum_digest, bytes]
    decide
  · intro sha1 info worker_queue
    have h := add_all_pieces_eq (info.pieces.length / 20) 0 worker_queue
    simp only [Nat.zero_add] at h
    simp only [recheck_existing_file, h]

/-- C11, on the code: `download_complete_file` run on the complete file
`hello world!` of `hello_torrent` (one piece, whose digest is the `pieces`
entry). Opening the output file for pre-allocation truncates it, so the file
ends up as twelve zero bytes; the resume scan leaves index 0 in the queue;
and `download_piece` is called, here three times on a peer that delivers
nothing, after which the run ends with the exception re-thrown. -/
theorem resume_rewrites_complete_file :
    hello_torrent.valid ∧
    sum_digest ((bytes "hello world!").take 12)
      = (hello_torrent.info.pieces.drop (0 * 20)).take 20 ∧
    preallocate (some (bytes "hello world!")) 12 = List.replicate 12 0 ∧
    hello_rerun.output = some (List.replicate 12 0) ∧
    List.replicate 12 0 ≠ bytes "hello world!" ∧
    hello_rerun.scanned = [0] ∧
    hello_rerun.attempts = [0, 0, 0] ∧
    hello_rerun.outcome = .error .runtime_error := by
  refine ⟨?_, rfl, rfl, rfl, by decide, rfl, rfl, rfl⟩
  simp only [Torrent.valid, hello_torrent, sum_digest, bytes]
  decide

/-! ## Verification before writing -/

theorem slice_eq_of_getD (ph pieces : Bytes) (base : Nat) (hlen : ph.length = 20)
    (h : ∀ j < 20, base + j < pieces.length ∧ ph.getD j 0 = pieces.getD (base + j) 0) :
    ph = (pieces.drop base).take 20 := by
  apply List.ext_getElem?
  intro n
  by_cases hn : n < 20
  · obtain ⟨h1, h2⟩ := h n hn
    rw [List.getElem?_take_of_lt hn, List.getElem?_drop]
    rw [List.getD_eq_getElem _ _ (by omega), List.getD_eq_getElem _ _ h1] at h2
    rw [List.getElem?_eq_getElem (by omega), List.getElem?_eq_getElem h1, h2]
  · rw [List.getElem?_eq_none (by omega), List.getElem?_eq_none (by simp; omega)]

theorem verify_piece_hash_ok (ph pieces : Bytes) (idx : Int) : ∀ (remaining i : Nat),
    verify_piece_hash ph pieces idx remaining i = .ok () →
    ∀ j, i ≤ j → j < i + remaining →
      to_size_t (idx * 20) + j < pieces.length ∧
        ph.getD j 0 = pieces.getD (to_size_t (idx * 20) + j) 0
  | 0, i, _, j, h1, h2 => by omega
  | remaining + 1, i, h, j, h1, h2 => by
    rw [verify_piece_hash] at h
    split_ifs at h with hr hne
    · rcases Nat.eq_or_lt_of_le h1 with heq | hlt
      · subst heq
        exact ⟨hr.2, by simpa using hne⟩
      · exact verify_piece_hash_ok ph pieces idx remaining (i + 1) h j (by omega) (by omega)

/-- A piece passes `verify_piece` only if its digest is the entry of
`info.pieces` for its index. -/
theorem verify_piece_ok (sha1 : Bytes → Bytes) (h20 : ∀ d, (sha1 d).length = 20)
    (hbyte : ∀ d, ∀ b ∈ sha1 d, b < 256) (info : Info) (idx : Int) (data out : Bytes)
    (h : verify_piece sha1 info idx data = .ok out) :
    out = data ∧ sha1 data = (info.pieces.drop (to_size_t (idx * 20))).take 20 := by
  unfold verify_piece at h
  rw [SHA1_final, hex_to_bytes_to_hex, map_mod_of_lt _ (hbyte data)] at h
  simp only at h
  split at h
  · simp at h
  · rename_i hv
    simp only [Except.ok.injEq] at h
    refine ⟨h.symm, slice_eq_of_getD _ _ _ (h20 data) ?_⟩
    intro j hj
    exact verify_piece_hash_ok _ _ _ 20 0 hv j (by omega) (by omega)

/-- `download_piece` returns a piece only if its digest is the entry of
`info.pieces` for its index. -/
theorem download_piece_ok (sha1 : Bytes → Bytes) (h20 : ∀ d, (sha1 d).length = 20)
    (hbyte : ∀ d, ∀ b ∈ sha1 d, b < 256) (peer_id : Bytes) (info : Info) (info_hash : Bytes)
    (idx : Int) (inbound : List Bytes) (data : Bytes)
    (h : (download_piece sha1 peer_id info info_hash idx inbound).2 = .ok data) :
    sha1 data = (info.pieces.drop (to_size_t (idx * 20))).take 20 := by
  unfold download_piece at h
  simp only at h
  repeat' split at h
  all_goals first
    | (simp at h; done)
    | (obtain ⟨h1, h2⟩ := verify_piece_ok sha1 h20 hbyte info idx _ data h
       rw [h1]
       exact h2)

/-- Every write of the download loop puts at `i * plength` the bytes a call
of `download_piece` returned for a piece index `i` it was passed. -/
theorem download_loop_writes (plength : Int) (Q : Int → Bytes → Prop) :
    ∀ (calls : List (Int → Except Fault Bytes)) (worker_queue : WorkerQueue)
      (piece_index retry_count : Int) (file : OutputFile),
    (∀ call ∈ calls, ∀ i data, call i = .ok data → Q i data) →
    ∀ w ∈ (download_loop plength calls worker_queue piece_index retry_count file).writes,
      ∃ i ∈ (download_loop plength calls worker_queue piece_index retry_count file).attempts,
        w.1 = i * plength ∧ Q i w.2
  | [], worker_queue, piece_index, _, file, _, w, hw => by
    obtain ⟨queue⟩ := worker_queue
    cases queue <;> simp [download_loop, WorkerQueue.get_next_piece] at hw
  | call :: calls, worker_queue, piece_index, retry_count, file, hQ, w, hw => by
    obtain ⟨queue⟩ := worker_queue
    cases queue with
    | nil => simp [download_loop, WorkerQueue.get_next_piece] at hw
    | cons front rest =>
      have hcalls : ∀ c ∈ calls, ∀ i data, c i = .ok data → Q i data :=
        fun c hc => hQ c (by simp [hc])
      simp only [download_loop, WorkerQueue.get_next_piece] at hw ⊢
      cases hcall : call front with
      | error e =>
        simp only [hcall, try_write] at hw ⊢
        split_ifs at hw ⊢ with hretry
        · obtain ⟨i, hi, h1, h2⟩ := download_loop_writes plength Q calls _ _ _ _ hcalls w hw
          exact ⟨i, by simp [hi], h1, h2⟩
        · simp at hw
      | ok piece_data =>
        simp only [hcall, try_write] at hw ⊢
        by_cases hgood : file.good = true ∧ 0 ≤ front * plength
        · simp only [hgood, and_self, if_true] at hw ⊢
          rcases List.mem_cons.mp hw with hw | hw
          · exact ⟨front, by simp, by rw [hw], by rw [hw]; exact hQ call (by simp) _ _ hcall⟩
          · obtain ⟨i, hi, h1, h2⟩ := download_loop_writes plength Q calls _ _ _ _ hcalls w hw
            exact ⟨i, by simp [hi], h1, h2⟩
        · simp only [hgood, if_false] at hw ⊢
          split_ifs at hw ⊢ with hretry
          · obtain ⟨i, hi, h1, h2⟩ := download_loop_writes plength Q calls _ _ _ _ hcalls w hw
            exact ⟨i, by simp [hi], h1, h2⟩
          · simp at hw

/-- The writes and attempts of `download_complete_file` are those of its
download loop, when it gets that far. -/
theorem download_complete_file_run (sha1 : Bytes → Bytes) (encoded_value : Bytes)
    (existing : Option Bytes) (response : Bytes) (connections : List (Bytes × List Bytes)) :
    (download_complete_file sha1 encoded_value existing response connections).writes = [] ∨
    ∃ torr worker_queue file,
      parse_torrent sha1 encoded_value = .ok torr ∧
      (download_complete_file sha1 encoded_value existing response connections).writes
        = (download_loop torr.info.plength
            (connections.map (fun c piece_index =>
              (download_piece sha1 c.1 torr.info torr.info.hash piece_index c.2).2))
            worker_queue 0 0 file).writes ∧
      (download_complete_file sha1 encoded_value existing response connections).attempts
        = (download_loop torr.info.plength
            (connections.map (fun c piece_index =>
              (download_piece sha1 c.1 torr.info torr.info.hash piece_index c.2).2))
            worker_queue 0 0 file).attempts := by
  unfold download_complete_file
  split
  · exact Or.inl rfl
  · rename_i torr hparse
    simp only
    split
    · exact Or.inl rfl
    · split
      · exact Or.inl rfl
      · split
        · exact Or.inl rfl
        · split
          · exact Or.inl rfl
          · exact Or.inr ⟨torr, _, _, hparse, rfl, rfl⟩

/-- C15: in `download_complete_file`, every write to the output file places
at offset `i * piece_length`, for a piece index `i` that was passed to
`download_piece`, a byte string whose SHA-1 is `pieces[i*20 .. (i+1)*20]`;
`download_piece` returns bytes only if they hash to that digest, so bytes
that do not make it fail; and an attempt that fails writes nothing and leaves
the output file as it was. -/
theorem verify_before_write (sha1 : Bytes → Bytes) (h20 : ∀ d, (sha1 d).length = 20)
    (hbyte : ∀ d, ∀ b ∈ sha1 d, b < 256) (encoded_value : Bytes) (existing : Option Bytes)
    (response : Bytes) (connections : List (Bytes × List Bytes)) :
    (∀ torr, parse_torrent sha1 encoded_value = .ok torr →
      ∀ w ∈ (download_complete_file sha1 encoded_value existing response connections).writes,
      ∃ i ∈ (download_complete_file sha1 encoded_value existing response connections).attempts,
        w.1 = i * torr.info.plength ∧
        sha1 w.2 = (torr.info.pieces.drop (to_size_t (i * 20))).take 20) ∧
    (∀ (peer_id : Bytes) (info : Info) (info_hash : Bytes) (i : Int) (inbound : List Bytes)
        (data : Bytes),
      (download_piece sha1 peer_id info info_hash i inbound).2 = .ok data →
      sha1 data = (info.pieces.drop (to_size_t (i * 20))).take 20) ∧
    (∀ (info : Info) (i : Int) (data : Bytes),
      sha1 data ≠ (info.pieces.drop (to_size_t (i * 20))).take 20 →
      ∃ e, verify_piece sha1 info i data = .error e) ∧
    (∀ (plength : Int) (file : OutputFile) (i : Int) (e : Fault),
      try_write plength file i (.error e) = (file, .error e)) := by
  refine ⟨?_, ?_, ?_, fun _ _ _ _ => rfl⟩
  · intro torr hparse w hw
    rcases download_complete_file_run sha1 encoded_value existing response connections with
      h | ⟨torr', worker_queue, file, hp, hwr, hat⟩
    · rw [h] at hw
      simp at hw
    · rw [hparse] at hp
      simp only [Except.ok.injEq] at hp
      subst hp
      rw [hwr] at hw
      rw [hat]
      refine download_loop_writes torr.info.plength
        (fun i data => sha1 data = (torr.info.pieces.drop (to_size_t (i * 20))).take 20)
        _ _ _ _ _ ?_ w hw
      intro call hcall i data hok
      obtain ⟨c, _, rfl⟩ := List.mem_map.mp hcall
      exact download_piece_ok sha1 h20 hbyte c.1 torr.info torr.info.hash i c.2 data hok
  · intro peer_id info info_hash i inbound data h
    exact download_piece_ok sha1 h20 hbyte peer_id info info_hash i inbound data h
  · intro info i data hne
    cases hv : verify_piece sha1 info i data with
    | error e => exact ⟨e, rfl⟩
    | ok out => exact absurd (verify_piece_ok sha1 h20 hbyte info i data out hv).2 hne

theorem sum_digest_length (d : Bytes) : (sum_digest d).length = 20 := by
  simp [sum_digest]

theorem sum_digest_bytes (d : Bytes) : ∀ b ∈ sum_digest d, b < 256 := by
  intro b hb
  simp only [sum_digest] at hb
  rw [List.eq_of_mem_replicate hb]
  exact Nat.mod_lt _ (by omega)

/-- A run that succeeds: `hello_torrent`, no file yet, and a peer that serves
the piece. The one write puts `hello world!` at offset 0. -/
theorem download_hello :
    (download_complete_file sum_digest (spec_encode hello_torrent.to_json) none
        one_peer_response
        [(List.replicate 20 7, hello_peer (sum_digest (spec_encode hello_torrent.info.to_json)))]
      ).writes = [(0, bytes "hello world!")] ∧
    (download_complete_file sum_digest (spec_encode hello_torrent.to_json) none
        one_peer_response
        [(List.replicate 20 7, hello_peer (sum_digest (spec_encode hello_torrent.info.to_json)))]
      ).output = some (bytes "hello world!") ∧
    (download_complete_file sum_digest (spec_encode hello_torrent.to_json) none
        one_peer_response
        [(List.replicate 20 7, hello_peer (sum_digest (spec_encode hello_torrent.info.to_json)))]
      ).outcome = .ok () :=
  ⟨rfl, rfl, rfl⟩

/-- C15 at the piece `hello world!` served by `hello_peer`. -/
theorem verify_before_write_witness :
    (download_piece sum_digest (List.replicate 20 7) hello_torrent.info (List.replicate 20 1) 0
        (hello_peer (List.replicate 20 1))).2 = .ok (bytes "hello world!") ∧
    sum_digest (bytes "hello world!")
      = (hello_torrent.info.pieces.drop (to_size_t (0 * 20))).take 20 :=
  ⟨rfl, (verify_before_write sum_digest sum_digest_length sum_digest_bytes [] none [] []).2.1
    (List.replicate 20 7) hello_torrent.info (List.replicate 20 1) 0
    (hello_peer (List.replicate 20 1)) (bytes "hello world!") rfl⟩

/-! ## The cursor of the decoder -/

theorem decode_string_suffix (it : Bytes) (v : Json) (it2 : Bytes)
    (h : decode_string it = .ok (v, it2)) : it2 <:+ it := by
  unfold decode_string at h
  simp only at h
  split at h
  · simp at h
  · rename_i c it1 hdrop
    have hsuf : (c :: it1) <:+ it := by
      rw [← hdrop]; exact List.dropWhile_suffix _
    split_ifs at h
    split at h
    · simp at h
    · split_ifs at h
      simp only [Except.ok.injEq, Prod.mk.injEq] at h
      rw [← h.2]
      exact ((List.drop_suffix _ _).trans (List.suffix_cons _ _)).trans hsuf

theorem decode_integer_suffix (it : Bytes) (v : Json) (it2 : Bytes)
    (h : decode_integer it = .ok (v, it2)) : it2 <:+ it := by
  unfold decode_integer at h
  split at h
  · simp at h
  · rename_i c it1
    simp only at h
    split at h
    · simp at h
    · rename_i c2 it3 hdrop
      have hsuf : (c2 :: it3) <:+ it1 := by
        rw [← hdrop]; exact List.dropWhile_suffix _
      split at h
      · simp at h
      · simp only [Except.ok.injEq, Prod.mk.injEq] at h
        rw [← h.2]
        exact ((List.suffix_cons _ _).trans hsuf).trans (List.suffix_cons _ _)

/-- A call that returns without having read beyond `end` leaves the cursor
in the same input, further on: what remains is a suffix of what remained
before. A string that runs beyond `end` is the fault `past_the_end`
(`decode_string_advance_spec`). -/
theorem fuel_suffix (fuel : Nat) :
    (∀ it v it2, decode_bencoded_value_fuel fuel it = .ok (v, it2) → it2 <:+ it) ∧
    (∀ it v it2, decode_list_fuel fuel it = .ok (v, it2) → it2 <:+ it) ∧
    (∀ it list v it2, decode_list_loop fuel it list = .ok (v, it2) → it2 <:+ it) ∧
    (∀ it v it2, decode_dict_fuel fuel it = .ok (v, it2) → it2 <:+ it) ∧
    (∀ it dict v it2, decode_dict_loop fuel it dict = .ok (v, it2) → it2 <:+ it) := by
  induction fuel with
  | zero =>
    refine ⟨?_, ?_, ?_, ?_, ?_⟩ <;> intros <;>
      simp [decode_bencoded_value_fuel, decode_list_fuel, decode_list_loop, decode_dict_fuel,
        decode_dict_loop] at *
  | succ fuel ih =>
    obtain ⟨ihV, ihL, ihLL, ihD, ihDL⟩ := ih
    refine ⟨?_, ?_, ?_, ?_, ?_⟩
    · intro it v it2 h
      cases it with
      | nil => simp [decode_bencoded_value_fuel] at h
      | cons c rest =>
        rw [decode_bencoded_value_fuel] at h
        split_ifs at h
        · exact decode_string_suffix _ _ _ h
        · exact decode_integer_suffix _ _ _ h
        · exact ihL _ _ _ h
        · exact ihD _ _ _ h
    · intro it v it2 h
      cases it with
      | nil => simp [decode_list_fuel] at h
      | cons c rest =>
        rw [decode_list_fuel] at h
        exact (ihLL _ _ _ _ h).trans (List.suffix_cons _ _)
    · intro it list v it2 h
      cases it with
      | nil => simp [decode_list_loop] at h
      | cons c rest =>
        rw [decode_list_loop] at h
        split_ifs at h
        · split at h
          · simp at h
          · rename_i value it3 hv
            exact (ihLL _ _ _ _ h).trans (ihV _ _ _ hv)
        · simp only [Except.ok.injEq, Prod.mk.injEq] at h
          rw [← h.2]; exact List.suffix_cons _ _
    · intro it v it2 h
      cases it with
      | nil => simp [decode_dict_fuel] at h
      | cons c rest =>
        rw [decode_dict_fuel] at h
        exact (ihDL _ _ _ _ h).trans (List.suffix_cons _ _)
    · intro it dict v it2 h
      cases it with
      | nil => simp [decode_dict_loop] at h
      | cons c rest =>
        rw [decode_dict_loop] at h
        split_ifs at h
        · split at h
          · simp at h
          · rename_i key it3 hk
            split at h
            · simp at h
            · rename_i value it4 hv
              split at h
              · simp at h
              · exact ((ihDL _ _ _ _ h).trans (ihV _ _ _ hv)).trans (ihV _ _ _ hk)
        · simp only [Except.ok.injEq, Prod.mk.injEq] at h
          rw [← h.2]; exact List.suffix_cons _ _

theorem decode_bencoded_value_progress (it : Bytes) (v : Json) (it2 : Bytes)
    (h : decode_bencoded_value it = .ok (v, it2)) : it2 <:+ it ∧ it2.length < it.length :=
  ⟨(fuel_suffix _).1 it v it2 h, (fuel_progress _).1 it v it2 h⟩

theorem decode_list_progress (it : Bytes) (v : Json) (it2 : Bytes)
    (h : decode_list it = .ok (v, it2)) : it2 <:+ it ∧ it2.length < it.length :=
  ⟨(fuel_suffix _).2.1 it v it2 h, (fuel_progress _).2.1 it v it2 h⟩

theorem decode_dict_progress (it : Bytes) (v : Json) (it2 : Bytes)
    (h : decode_dict it = .ok (v, it2)) : it2 <:+ it ∧ it2.length < it.length :=
  ⟨(fuel_suffix _).2.2.2.1 it v it2 h, (fuel_progress _).2.2.2.1 it v it2 h⟩

/-- The recursion bound of `decode_bencoded_value` is not felt: every larger
bound gives the same result. -/
theorem decode_bencoded_value_fuel_stable (it : Bytes) (fuel : Nat)
    (h : 3 * it.length + 1 ≤ fuel) :
    decode_bencoded_value_fuel fuel it = decode_bencoded_value it :=
  decode_bencoded_value_fuel_mono h it ((fuel_adequate _).1 it (le_refl _))

theorem decode_list_fuel_stable (it : Bytes) (fuel : Nat) (h : 3 * it.length + 1 ≤ fuel) :
    decode_list_fuel fuel it = decode_list it :=
  decode_list_fuel_mono h it ((fuel_adequate _).2.1 it (Nat.le_succ _) (Nat.succ_pos _))

theorem decode_dict_fuel_stable (it : Bytes) (fuel : Nat) (h : 3 * it.length + 1 ≤ fuel) :
    decode_dict_fuel fuel it = decode_dict it :=
  decode_dict_fuel_mono h it ((fuel_adequate _).2.2.2.1 it (Nat.le_succ _) (Nat.succ_pos _))

/-- The cursor movement of `decode_string` and its result: a call that
returns has moved the cursor by `decode_string_advance` bytes, and a movement
by more bytes than remain is a call that reads beyond `end`. -/
theorem decode_string_advance_spec (it : Bytes) (n : Int)
    (h : decode_string_advance it = .ok n) :
    ((it.length : Int) < n → decode_string it = .error .past_the_end) ∧
    (∀ v it2, decode_string it = .ok (v, it2) → (it.length : Int) - it2.length = n) := by
  have hsplit : (it.takeWhile isdigit).length + (it.dropWhile isdigit).length = it.length := by
    rw [← List.length_append, List.takeWhile_append_dropWhile]
  unfold decode_string_advance at h
  unfold decode_string
  simp only at h ⊢
  split at h
  · simp at h
  · rename_i c rest hdrop
    rw [hdrop] at hsplit
    simp only [List.length_cons] at hsplit
    split_ifs at h with hc
    simp only [if_neg hc]
    split at h
    · simp at h
    · rename_i length hlen
      simp only [Except.ok.injEq] at h
      constructor
      · intro hlt
        rw [if_neg]
        omega
      · intro v it2 hok
        split_ifs at hok with hin
        simp only [Except.ok.injEq, Prod.mk.injEq] at hok
        rw [← hok.2, List.length_drop]
        omega

/-- C21, on the code: on `l9:ee` the first round of the loop of `decode_list`
calls `decode_string` at `9:ee`, with four bytes left. The call moves the
cursor by eleven bytes (the digit, the colon, and `it += 9`), seven bytes
beyond `end`, reading the bytes in between: the cursor it leaves is not a
position of the input, and the test `it != end` of the loop does not stop
there. -/
theorem decoder_cursor_leaves_input :
    decode_string_advance (bytes "9:ee") = .ok 11 ∧
    (bytes "9:ee").length = 4 ∧
    decode_string (bytes "9:ee") = .error .past_the_end ∧
    decode_list (bytes "l9:ee") = .error .past_the_end ∧
    decode_bencoded_value (bytes "l9:ee") = .error .past_the_end :=
  ⟨rfl, rfl, rfl, rfl, rfl⟩

end BitTorrent
